import Mathlib

/-!
# OpenScope MZ: byte-buffer arithmetic of `OSMath.c`

A shallow embedding of the big-integer primitives of `src/OSMath.c`
(`OSAdd`, `OSMakeNeg`, `OSUMult`, `OSMult`, `OSDivide`) and of the
sample/time converter `GetSamples` built on them, followed by theorems
about these definitions.

Conventions of the embedding.

* A byte is a `Nat`; a well-formed buffer holds values below 256
  (`Bytes`, `MemBytes`).
* `OSAdd` is embedded over a flat byte-addressed memory, because the source
  calls it with the result buffer aliased to an operand.  The other
  routines are embedded over lists; where they call `OSAdd` in place the
  call goes through `OSAddInPlace`, which lays the buffers out in a memory
  and runs the memory-level `OSAdd`.
* C integer types are `Nat`/`Int` with explicit reduction: `uint16_t` is
  `% 65536`, `unsigned long` is `% 2^32` (the PIC32 target), `int` and
  `int32_t` casts are `toInt32`, `int64_t` arithmetic is `toInt64`.
* An automatic array that the source reads before writing it (the scratch
  arrays `lm1`, `lm2`) starts with the indeterminate content of the stack,
  which is the explicit parameter `stk`.
-/

namespace OSMath

/-! ## Integers and buffers -/

/-- Two's-complement reading of the low `w` bits of `x`. -/
def wrapInt (w : Nat) (x : Int) : Int :=
  if x % 2 ^ w < 2 ^ (w - 1) then x % 2 ^ w else x % 2 ^ w - 2 ^ w

/-- Conversion to `int32_t` / `int`. -/
def toInt32 (x : Int) : Int := wrapInt 32 x

/-- Conversion to `int64_t`. -/
def toInt64 (x : Int) : Int := wrapInt 64 x

/-- Little-endian unsigned value of a buffer. -/
def leVal : List Nat → Nat
  | [] => 0
  | b :: bs => b + 256 * leVal bs

/-- The `n` low bytes of `v`, least significant first: the memory image of
an `n`-byte unsigned integer. -/
def toBytes : Nat → Nat → List Nat
  | 0, _ => []
  | n + 1, v => v % 256 :: toBytes n (v / 256)

/-- Memory image of an `int64_t`. -/
def int64Bytes (x : Int) : List Nat := toBytes 8 (x % 2 ^ 64).toNat

/-- Every element is a byte. -/
def Bytes (l : List Nat) : Prop := ∀ b ∈ l, b < 256

/-- Sign of a buffer as the source tests it: `m[c-1] < 0` on `int8_t`. -/
def msbSet (m : List Nat) : Bool := decide (128 ≤ m.getD (m.length - 1) 0)

/-- Two's-complement signed value of a buffer. -/
def sVal (m : List Nat) : Int :=
  if msbSet m then (leVal m : Int) - (256 : Int) ^ m.length else leVal m

/-- Byte-addressed memory. -/
abbrev Mem := Nat → Nat

/-- Memory after the byte at address `a` is set to `v`. -/
def Mem.write (mem : Mem) (a v : Nat) : Mem := fun x => if x = a then v else mem x

/-- The `n` bytes at addresses `p, p+1, ...`. -/
def Mem.load (mem : Mem) (p : Nat) : Nat → List Nat
  | 0 => []
  | n + 1 => mem p :: Mem.load mem (p + 1) n

/-- Memory after the buffer `xs` is placed at address `p`. -/
def Mem.store (mem : Mem) (p : Nat) (xs : List Nat) : Mem :=
  fun a => if p ≤ a ∧ a < p + xs.length then xs.getD (a - p) 0 else mem a

/-- The bytes of the region `[p, p+n)` are bytes. -/
def MemBytes (mem : Mem) (p n : Nat) : Prop := ∀ i, i < n → mem (p + i) < 256

/-- Streaming safety of a result buffer at `r` against an operand at `m`
of length `cm`: the write of `r[i]` never lands on a byte `m[j]` that is
read later (`j > i`). It holds when the regions are disjoint and when
`r = m`. -/
def StreamSafe (m cm r cr : Nat) : Prop :=
  ∀ i j, i < j → j < cr → j < cm → r + i ≠ m + j

/-! ## OSAdd (lines 17-35) -/

/-- One iteration of the loop of `OSAdd`, on the state `(sum, memory)`:
both operand bytes are read, then `r[i]` is written, then `sum >>= 8`. -/
def OSAdd_body (m1 cm1 m2 cm2 r : Nat) (st : Nat × Mem) (i : Nat) : Nat × Mem :=
  let sum := st.1
  let mem := st.2
  let sum := if i < cm1 then (sum + mem (m1 + i)) % 65536 else sum
  let sum := if i < cm2 then (sum + mem (m2 + i)) % 65536 else sum
  (sum / 256, mem.write (r + i) (sum % 256))

/-- `OSAdd(m1, cm1, m2, cm2, r, cr)` on a memory; `m1`, `m2`, `r` are
addresses and may coincide. Returns the return value and the memory. -/
def OSAdd (mem : Mem) (m1 cm1 m2 cm2 r cr : Nat) : Bool × Mem :=
  (true, ((List.range cr).foldl (OSAdd_body m1 cm1 m2 cm2 r) (0, mem)).2)

/-- The call `OSAdd(x, cx, y, cy, x, cx)` of the source, result buffer
aliased to the first operand: `x` is placed at address 0, `y` right after
it, and the result is read back from address 0. -/
def OSAddInPlace (x y : List Nat) : List Nat :=
  let mem : Mem := Mem.store (Mem.store (fun _ => 0) 0 x) x.length y
  (OSAdd mem 0 x.length x.length y.length 0 x.length).2.load 0 x.length

/-! ## OSMakeNeg (lines 37-46) -/

/-- `OSMakeNeg(m1, cm1)`: complement every byte, then add one in place. -/
def OSMakeNeg (m1 : List Nat) : Bool × List Nat :=
  let m1 := m1.map (fun b => 255 - b)
  (true, OSAddInPlace m1 [1])

/-! ## OSUMult (lines 48-74) -/

/-- The carry loop `for(ir = im1+im2; sr != 0 && ir < cr; ir++)` of
`OSUMult`; the first argument bounds the number of iterations. -/
def OSUMult_carry (cr : Nat) : Nat → Nat → Nat → List Nat → List Nat
  | 0, _, _, r => r
  | fuel + 1, ir, sr, r =>
    if sr ≠ 0 ∧ ir < cr then
      let sr := (sr + r.getD ir 0) % 2 ^ 32
      OSUMult_carry cr fuel (ir + 1) (sr / 256) (r.set ir (sr % 256))
    else r

/-- `OSUMult(m1, cm1, m2, cm2, r, cr)` with `cm1 = m1.length`,
`cm2 = m2.length` and a result buffer distinct from the operands. -/
def OSUMult (m1 m2 : List Nat) (cr : Nat) : Bool × List Nat :=
  let cm1 := m1.length
  let cm2 := m2.length
  let r := List.replicate cr 0
  if cr < (cm1 + cm2) % 2 ^ 32 then (false, r)
  else
    (true, (List.range cm2).foldl (fun r im2 =>
      (List.range cm1).foldl (fun r im1 =>
        let sr := (m1.getD im1 0 * m2.getD im2 0) % 2 ^ 32
        OSUMult_carry cr cr (im1 + im2) sr r) r) r)

/-! ## OSMult (lines 76-110) -/

/-- Initial content of an automatic array of `n` bytes at stack offset
`off`. -/
def uninit (stk : Nat → Nat) (off n : Nat) : List Nat :=
  (List.range n).map (fun i => stk (off + i))

/-- `OSMult(m1, cm1, m2, cm2, r, cr)`. The scratch arrays `lm1`, `lm2` are
declared without initialiser; on a negative operand the source negates the
scratch array as it stands, without copying the operand into it. -/
def OSMult (stk : Nat → Nat) (m1 m2 : List Nat) (cr : Nat) : Bool × List Nat :=
  let cm1 := m1.length
  let cm2 := m2.length
  let negative := false
  let lm1 := uninit stk 0 cm1
  let lm2 := uninit stk cm1 cm2
  let (negative, lm1) :=
    if msbSet m1 then (xor negative true, (OSMakeNeg lm1).2) else (negative, m1)
  let (negative, lm2) :=
    if msbSet m2 then (xor negative true, (OSMakeNeg lm2).2) else (negative, m2)
  let r := (OSUMult lm1 lm2 cr).2
  let r := if negative then (OSMakeNeg r).2 else r
  (true, r)

/-! ## OSDivide (lines 112-194) -/

/-- The long-division loop `for(i = cm1 - 8; i >= 0; i--)` of `OSDivide`
on the state `(lm1, r)`; the first argument is `i + 1`. `d1` is the divisor
as the unsigned division sees it and `cr32` is `(int32_t) cr`, the value
the loop compares `i` against. -/
def OSDivide_loop (d1 : Nat) (cr32 : Int) : Nat → List Nat → List Nat → List Nat × List Nat
  | 0, lm1, r => (lm1, r)
  | i + 1, lm1, r =>
    let m2 := leVal ((lm1.drop i).take 8)
    let q2 := m2 / d1
    let r :=
      if (i : Int) < cr32 then r.take i ++ OSAddInPlace (r.drop i) (toBytes 8 q2)
      else r
    let r2 := m2 % d1
    let lm1 := lm1.take i ++ toBytes 8 r2 ++ lm1.drop (i + 8)
    OSDivide_loop d1 cr32 i lm1 r

/-- The body of `OSDivide(m1, cm1, d1, r, cr)` with `cm1 = m1.length`:
the return value, the result buffer `r` and the scratch array `lm1` as the
function leaves them. The scratch array `lm1` is declared without
initialiser; on a negative dividend the source negates it as it stands,
without copying the dividend into it. For `cm1 = 0` the source reads
`m1[-1]`; the model reads 0 there. -/
def OSDivide_state (stk : Nat → Nat) (m1 : List Nat) (d1 : Int) (cr : Nat) :
    Bool × List Nat × List Nat :=
  let cm1 := m1.length
  let negative := false
  let lm1 := uninit stk 0 cm1
  let r := List.replicate cr 0
  if d1 = 0 then (false, r, lm1)
  else if cm1 ≤ 8 then
    let r1 := if msbSet m1 then List.replicate 8 255 else List.replicate 8 0
    let r1 := m1 ++ r1.drop cm1
    let r1 := toInt64 (leVal r1)
    let r1 := toInt64 (Int.tdiv r1 d1)
    let r := if r1 < 0 then List.replicate cr 255 else r
    let cr8 := if 8 < cr then 8 else cr
    let r := (int64Bytes r1).take cr8 ++ r.drop cr8
    (true, r, lm1)
  else
    let (negative, d1) :=
      if d1 < 0 then (xor negative true, toInt64 (-d1)) else (negative, d1)
    let (negative, lm1) :=
      if msbSet m1 then (xor negative true, (OSMakeNeg lm1).2) else (negative, m1)
    let i := toInt32 (((cm1 : Int) - 8) % 2 ^ 32)
    let (lm1, r) := OSDivide_loop (d1 % 2 ^ 64).toNat (toInt32 cr) (i + 1).toNat lm1 r
    let r := if negative then (OSMakeNeg r).2 else r
    (true, r, lm1)

/-- `OSDivide(m1, cm1, d1, r, cr)`: return value and result buffer. -/
def OSDivide (stk : Nat → Nat) (m1 : List Nat) (d1 : Int) (cr : Nat) : Bool × List Nat :=
  let s := OSDivide_state stk m1 d1 cr
  (s.1, s.2.1)

/-! ## GetSamples (lines 230-274) -/

/-- `GetSamples(psec, xsps, scaleSPS)`; `psec`, `xsps` are `int64_t`,
`scaleSPS` is `uint32_t`. -/
def GetSamples (stk : Nat → Nat) (psec xsps : Int) (scaleSPS : Nat) : Int :=
  let np : Int := 1
  let half : Nat := 500000000000
  let (psec, np) := if psec < 0 then (toInt64 (psec * -1), (-1 : Int)) else (psec, np)
  let r := (OSUMult (int64Bytes psec) (int64Bytes xsps) 16).2
  let r2 := (OSDivide stk r (scaleSPS : Int) 16).2
  let r2 := OSAddInPlace r2 (toBytes 8 half)
  let samp := toInt64 (leVal (OSDivide stk r2 1000000000000 8).2)
  toInt64 (samp * np)

/-! ## GetPicoSec (lines 276-306) -/

/-- `GetPicoSec(samp, xsps, scaleSPS)`; `samp`, `xsps` are `int64_t`,
`scaleSPS` is `uint32_t`. -/
def GetPicoSec (stk : Nat → Nat) (samp xsps : Int) (scaleSPS : Nat) : Int :=
  let np : Int := 1
  let psScaleSPS : Nat := (1000000000000 * scaleSPS) % 2 ^ 64
  let half : Nat := (Int.tdiv xsps 2 % 2 ^ 64).toNat
  let (samp, np) := if samp < 0 then (toInt64 (samp * -1), (-1 : Int)) else (samp, np)
  let r := (OSUMult (int64Bytes samp) (toBytes 8 psScaleSPS) 16).2
  let r := OSAddInPlace r (toBytes 8 half)
  let psec := toInt64 (leVal (OSDivide stk r xsps 8).2)
  toInt64 (psec * np)

/-! ## CalculatePreScalarAndPeriod (lines 308-380)

The macros `TMRMINSPS` and `MAXTMRPRX` come from `OpenScope.h`, which is not
part of the sources at hand; they are parameters. The product
`TMRMINSPS * scaleSPS` is taken without reduction. -/

/-- What `CalculatePreScalarAndPeriod` hands back: the returned rate and
the values stored through `pPreScalar`, `pPeriod`, `pCnt`. -/
structure TimerSetup where
  rate : Nat
  preScalar : Nat
  period : Nat
  cnt : Nat
deriving DecidableEq, Repr

/-- The loop `for(preScalar=0; preScalar<9; preScalar++)` with its `break`,
on the state `(preScalar, preDivide)`; the first argument is
`9 - preScalar`. Returns `(preScalar, preDivide, tmr)` as the loop leaves
them. -/
def prescalarSearch (MAXTMRPRX tmr : Nat) : Nat → Nat → Nat → Nat × Nat × Nat
  | 0, preScalar, preDivide => (preScalar, preDivide, tmr)
  | n + 1, preScalar, preDivide =>
    let tmrT := (tmr + preDivide / 2) % 2 ^ 64 / preDivide
    if tmrT ≤ MAXTMRPRX then (preScalar, preDivide, tmrT)
    else prescalarSearch MAXTMRPRX tmr n (preScalar + 1) (preDivide * 2 % 2 ^ 32)

/-- The low-rate branch (lines 319-332): `(tmr, cnt)` as it leaves them. -/
def lowRateSplit (MAXTMRPRX tmr : Nat) : Nat × Nat :=
  let tmr := (tmr + 128) % 2 ^ 64 / 256
  let cnt := tmr / MAXTMRPRX % 2 ^ 32
  let cnt := if tmr % MAXTMRPRX > 0 then (cnt + 1) % 2 ^ 32 else cnt
  let cnt := if cnt = 0 then 1 else cnt
  let tmr := (tmr + cnt / 2) % 2 ^ 64 / cnt
  (tmr, cnt)

/-- The fix-ups after the search loop (lines 351-362) on
`(preScalar, preDivide, tmr)`. -/
def prescalarFixup (st : Nat × Nat × Nat) : Nat × Nat × Nat :=
  if st.1 = 8 then (7, st.2.1, st.2.2)
  else if st.1 = 7 then (st.1, st.2.1 * 2 % 2 ^ 32, (st.2.2 + 1) % 2 ^ 64 / 2)
  else st

/-- The return expression and the stores of lines 373-379. -/
def timerResult (pbXScale preDivide cnt tmr preScalar : Nat) : TimerSetup :=
  { rate := (pbXScale / preDivide + cnt * tmr % 2 ^ 64 / 2) % 2 ^ 64 / (cnt * tmr % 2 ^ 64)
    preScalar := preScalar
    period := tmr % 2 ^ 32
    cnt := cnt }

/-- `CalculatePreScalarAndPeriod(xsps, scaleSPS, pbClk, &preScalar, &period,
&cnt)` with all three pointers non-null; `xsps` is `uint64_t`, `scaleSPS` and
`pbClk` are `uint32_t`. A division by zero, undefined in C, gives 0. -/
def CalculatePreScalarAndPeriod (TMRMINSPS MAXTMRPRX : Nat) (xsps scaleSPS pbClk : Nat) :
    TimerSetup :=
  let pbXScale := pbClk * scaleSPS % 2 ^ 64
  let tmr := (pbXScale + xsps / 2) % 2 ^ 64 / xsps
  if xsps < TMRMINSPS * scaleSPS then
    let tc := lowRateSplit MAXTMRPRX tmr
    timerResult pbXScale 256 tc.2 tc.1 7
  else
    let st := prescalarFixup (prescalarSearch MAXTMRPRX tmr 9 0 1)
    if st.2.2 = 0 ∨ st.1 = 9 then timerResult 0 st.2.1 1 1 0
    else timerResult pbXScale st.2.1 1 st.2.2 st.1

/-! ## ScrollBuffer (lines 382-409)

`memcpy` between two arrays is `copyInto`. `memcpy` inside `rgBuff` is the
parameter `memcpy` of `ScrollBuffer`: line 405 calls it with overlapping
regions, where the C standard leaves the behaviour undefined, so the model
fixes no copying order; `MemcpyContract` is what the standard does fix.
`ASSERT` comes from
`OpenScope.h`, which is not part of the sources at hand: the model runs the
code past it and the asserted condition is a hypothesis or a conclusion of
the theorems. The `int32_t` sums that can leave the `int32_t` range are
reduced with `toInt32`. A negative element count, which the source would
convert to a huge `size_t`, copies nothing here; the theorems stay away from
it. -/

/-- The fields of `BIDX` that `CalculateBufferIndexes` reads or writes. -/
structure BIDX where
  fInterleave : Bool
  xsps : Nat
  mHzInterleave : Nat
  pbClkSampTmr : Nat
  tmrPreScalar : Nat
  tmrPeriod : Nat
  tmrCnt : Nat
  psDelay : Int
  dlTrig2POI : Int
  cBuff : Int
  cDMABuff : Int
  cDMA : Int
  cDMASlop : Int
  iPOI : Int
  iTrg : Int
  iTrigDMA : Int
  cBeforeTrig : Int
  cDelayTmr : Int
deriving DecidableEq, Repr

/-- Lines 415-426: the interleave decision and the timer set-up. -/
def planRate (TMRMINSPS MAXTMRPRX : Nat) (b : BIDX) : BIDX :=
  let fInterleave := decide (b.xsps ≥ b.mHzInterleave)
  let t := if fInterleave
    then CalculatePreScalarAndPeriod TMRMINSPS MAXTMRPRX ((b.xsps + 1) % 2 ^ 64 / 2) 1000
      (b.pbClkSampTmr % 2 ^ 32)
    else CalculatePreScalarAndPeriod TMRMINSPS MAXTMRPRX (b.xsps % 2 ^ 64) 1000
      (b.pbClkSampTmr % 2 ^ 32)
  { b with
    fInterleave := fInterleave
    xsps := if fInterleave then 2 * t.rate % 2 ^ 64 else t.rate
    tmrPreScalar := t.preScalar
    tmrPeriod := t.period
    tmrCnt := t.cnt }

/-- Lines 433-442: the delay in samples, the delay written back in
picoseconds and the clamp of `cBuff`. -/
def planDelay (stk : Nat → Nat) (b : BIDX) : BIDX :=
  let dl := GetSamples stk (toInt64 b.psDelay) (toInt64 b.xsps) 1000
  let ps := GetPicoSec stk dl (toInt64 b.xsps) 1000
  { b with
    dlTrig2POI := dl
    psDelay := ps
    cBuff := if b.cBuff > b.cDMABuff then b.cDMABuff else b.cBuff }

/-- Line 439: `absTrig2POI`. -/
def absTrig2POI (b : BIDX) : Int :=
  if b.dlTrig2POI < 0 then toInt64 (-b.dlTrig2POI) else b.dlTrig2POI

/-- Lines 444-483: the placement of the trigger and the POI. -/
def placeIndexes (b : BIDX) : BIDX :=
  if absTrig2POI b < b.cBuff then
    let iPOI := Int.tdiv b.cBuff 2
    let iTrg := iPOI - toInt32 b.dlTrig2POI
    if iTrg < 0 then { b with iPOI := iPOI - iTrg, iTrg := 0 }
    else if iTrg ≥ b.cBuff then
      let s := iTrg - (b.cBuff - 1)
      { b with iTrg := iTrg - s, iPOI := iPOI - s }
    else { b with iPOI := iPOI, iTrg := iTrg }
  else if b.dlTrig2POI > 0 then { b with iTrg := -1, iPOI := Int.tdiv b.cBuff 2 }
  else { b with iTrg := b.cBuff - 1, iPOI := -1 }

/-- Lines 485-494: the DMA index of the trigger. -/
def placeTrigDMA (b : BIDX) : BIDX :=
  if b.iPOI = -1 then { b with iTrigDMA := b.cBuff - 1 }
  else if b.dlTrig2POI > 0 then
    { b with iTrigDMA := Int.tmod (b.iPOI + b.cDMA - Int.tmod (absTrig2POI b) b.cDMA) b.cDMA }
  else { b with iTrigDMA := Int.tmod (b.iPOI + absTrig2POI b) b.cDMA }

/-- Lines 498-505: the samples before the trigger and the delay in timer
ticks. -/
def planTicks (TMRPBCLK : Nat) (stk : Nat → Nat) (b : BIDX) : BIDX :=
  let cBeforeTrig := b.iTrg + Int.tdiv b.cDMASlop 2
  let cDelayTmr := GetSamples stk (toInt64 b.psDelay) ((TMRPBCLK * 1000 : Nat) : Int) 1000
    + GetSamples stk
        (GetPicoSec stk (toInt64 ((b.cBuff - b.iPOI) + Int.tdiv b.cDMASlop 2))
          (toInt64 b.xsps) 1000)
        ((TMRPBCLK * 1000 : Nat) : Int) 1000
  { b with
    cBeforeTrig := cBeforeTrig
    cDelayTmr := if cDelayTmr ≤ 0 then 1 else cDelayTmr }

/-- `CalculateBufferIndexes(pbidx)`: the return value and the structure. -/
def CalculateBufferIndexes (TMRMINSPS MAXTMRPRX TMRPBCLK : Nat) (stk : Nat → Nat) (b : BIDX) :
    Bool × BIDX :=
  let b := planRate TMRMINSPS MAXTMRPRX b
  if b.xsps = 0 then (false, b)
  else (true, planTicks TMRPBCLK stk (placeTrigDMA (placeIndexes (planDelay stk b))))

/-! ## Auxiliary definitions -/

instance Bytes.decide (l : List Nat) : Decidable (Bytes l) :=
  inferInstanceAs (Decidable (∀ b ∈ l, b < 256))

/-- The `cr`-byte two's-complement representation of `q`. -/
def twosComplement (cr : Nat) (q : Int) : List Nat := toBytes cr (q % 256 ^ cr).toNat

/-- Reference run of the loop of `OSAdd`: `k` iterations that read the
memory as it was before the call and collect the bytes written. -/
def addRef (mem : Mem) (m1 cm1 m2 cm2 : Nat) : Nat → Nat × List Nat
  | 0 => (0, [])
  | k + 1 =>
    let st := addRef mem m1 cm1 m2 cm2 k
    let s1 := if k < cm1 then (st.1 + mem (m1 + k)) % 65536 else st.1
    let s2 := if k < cm2 then (s1 + mem (m2 + k)) % 65536 else s1
    (s2 / 256, st.2 ++ [s2 % 256])

/-- The sample count `GetSamples` computes before it applies the sign:
`P` picoseconds at `X` samples per scaled second. -/
def samplesMag (P X s : Nat) : Nat := (P * X / s + 500000000000) / 1000000000000

/-- The picosecond count `GetPicoSec` computes before it applies the sign:
`n` samples at `X` samples per scaled second. -/
def picosecMag (n X s : Nat) : Nat := (n * (1000000000000 * s) + X / 2) / X

/-- Rounded quotient `round(x / d) = floor((x + floor(d / 2)) / d)`. -/
def roundDiv (x d : Nat) : Nat := (x + d / 2) / d

/-- The divisor of a prescalar code 0..7 as the specification lists them:
1, 2, 4, 8, 16, 32, 64, 256. -/
def prescalarDivisor (c : Nat) : Nat := if c = 7 then 256 else 2 ^ c

/-- The timer count `T = floor((pbClk * scaleSPS + floor(xsps / 2)) / xsps)`
of the requested rate, without machine reduction. -/
def timerCount (xsps scaleSPS pbClk : Nat) : Nat := (pbClk * scaleSPS + xsps / 2) / xsps

/-- A plan request: 1 MS/s (in mHz), no interleaving, a 100 MHz timer clock,
a requested delay of 400000 ps, a return buffer of 1000 samples. -/
def demoPlan : BIDX :=
  { fInterleave := false
    xsps := 1000000000
    mHzInterleave := 10000000000000
    pbClkSampTmr := 100000000
    tmrPreScalar := 0
    tmrPeriod := 0
    tmrCnt := 0
    psDelay := 400000
    dlTrig2POI := 0
    cBuff := 1000
    cDMABuff := 4096
    cDMA := 8192
    cDMASlop := 16
    iPOI := 0
    iTrg := 0
    iTrigDMA := 0
    cBeforeTrig := 0
    cDelayTmr := 0 }

/-- A plan request at 22.233 S/s with a requested delay of one second. -/
def slowPlan : BIDX :=
  { demoPlan with xsps := 22233, psDelay := 1000000000000 }

/-- A memory holding the buffer `FF FF` at address 0 and the buffer `01` at
address 2. -/
def demoMem : Mem := Mem.store (Mem.store (fun _ => 0) 0 [255, 255]) 2 [1]

/-! ## Buffers and values -/

theorem leVal_append (a b : List Nat) :
    leVal (a ++ b) = leVal a + 256 ^ a.length * leVal b := by
  induction a with
  | nil => simp [leVal]
  | cons x xs ih =>
    rw [List.cons_append, leVal, ih, leVal, List.length_cons, pow_succ]
    ring

theorem leVal_lt (l : List Nat) (h : Bytes l) : leVal l < 256 ^ l.length := by
  induction l with
  | nil => simp [leVal]
  | cons x xs ih =>
    have hx : x < 256 := h x (List.mem_cons_self _ _)
    have hxs : leVal xs < 256 ^ xs.length := ih (fun b hb => h b (List.mem_cons_of_mem _ hb))
    simp only [leVal, List.length_cons, pow_succ]
    omega

theorem Bytes_nil : Bytes [] := by
  intro b hb
  cases hb

theorem Bytes_cons {x : Nat} {xs : List Nat} : Bytes (x :: xs) ↔ x < 256 ∧ Bytes xs := by
  constructor
  · intro h
    exact ⟨h x (List.mem_cons_self _ _), fun b hb => h b (List.mem_cons_of_mem _ hb)⟩
  · rintro ⟨hx, hxs⟩ b hb
    rcases List.mem_cons.1 hb with rfl | hb
    · exact hx
    · exact hxs b hb

theorem Bytes_append {a b : List Nat} : Bytes (a ++ b) ↔ Bytes a ∧ Bytes b := by
  constructor
  · intro h
    exact ⟨fun x hx => h x (List.mem_append.2 (Or.inl hx)),
      fun x hx => h x (List.mem_append.2 (Or.inr hx))⟩
  · rintro ⟨ha, hb⟩ x hx
    rcases List.mem_append.1 hx with hx | hx
    · exact ha x hx
    · exact hb x hx

theorem Bytes_take {l : List Nat} (h : Bytes l) (k : Nat) : Bytes (l.take k) :=
  fun b hb => h b (List.mem_of_mem_take hb)

theorem Bytes_drop {l : List Nat} (h : Bytes l) (k : Nat) : Bytes (l.drop k) :=
  fun b hb => h b (List.mem_of_mem_drop hb)

theorem Bytes_replicate (n : Nat) {v : Nat} (hv : v < 256) : Bytes (List.replicate n v) := by
  intro b hb
  rw [List.eq_of_mem_replicate hb]
  exact hv

theorem length_toBytes (n v : Nat) : (toBytes n v).length = n := by
  induction n generalizing v with
  | zero => rfl
  | succ n ih => simp [toBytes, ih]

theorem Bytes_toBytes (n v : Nat) : Bytes (toBytes n v) := by
  induction n generalizing v with
  | zero => exact Bytes_nil
  | succ n ih =>
    rw [toBytes, Bytes_cons]
    exact ⟨Nat.mod_lt _ (by norm_num), ih _⟩

theorem leVal_toBytes (n v : Nat) : leVal (toBytes n v) = v % 256 ^ n := by
  induction n generalizing v with
  | zero => simp [toBytes, leVal, Nat.mod_one]
  | succ n ih =>
    rw [toBytes, leVal, ih, pow_succ, mul_comm (256 ^ n) 256, Nat.mod_mul]

theorem toBytes_leVal (l : List Nat) (h : Bytes l) : toBytes l.length (leVal l) = l := by
  induction l with
  | nil => rfl
  | cons x xs ih =>
    obtain ⟨hx, hxs⟩ := Bytes_cons.1 h
    have h1 : (x + 256 * leVal xs) % 256 = x := by omega
    have h2 : (x + 256 * leVal xs) / 256 = leVal xs := by omega
    simp only [List.length_cons, toBytes, leVal, h1, h2, ih hxs]

theorem leVal_take (l : List Nat) (h : Bytes l) (k : Nat) :
    leVal (l.take k) = leVal l % 256 ^ k := by
  rcases Nat.lt_or_ge l.length k with hk | hk
  · rw [List.take_of_length_le hk.le, Nat.mod_eq_of_lt]
    exact lt_of_lt_of_le (leVal_lt l h) (Nat.pow_le_pow_right (by norm_num) hk.le)
  · have hlen : (l.take k).length = k := by simp [hk]
    have hlt := leVal_lt _ (Bytes_take h k)
    rw [hlen] at hlt
    conv_rhs => rw [← List.take_append_drop k l, leVal_append, hlen]
    rw [Nat.add_mul_mod_self_left, Nat.mod_eq_of_lt hlt]

theorem leVal_drop (l : List Nat) (h : Bytes l) (k : Nat) :
    leVal (l.drop k) = leVal l / 256 ^ k := by
  rcases Nat.lt_or_ge l.length k with hk | hk
  · rw [List.drop_of_length_le hk.le, Nat.div_eq_of_lt]
    · rfl
    · exact lt_of_lt_of_le (leVal_lt l h) (Nat.pow_le_pow_right (by norm_num) hk.le)
  · have hlen : (l.take k).length = k := by simp [hk]
    have hlt := leVal_lt _ (Bytes_take h k)
    rw [hlen] at hlt
    conv_rhs => rw [← List.take_append_drop k l, leVal_append, hlen]
    rw [Nat.add_mul_div_left _ _ (by positivity), Nat.div_eq_of_lt hlt, zero_add]

theorem leVal_replicate_zero (n : Nat) : leVal (List.replicate n 0) = 0 := by
  induction n with
  | zero => rfl
  | succ n ih => simp [List.replicate_succ, leVal, ih]

theorem leVal_replicate_255 (n : Nat) : leVal (List.replicate n 255) + 1 = 256 ^ n := by
  induction n with
  | zero => rfl
  | succ n ih =>
    simp only [List.replicate_succ, leVal, pow_succ]
    omega

/-- Two byte buffers of one length with one value are equal. -/
theorem eq_of_leVal_eq {a b : List Nat} (ha : Bytes a) (hb : Bytes b)
    (hlen : a.length = b.length) (hv : leVal a = leVal b) : a = b := by
  rw [← toBytes_leVal a ha, ← toBytes_leVal b hb, hlen, hv]

theorem leVal_set (l : List Nat) (i v : Nat) (hi : i < l.length) :
    leVal (l.set i v) + l.getD i 0 * 256 ^ i = leVal l + v * 256 ^ i := by
  induction l generalizing i with
  | nil => simp at hi
  | cons x xs ih =>
    cases i with
    | zero => simp [leVal]; ring
    | succ i =>
      have := ih i (by simpa using hi)
      simp only [List.set_cons_succ, leVal, List.getD_cons_succ, pow_succ]
      nlinarith [this]

theorem Bytes_set {l : List Nat} (h : Bytes l) (i : Nat) {v : Nat} (hv : v < 256) :
    Bytes (l.set i v) := by
  intro b hb
  rcases List.mem_or_eq_of_mem_set hb with hb | rfl
  · exact h b hb
  · exact hv

theorem getD_lt_of_Bytes {l : List Nat} (h : Bytes l) (i : Nat) : l.getD i 0 < 256 := by
  rcases Nat.lt_or_ge i l.length with hi | hi
  · rw [List.getD_eq_getElem _ _ hi]
    exact h _ (List.getElem_mem _)
  · rw [List.getD_eq_default _ _ hi]
    norm_num

/-! ## Memory -/

theorem Mem.length_load (mem : Mem) (p n : Nat) : (Mem.load mem p n).length = n := by
  induction n generalizing p with
  | zero => rfl
  | succ n ih => simp [Mem.load, ih]

theorem Mem.getD_load (mem : Mem) (p n i : Nat) (hi : i < n) :
    (Mem.load mem p n).getD i 0 = mem (p + i) := by
  induction n generalizing p i with
  | zero => omega
  | succ n ih =>
    cases i with
    | zero => simp [Mem.load]
    | succ i =>
      have e : p + 1 + i = p + (i + 1) := by omega
      rw [Mem.load, List.getD_cons_succ, ih (p + 1) i (by omega), e]

theorem list_eq_of_getD {a b : List Nat} (hlen : a.length = b.length)
    (h : ∀ i, i < a.length → a.getD i 0 = b.getD i 0) : a = b := by
  apply List.ext_getElem hlen
  intro i h1 h2
  have := h i h1
  rwa [List.getD_eq_getElem _ _ h1, List.getD_eq_getElem _ _ h2] at this

theorem Mem.load_eq (mem : Mem) (p : Nat) (l : List Nat)
    (h : ∀ i, i < l.length → mem (p + i) = l.getD i 0) : Mem.load mem p l.length = l := by
  apply list_eq_of_getD (Mem.length_load _ _ _)
  intro i hi
  rw [Mem.length_load] at hi
  rw [Mem.getD_load _ _ _ _ hi, h i hi]

theorem Mem.load_congr (mem mem2 : Mem) (p q n : Nat)
    (h : ∀ i, i < n → mem (p + i) = mem2 (q + i)) : Mem.load mem p n = Mem.load mem2 q n := by
  apply list_eq_of_getD (by simp [Mem.length_load])
  intro i hi
  rw [Mem.length_load] at hi
  rw [Mem.getD_load _ _ _ _ hi, Mem.getD_load _ _ _ _ hi, h i hi]

theorem Mem.load_succ (mem : Mem) (p n : Nat) :
    Mem.load mem p (n + 1) = Mem.load mem p n ++ [mem (p + n)] := by
  induction n generalizing p with
  | zero => simp [Mem.load]
  | succ n ih =>
    have e : p + 1 + n = p + (n + 1) := by omega
    rw [Mem.load, ih (p + 1), Mem.load, List.cons_append, e]

theorem Mem.Bytes_load (mem : Mem) (p n : Nat) (h : MemBytes mem p n) :
    Bytes (Mem.load mem p n) := by
  induction n with
  | zero => exact Bytes_nil
  | succ n ih =>
    rw [Mem.load_succ, Bytes_append]
    refine ⟨ih (fun i hi => h i (by omega)), ?_⟩
    rw [Bytes_cons]
    exact ⟨h n (by omega), Bytes_nil⟩

theorem Mem.load_take (mem : Mem) (p n k : Nat) :
    Mem.load mem p (min n k) = (Mem.load mem p n).take k := by
  apply list_eq_of_getD (by simp [Mem.length_load, Nat.min_comm])
  intro i hi
  rw [Mem.length_load] at hi
  rw [Mem.getD_load _ _ _ _ hi, List.getD_eq_getElem?_getD, List.getElem?_take_of_lt (by omega),
    ← List.getD_eq_getElem?_getD, Mem.getD_load _ _ _ _ (by omega)]

/-! ## OSAdd: the streamed run against a reference run -/

theorem length_addRef (mem : Mem) (m1 cm1 m2 cm2 k : Nat) :
    (addRef mem m1 cm1 m2 cm2 k).2.length = k := by
  induction k with
  | zero => rfl
  | succ k ih => simp [addRef, ih]

/-- Under streaming safety the run on the memory and the reference run
agree: same carry, the result bytes are the reference bytes, and nothing
outside the result bytes written so far has changed. -/
theorem OSAdd_run (mem : Mem) (m1 cm1 m2 cm2 r cr : Nat)
    (h1 : StreamSafe m1 cm1 r cr) (h2 : StreamSafe m2 cm2 r cr) (k : Nat) (hk : k ≤ cr) :
    ((List.range k).foldl (OSAdd_body m1 cm1 m2 cm2 r) (0, mem)).1
        = (addRef mem m1 cm1 m2 cm2 k).1 ∧
    (∀ i, i < k → ((List.range k).foldl (OSAdd_body m1 cm1 m2 cm2 r) (0, mem)).2 (r + i)
        = (addRef mem m1 cm1 m2 cm2 k).2.getD i 0) ∧
    (∀ a, (∀ i, i < k → a ≠ r + i) →
        ((List.range k).foldl (OSAdd_body m1 cm1 m2 cm2 r) (0, mem)).2 a = mem a) := by
  induction k with
  | zero =>
    refine ⟨rfl, ?_, ?_⟩
    · intro i hi
      omega
    · intro a _
      rfl
  | succ k ih =>
    obtain ⟨ihc, ihd, ihf⟩ := ih (by omega)
    rw [List.range_succ, List.foldl_append, List.foldl_cons, List.foldl_nil]
    generalize (List.range k).foldl (OSAdd_body m1 cm1 m2 cm2 r) (0, mem) = st at ihc ihd ihf
    have e1 : k < cm1 → st.2 (m1 + k) = mem (m1 + k) := fun hc =>
      ihf _ (fun i hi => (h1 i k hi (by omega) hc).symm)
    have e2 : k < cm2 → st.2 (m2 + k) = mem (m2 + k) := fun hc =>
      ihf _ (fun i hi => (h2 i k hi (by omega) hc).symm)
    have hs : (if k < cm2 then
          ((if k < cm1 then (st.1 + st.2 (m1 + k)) % 65536 else st.1) + st.2 (m2 + k)) % 65536
        else (if k < cm1 then (st.1 + st.2 (m1 + k)) % 65536 else st.1))
        = (if k < cm2 then
          ((if k < cm1 then ((addRef mem m1 cm1 m2 cm2 k).1 + mem (m1 + k)) % 65536
            else (addRef mem m1 cm1 m2 cm2 k).1) + mem (m2 + k)) % 65536
        else (if k < cm1 then ((addRef mem m1 cm1 m2 cm2 k).1 + mem (m1 + k)) % 65536
            else (addRef mem m1 cm1 m2 cm2 k).1)) := by
      by_cases c1 : k < cm1 <;> by_cases c2 : k < cm2 <;> simp [c1, c2, e1, e2, ihc]
    simp only [OSAdd_body, addRef]
    rw [hs]
    refine ⟨rfl, ?_, ?_⟩
    · intro i hi
      rcases Nat.lt_or_ge i k with hik | hik
      · rw [Mem.write, if_neg (by omega), ihd i hik, List.getD_append _ _ _ _
          (by rw [length_addRef]; exact hik)]
      · have : i = k := by omega
        subst this
        rw [Mem.write, if_pos rfl, List.getD_append_right _ _ _ _ (by rw [length_addRef])]
        simp [length_addRef]
    · intro a ha
      rw [Mem.write, if_neg (ha k (by omega)), ihf a (fun i hi => ha i (by omega))]

theorem OSAdd_load (mem : Mem) (m1 cm1 m2 cm2 r cr : Nat)
    (h1 : StreamSafe m1 cm1 r cr) (h2 : StreamSafe m2 cm2 r cr) :
    (OSAdd mem m1 cm1 m2 cm2 r cr).2.load r cr = (addRef mem m1 cm1 m2 cm2 cr).2 := by
  have h := (OSAdd_run mem m1 cm1 m2 cm2 r cr h1 h2 cr le_rfl).2.1
  have hl := length_addRef mem m1 cm1 m2 cm2 cr
  have e := Mem.load_eq (OSAdd mem m1 cm1 m2 cm2 r cr).2 r (addRef mem m1 cm1 m2 cm2 cr).2
    (fun i hi => h i (by rwa [hl] at hi))
  rwa [hl] at e

/-- Value of the reference run on byte operands: digits plus carry make the
sum of the operand prefixes. -/
theorem addRef_value (mem : Mem) (m1 cm1 m2 cm2 : Nat)
    (hb1 : MemBytes mem m1 cm1) (hb2 : MemBytes mem m2 cm2) (k : Nat) :
    leVal (addRef mem m1 cm1 m2 cm2 k).2 + 256 ^ k * (addRef mem m1 cm1 m2 cm2 k).1
        = leVal (Mem.load mem m1 (min cm1 k)) + leVal (Mem.load mem m2 (min cm2 k)) ∧
    (addRef mem m1 cm1 m2 cm2 k).1 ≤ 1 ∧ Bytes (addRef mem m1 cm1 m2 cm2 k).2 := by
  induction k with
  | zero => simp [addRef, leVal, Mem.load, Bytes_nil]
  | succ k ih =>
    obtain ⟨ihv, ihc, ihb⟩ := ih
    have hlen := length_addRef mem m1 cm1 m2 cm2 k
    have hv1 : leVal (Mem.load mem m1 (min cm1 (k + 1)))
        = leVal (Mem.load mem m1 (min cm1 k)) + 256 ^ k * (if k < cm1 then mem (m1 + k) else 0) := by
      by_cases c : k < cm1
      · rw [Nat.min_eq_right (by omega), Nat.min_eq_right (by omega), Mem.load_succ,
          leVal_append, Mem.length_load, if_pos c]
        simp [leVal]
      · rw [Nat.min_eq_left (by omega), Nat.min_eq_left (by omega), if_neg c]
        simp
    have hv2 : leVal (Mem.load mem m2 (min cm2 (k + 1)))
        = leVal (Mem.load mem m2 (min cm2 k)) + 256 ^ k * (if k < cm2 then mem (m2 + k) else 0) := by
      by_cases c : k < cm2
      · rw [Nat.min_eq_right (by omega), Nat.min_eq_right (by omega), Mem.load_succ,
          leVal_append, Mem.length_load, if_pos c]
        simp [leVal]
      · rw [Nat.min_eq_left (by omega), Nat.min_eq_left (by omega), if_neg c]
        simp
    have ha : (if k < cm1 then mem (m1 + k) else 0) < 256 := by
      by_cases c : k < cm1
      · rw [if_pos c]; exact hb1 k c
      · rw [if_neg c]; norm_num
    have hb : (if k < cm2 then mem (m2 + k) else 0) < 256 := by
      by_cases c : k < cm2
      · rw [if_pos c]; exact hb2 k c
      · rw [if_neg c]; norm_num
    have hs : (if k < cm2 then
          ((if k < cm1 then ((addRef mem m1 cm1 m2 cm2 k).1 + mem (m1 + k)) % 65536
            else (addRef mem m1 cm1 m2 cm2 k).1) + mem (m2 + k)) % 65536
        else (if k < cm1 then ((addRef mem m1 cm1 m2 cm2 k).1 + mem (m1 + k)) % 65536
            else (addRef mem m1 cm1 m2 cm2 k).1))
        = (addRef mem m1 cm1 m2 cm2 k).1 + (if k < cm1 then mem (m1 + k) else 0)
            + (if k < cm2 then mem (m2 + k) else 0) := by
      by_cases c1 : k < cm1 <;> by_cases c2 : k < cm2 <;>
        simp only [c1, c2, if_true, if_false] at ha hb ⊢ <;> omega
    simp only [addRef]
    rw [hs, hv1, hv2]
    generalize (addRef mem m1 cm1 m2 cm2 k).1 = c at *
    generalize (if k < cm1 then mem (m1 + k) else 0) = a at *
    generalize (if k < cm2 then mem (m2 + k) else 0) = b at *
    refine ⟨?_, by omega, ?_⟩
    · rw [leVal_append, hlen]
      simp only [leVal, mul_zero, add_zero]
      have e : (c + a + b) % 256 + 256 * ((c + a + b) / 256) = c + a + b := Nat.mod_add_div _ _
      rw [pow_succ]
      generalize 256 ^ k = P at *
      have e2 := congrArg (fun t => P * t) e
      simp only [mul_add] at e2
      linarith
    · rw [Bytes_append, Bytes_cons]
      exact ⟨ihb, Nat.mod_lt _ (by norm_num), Bytes_nil⟩

/-- Value written by `OSAdd` on byte operands under streaming safety. -/
theorem OSAdd_value (mem : Mem) (m1 cm1 m2 cm2 r cr : Nat)
    (hb1 : MemBytes mem m1 cm1) (hb2 : MemBytes mem m2 cm2)
    (h1 : StreamSafe m1 cm1 r cr) (h2 : StreamSafe m2 cm2 r cr) :
    leVal ((OSAdd mem m1 cm1 m2 cm2 r cr).2.load r cr)
      = (leVal (Mem.load mem m1 (min cm1 cr)) + leVal (Mem.load mem m2 (min cm2 cr))) % 256 ^ cr
    ∧ Bytes ((OSAdd mem m1 cm1 m2 cm2 r cr).2.load r cr) := by
  rw [OSAdd_load mem m1 cm1 m2 cm2 r cr h1 h2]
  obtain ⟨hv, _, hb⟩ := addRef_value mem m1 cm1 m2 cm2 hb1 hb2 cr
  refine ⟨?_, hb⟩
  have hlt := leVal_lt _ hb
  rw [length_addRef] at hlt
  rw [← hv, Nat.add_mul_mod_self_left, Nat.mod_eq_of_lt hlt]

/-! ## OSAdd in place -/

theorem StreamSafe_self (m cm cr : Nat) : StreamSafe m cm m cr := by
  intro i j hij _ _
  omega

theorem StreamSafe_of_disjoint (m cm r cr : Nat) (h : r + cr ≤ m ∨ m + cm ≤ r) :
    StreamSafe m cm r cr := by
  intro i j hij hj hjm
  omega

theorem OSAddInPlace_spec (x y : List Nat) (hx : Bytes x) (hy : Bytes y) :
    (OSAddInPlace x y).length = x.length ∧ Bytes (OSAddInPlace x y) ∧
    leVal (OSAddInPlace x y) = (leVal x + leVal y) % 256 ^ x.length := by
  have hmx : ∀ i, i < x.length →
      (Mem.store (Mem.store (fun _ => 0) 0 x) x.length y) (0 + i) = x.getD i 0 := by
    intro i hi
    simp only [Mem.store]
    rw [if_neg (by omega), if_pos (by omega)]
    simp
  have hmy : ∀ i, i < y.length →
      (Mem.store (Mem.store (fun _ => 0) 0 x) x.length y) (x.length + i) = y.getD i 0 := by
    intro i hi
    simp only [Mem.store]
    rw [if_pos (by omega)]
    simp
  have hlx := Mem.load_eq _ 0 x hmx
  have hly := Mem.load_eq _ x.length y hmy
  have hb1 : MemBytes (Mem.store (Mem.store (fun _ => 0) 0 x) x.length y) 0 x.length := by
    intro i hi
    rw [hmx i hi]
    exact getD_lt_of_Bytes hx i
  have hb2 : MemBytes (Mem.store (Mem.store (fun _ => 0) 0 x) x.length y) x.length y.length := by
    intro i hi
    rw [hmy i hi]
    exact getD_lt_of_Bytes hy i
  obtain ⟨hv, hb⟩ := OSAdd_value _ 0 x.length x.length y.length 0 x.length hb1 hb2
    (StreamSafe_self _ _ _) (by intro i j hij hj _; omega)
  refine ⟨?_, hb, ?_⟩
  · simp only [OSAddInPlace, Mem.length_load]
  · simp only [OSAddInPlace]
    rw [hv, Nat.min_self, hlx, Mem.load_take, hly, leVal_take y hy, Nat.add_mod_mod]

/-! ## OSMakeNeg -/

theorem leVal_complement (x : List Nat) (hx : Bytes x) :
    leVal (x.map (fun b => 255 - b)) + leVal x + 1 = 256 ^ x.length := by
  induction x with
  | nil => rfl
  | cons a as ih =>
    obtain ⟨ha, has⟩ := Bytes_cons.1 hx
    have := ih has
    simp only [List.map_cons, leVal, List.length_cons, pow_succ]
    omega

theorem Bytes_complement (x : List Nat) : Bytes (x.map (fun b => 255 - b)) := by
  intro b hb
  obtain ⟨a, _, rfl⟩ := List.mem_map.1 hb
  omega

theorem OSMakeNeg_spec (x : List Nat) (hx : Bytes x) :
    (OSMakeNeg x).2.length = x.length ∧ Bytes (OSMakeNeg x).2 ∧
    leVal (OSMakeNeg x).2 = (256 ^ x.length - leVal x) % 256 ^ x.length := by
  have hone : Bytes [1] := by
    rw [Bytes_cons]
    exact ⟨by norm_num, Bytes_nil⟩
  obtain ⟨hl, hb, hv⟩ := OSAddInPlace_spec (x.map (fun b => 255 - b)) [1]
    (Bytes_complement x) hone
  have hc := leVal_complement x hx
  refine ⟨by simpa [OSMakeNeg] using hl, hb, ?_⟩
  simp only [OSMakeNeg]
  rw [hv, List.length_map]
  congr 1
  simp only [leVal]
  omega

theorem neg_neg_mod (P v : Nat) (hv : v < P) : (P - (P - v) % P) % P = v := by
  rcases Nat.eq_zero_or_pos v with h0 | h0
  · subst h0
    simp
  · rw [Nat.mod_eq_of_lt (by omega : P - v < P)]
    rw [Nat.mod_eq_of_lt (by omega)]
    omega

/-! ## OSUMult -/

theorem leVal_take_succ (l : List Nat) (k : Nat) :
    leVal (l.take (k + 1)) = leVal (l.take k) + l.getD k 0 * 256 ^ k := by
  induction l generalizing k with
  | nil => simp [leVal]
  | cons x xs ih =>
    cases k with
    | zero => simp [leVal]
    | succ k =>
      rw [List.take_succ_cons, leVal, ih k, List.take_succ_cons, leVal, List.getD_cons_succ,
        pow_succ]
      ring

theorem leVal_take_le (l : List Nat) (k : Nat) : leVal (l.take k) ≤ leVal l := by
  conv_rhs => rw [← List.take_append_drop k l, leVal_append]
  exact Nat.le_add_right _ _

theorem OSUMult_carry_spec (cr fuel : Nat) :
    ∀ (ir sr : Nat) (r : List Nat), Bytes r → r.length = cr → cr ≤ ir + fuel → ir ≤ cr →
      sr < 2 ^ 32 - 256 → leVal r + sr * 256 ^ ir < 256 ^ cr →
      Bytes (OSUMult_carry cr fuel ir sr r) ∧ (OSUMult_carry cr fuel ir sr r).length = cr ∧
      leVal (OSUMult_carry cr fuel ir sr r) = leVal r + sr * 256 ^ ir := by
  induction fuel with
  | zero =>
    intro ir sr r hr hlen hfuel hir _ hfit
    have hir2 : ir = cr := by omega
    subst hir2
    have hsr : sr = 0 := by
      by_contra h
      have : 256 ^ ir ≤ sr * 256 ^ ir := Nat.le_mul_of_pos_left _ (Nat.pos_of_ne_zero h)
      omega
    subst hsr
    simp [OSUMult_carry, hr, hlen]
  | succ fuel ih =>
    intro ir sr r hr hlen hfuel hir hsr hfit
    by_cases hc : sr ≠ 0 ∧ ir < cr
    · have hg : r.getD ir 0 < 256 := getD_lt_of_Bytes hr ir
      have hmod : (sr + r.getD ir 0) % 2 ^ 32 = sr + r.getD ir 0 :=
        Nat.mod_eq_of_lt (by omega)
      have hset := leVal_set r ir ((sr + r.getD ir 0) % 256) (by omega)
      have hdm : (sr + r.getD ir 0) % 256 + 256 * ((sr + r.getD ir 0) / 256)
          = sr + r.getD ir 0 := Nat.mod_add_div _ _
      have hkey : leVal (r.set ir ((sr + r.getD ir 0) % 256))
          + (sr + r.getD ir 0) / 256 * 256 ^ (ir + 1) = leVal r + sr * 256 ^ ir := by
        rw [pow_succ]
        generalize 256 ^ ir = P at *
        have e2 := congrArg (fun t => P * t) hdm
        simp only [mul_add] at e2
        linarith
      obtain ⟨h1, h2, h3⟩ := ih (ir + 1) ((sr + r.getD ir 0) / 256)
        (r.set ir ((sr + r.getD ir 0) % 256))
        (Bytes_set hr ir (Nat.mod_lt _ (by norm_num))) (by simpa using hlen) (by omega)
        (by omega) (by omega) (by rw [hkey]; exact hfit)
      simp only [OSUMult_carry, if_pos hc, hmod]
      exact ⟨h1, h2, by rw [h3, hkey]⟩
    · have hsr0 : sr = 0 := by
        by_contra h
        have hir2 : ir = cr := by
          by_contra h2
          exact hc ⟨h, by omega⟩
        subst hir2
        have : 256 ^ ir ≤ sr * 256 ^ ir := Nat.le_mul_of_pos_left _ (Nat.pos_of_ne_zero h)
        omega
      subst hsr0
      simp [OSUMult_carry, hr, hlen]

/-- The inner loop of `OSUMult` over `im1`, for a fixed `im2`. -/
theorem OSUMult_inner (m1 : List Nat) (hm1 : Bytes m1) (b im2 cr : Nat) (hb : b < 256)
    (r0 : List Nat) (hr0 : Bytes r0) (hlen0 : r0.length = cr)
    (hfit : leVal r0 + leVal m1 * b * 256 ^ im2 < 256 ^ cr) (k : Nat)
    (hk : k + im2 ≤ cr) :
    Bytes ((List.range k).foldl (fun r im1 =>
        OSUMult_carry cr cr (im1 + im2) ((m1.getD im1 0 * b) % 2 ^ 32) r) r0) ∧
    ((List.range k).foldl (fun r im1 =>
        OSUMult_carry cr cr (im1 + im2) ((m1.getD im1 0 * b) % 2 ^ 32) r) r0).length = cr ∧
    leVal ((List.range k).foldl (fun r im1 =>
        OSUMult_carry cr cr (im1 + im2) ((m1.getD im1 0 * b) % 2 ^ 32) r) r0)
      = leVal r0 + leVal (m1.take k) * b * 256 ^ im2 := by
  induction k with
  | zero => simp [leVal, hr0, hlen0]
  | succ k ih =>
    obtain ⟨ih1, ih2, ih3⟩ := ih (by omega)
    rw [List.range_succ, List.foldl_append, List.foldl_cons, List.foldl_nil]
    generalize (List.range k).foldl (fun r im1 =>
        OSUMult_carry cr cr (im1 + im2) ((m1.getD im1 0 * b) % 2 ^ 32) r) r0 = r at ih1 ih2 ih3
    have ha : m1.getD k 0 < 256 := getD_lt_of_Bytes hm1 k
    have hab : m1.getD k 0 * b ≤ 255 * 255 := Nat.mul_le_mul (by omega) (by omega)
    have hmod : (m1.getD k 0 * b) % 2 ^ 32 = m1.getD k 0 * b := Nat.mod_eq_of_lt (by omega)
    have hstep : leVal r + m1.getD k 0 * b * 256 ^ (k + im2)
        = leVal r0 + leVal (m1.take (k + 1)) * b * 256 ^ im2 := by
      rw [ih3, leVal_take_succ, pow_add]
      ring
    have hle : leVal (m1.take (k + 1)) * b * 256 ^ im2 ≤ leVal m1 * b * 256 ^ im2 :=
      Nat.mul_le_mul_right _ (Nat.mul_le_mul_right _ (leVal_take_le m1 (k + 1)))
    obtain ⟨h1, h2, h3⟩ := OSUMult_carry_spec cr cr (k + im2) (m1.getD k 0 * b) r ih1 ih2
      (by omega) (by omega) (by omega) (by rw [hstep]; omega)
    rw [hmod]
    exact ⟨h1, h2, by rw [h3, hstep]⟩

/-- The outer loop of `OSUMult` over `im2`. -/
theorem OSUMult_outer (m1 m2 : List Nat) (hm1 : Bytes m1) (hm2 : Bytes m2) (cr : Nat)
    (hcr : m1.length + m2.length ≤ cr) (k : Nat) (hk : k ≤ m2.length) :
    Bytes ((List.range k).foldl (fun r im2 =>
      (List.range m1.length).foldl (fun r im1 =>
        OSUMult_carry cr cr (im1 + im2) ((m1.getD im1 0 * m2.getD im2 0) % 2 ^ 32) r) r)
        (List.replicate cr 0)) ∧
    ((List.range k).foldl (fun r im2 =>
      (List.range m1.length).foldl (fun r im1 =>
        OSUMult_carry cr cr (im1 + im2) ((m1.getD im1 0 * m2.getD im2 0) % 2 ^ 32) r) r)
        (List.replicate cr 0)).length = cr ∧
    leVal ((List.range k).foldl (fun r im2 =>
      (List.range m1.length).foldl (fun r im1 =>
        OSUMult_carry cr cr (im1 + im2) ((m1.getD im1 0 * m2.getD im2 0) % 2 ^ 32) r) r)
        (List.replicate cr 0))
      = leVal m1 * leVal (m2.take k) := by
  induction k with
  | zero => simp [leVal, leVal_replicate_zero, Bytes_replicate]
  | succ k ih =>
    obtain ⟨ih1, ih2, ih3⟩ := ih (by omega)
    rw [List.range_succ, List.foldl_append, List.foldl_cons, List.foldl_nil]
    generalize (List.range k).foldl (fun r im2 =>
      (List.range m1.length).foldl (fun r im1 =>
        OSUMult_carry cr cr (im1 + im2) ((m1.getD im1 0 * m2.getD im2 0) % 2 ^ 32) r) r)
        (List.replicate cr 0) = r at ih1 ih2 ih3
    have hprod : leVal m1 * leVal (m2.take (k + 1)) < 256 ^ cr := by
      have h1 := leVal_lt m1 hm1
      have h2 : leVal (m2.take (k + 1)) < 256 ^ m2.length :=
        lt_of_le_of_lt (leVal_take_le m2 (k + 1)) (leVal_lt m2 hm2)
      calc leVal m1 * leVal (m2.take (k + 1)) < 256 ^ m1.length * 256 ^ m2.length :=
            Nat.mul_lt_mul'' h1 h2
        _ = 256 ^ (m1.length + m2.length) := (pow_add _ _ _).symm
        _ ≤ 256 ^ cr := Nat.pow_le_pow_right (by norm_num) hcr
    have hexp : leVal r + leVal m1 * m2.getD k 0 * 256 ^ k
        = leVal m1 * leVal (m2.take (k + 1)) := by
      rw [ih3, leVal_take_succ]
      ring
    obtain ⟨h1, h2, h3⟩ := OSUMult_inner m1 hm1 (m2.getD k 0) k cr (getD_lt_of_Bytes hm2 k)
      r ih1 ih2 (by rw [hexp]; exact hprod) m1.length (by omega)
    refine ⟨h1, h2, ?_⟩
    rw [h3, List.take_length, hexp]

theorem OSUMult_spec (m1 m2 : List Nat) (hm1 : Bytes m1) (hm2 : Bytes m2) (cr : Nat)
    (hcr : m1.length + m2.length ≤ cr) :
    (OSUMult m1 m2 cr).1 = true ∧ Bytes (OSUMult m1 m2 cr).2 ∧
    (OSUMult m1 m2 cr).2.length = cr ∧ leVal (OSUMult m1 m2 cr).2 = leVal m1 * leVal m2 := by
  have hno : ¬ cr < (m1.length + m2.length) % 2 ^ 32 := by
    have := Nat.mod_le (m1.length + m2.length) (2 ^ 32)
    omega
  obtain ⟨h1, h2, h3⟩ := OSUMult_outer m1 m2 hm1 hm2 cr hcr m2.length le_rfl
  rw [List.take_length] at h3
  simp only [OSUMult, if_neg hno]
  exact ⟨trivial, h1, h2, h3⟩

/-- On operands with the sign bit clear `OSMult` is `OSUMult`. -/
theorem OSMult_nonneg (stk : Nat → Nat) (m1 m2 : List Nat) (cr : Nat)
    (h1 : msbSet m1 = false) (h2 : msbSet m2 = false) :
    OSMult stk m1 m2 cr = (true, (OSUMult m1 m2 cr).2) := by
  simp [OSMult, h1, h2]

/-! ## Signs and machine integers -/

theorem toInt64_of_range (x : Int) (h1 : -2 ^ 63 ≤ x) (h2 : x < 2 ^ 63) : toInt64 x = x := by
  unfold toInt64 wrapInt
  split <;> omega

theorem toInt32_of_lt (n : Nat) (h : n < 2 ^ 31) : toInt32 (n : Int) = n := by
  unfold toInt32 wrapInt
  split <;> omega

theorem toInt32_neg (n : Nat) (h1 : 2 ^ 31 ≤ n) (h2 : n < 2 ^ 32) : toInt32 (n : Int) < 0 := by
  unfold toInt32 wrapInt
  split <;> omega

theorem msbSet_iff (m : List Nat) (hm : Bytes m) :
    msbSet m = true ↔ 256 ^ m.length ≤ 2 * leVal m := by
  unfold msbSet
  rw [decide_eq_true_iff]
  rcases Nat.eq_zero_or_pos m.length with h0 | h0
  · rw [List.length_eq_zero] at h0
    subst h0
    simp [leVal]
  · have hsplit := leVal_take_succ m (m.length - 1)
    have hn : m.length - 1 + 1 = m.length := by omega
    rw [hn, List.take_length] at hsplit
    have hlt := leVal_lt _ (Bytes_take hm (m.length - 1))
    have hlen : (m.take (m.length - 1)).length = m.length - 1 := by simp
    rw [hlen] at hlt
    have hg := getD_lt_of_Bytes hm (m.length - 1)
    have hp : 256 ^ m.length = 256 ^ (m.length - 1) * 256 := by
      rw [← pow_succ, hn]
    rw [hp, hsplit]
    generalize 256 ^ (m.length - 1) = P at *
    generalize m.getD (m.length - 1) 0 = g at *
    generalize leVal (m.take (m.length - 1)) = L at *
    constructor
    · intro h
      have : 128 * P ≤ g * P := Nat.mul_le_mul_right _ h
      omega
    · intro h
      by_contra hc
      have : g * P ≤ 127 * P := Nat.mul_le_mul_right _ (by omega)
      omega

theorem cast_pow256 (n : Nat) : ((256 ^ n : Nat) : Int) = (256 : Int) ^ n := by
  push_cast
  rfl

theorem sVal_bounds (m : List Nat) (hm : Bytes m) :
    -(256 ^ m.length : Int) ≤ 2 * sVal m ∧ 2 * sVal m < (256 ^ m.length : Int) := by
  have hlt := leVal_lt m hm
  have hiff := msbSet_iff m hm
  unfold sVal
  rw [← cast_pow256]
  generalize 256 ^ m.length = P at *
  by_cases h : msbSet m = true
  · have := hiff.1 h
    rw [if_pos h]
    constructor <;> omega
  · have : ¬ P ≤ 2 * leVal m := fun hc => h (hiff.2 hc)
    rw [if_neg h]
    constructor <;> omega

theorem sVal_of_msb_clear (m : List Nat) (h : msbSet m = false) : sVal m = leVal m := by
  simp [sVal, h]

/-! ## OSDivide: the 64-bit path -/

theorem leVal_twosComplement (cr : Nat) (q : Int) :
    (leVal (twosComplement cr q) : Int) = q % 256 ^ cr := by
  have hpos : (0 : Int) < 256 ^ cr := by positivity
  have h0 := Int.emod_nonneg q hpos.ne'
  have h1 := Int.emod_lt_of_pos q hpos
  unfold twosComplement
  rw [leVal_toBytes, Nat.mod_eq_of_lt]
  · exact Int.toNat_of_nonneg h0
  · zify
    rw [Int.toNat_of_nonneg h0]
    exact_mod_cast h1

/-- Sign extension of the operand into the 64-bit register `r1`. -/
theorem r1_load (m1 : List Nat) (hm1 : Bytes m1) (hlen : m1.length ≤ 8) :
    toInt64 (leVal (m1 ++ (if msbSet m1 then List.replicate 8 255
      else List.replicate 8 0).drop m1.length)) = sVal m1 := by
  have hlt := leVal_lt m1 hm1
  have hiff := msbSet_iff m1 hm1
  have hpq : 256 ^ m1.length * 256 ^ (8 - m1.length) = 2 ^ 64 := by
    rw [← pow_add, Nat.add_sub_cancel' hlen]
    norm_num
  have hq : 0 < 256 ^ (8 - m1.length) := by positivity
  have hp : 0 < 256 ^ m1.length := by positivity
  by_cases h : msbSet m1 = true
  · have h2 := hiff.1 h
    have h255 := leVal_replicate_255 (8 - m1.length)
    rw [if_pos h, List.drop_replicate, leVal_append]
    unfold sVal
    rw [if_pos h, ← cast_pow256]
    generalize 256 ^ m1.length = P at *
    generalize 256 ^ (8 - m1.length) = Q at *
    generalize leVal (List.replicate (8 - m1.length) 255) = R at *
    generalize leVal m1 = L at *
    have hR : P * R + P = 2 ^ 64 := by
      rw [← hpq, ← h255]
      ring
    have hP : P ≤ 2 ^ 64 := by omega
    unfold toInt64 wrapInt
    push_cast
    have e : ((L : Int) + P * R) = L + 2 ^ 64 - P := by
      have : ((P * R + P : Nat) : Int) = 2 ^ 64 := by rw [hR]; norm_num
      push_cast at this
      omega
    rw [e]
    split <;> omega
  · have h2 : ¬ 256 ^ m1.length ≤ 2 * leVal m1 := fun hc => h (hiff.2 hc)
    rw [if_neg h, List.drop_replicate, leVal_append, leVal_replicate_zero, mul_zero, add_zero]
    unfold sVal
    rw [if_neg h]
    have hP : 256 ^ m1.length ≤ 2 ^ 64 := by
      rw [← hpq]
      exact Nat.le_mul_of_pos_right _ hq
    apply toInt64_of_range <;> omega

/-- The quotient of two `int64_t` values is an `int64_t`, except for
`INT64_MIN / -1`. -/
theorem tdiv_int64_range (a d : Int) (ha1 : -2 ^ 63 ≤ a) (ha2 : a < 2 ^ 63) (hd : d ≠ 0)
    (hex : ¬ (a = -2 ^ 63 ∧ d = -1)) :
    -2 ^ 63 ≤ Int.tdiv a d ∧ Int.tdiv a d < 2 ^ 63 := by
  have hab : (Int.tdiv a d).natAbs = a.natAbs / d.natAbs := Int.natAbs_tdiv a d
  have hda : 1 ≤ d.natAbs := Int.natAbs_pos.2 hd
  have hle : a.natAbs / d.natAbs ≤ a.natAbs := Nat.div_le_self _ _
  have ha : a.natAbs ≤ 2 ^ 63 := by omega
  constructor
  · omega
  · by_contra hc
    have hq : (Int.tdiv a d).natAbs = 2 ^ 63 := by omega
    have h1 : a.natAbs = 2 ^ 63 := by omega
    have ha3 : a = -2 ^ 63 := by omega
    have hd1 : d.natAbs = 1 := by
      by_contra hne
      have h2 : 2 ≤ d.natAbs := by omega
      have : a.natAbs / d.natAbs ≤ a.natAbs / 2 := Nat.div_le_div_left h2 (by norm_num)
      omega
    rcases Int.natAbs_eq d with hd2 | hd2
    · rw [hd1] at hd2
      rw [hd2] at hc
      simp at hc
      omega
    · rw [hd1] at hd2
      exact hex ⟨ha3, by simpa using hd2⟩

/-- Storing the 64-bit quotient into `cr` bytes: truncation when `cr ≤ 8`,
sign extension when `cr > 8`. -/
theorem store_quotient (q : Int) (cr : Nat) (h1 : -2 ^ 63 ≤ q) (h2 : q < 2 ^ 63) :
    (int64Bytes q).take (if 8 < cr then 8 else cr)
      ++ (if q < 0 then List.replicate cr 255 else List.replicate cr 0).drop
          (if 8 < cr then 8 else cr)
    = twosComplement cr q := by
  have hU0 : 0 ≤ q % 2 ^ 64 := Int.emod_nonneg q (by norm_num)
  have hUv : leVal (int64Bytes q) = (q % 2 ^ 64).toNat := by
    unfold int64Bytes
    rw [leVal_toBytes, Nat.mod_eq_of_lt]
    omega
  have hUc : (((q % 2 ^ 64).toNat : Nat) : Int) = q % 2 ^ 64 := Int.toNat_of_nonneg hU0
  generalize (q % 2 ^ 64).toNat = U at hUv hUc
  have hf : Bytes (if q < 0 then List.replicate cr 255 else List.replicate cr 0) := by
    split
    · exact Bytes_replicate cr (by norm_num)
    · exact Bytes_replicate cr (by norm_num)
  have hfl : (if q < 0 then List.replicate cr 255 else List.replicate cr 0).length = cr := by
    split <;> simp
  have hUb : Bytes (int64Bytes q) := Bytes_toBytes _ _
  have hUl : (int64Bytes q).length = 8 := length_toBytes _ _
  apply eq_of_leVal_eq
  · exact Bytes_append.2 ⟨Bytes_take hUb _, Bytes_drop hf _⟩
  · exact Bytes_toBytes _ _
  · rw [List.length_append, List.length_take, List.length_drop, hUl, hfl]
    unfold twosComplement
    rw [length_toBytes]
    split <;> omega
  · have hgoal : ((leVal ((int64Bytes q).take (if 8 < cr then 8 else cr)
        ++ (if q < 0 then List.replicate cr 255 else List.replicate cr 0).drop
          (if 8 < cr then 8 else cr)) : Nat) : Int) = q % 256 ^ cr := by
      by_cases hc : 8 < cr
      · have hpw : (256 : Int) ^ cr = 2 ^ 64 * 256 ^ (cr - 8) := by
          have : cr = 8 + (cr - 8) := by omega
          conv_lhs => rw [this, pow_add]
          norm_num
        have hQ : (0 : Int) < 256 ^ (cr - 8) := by positivity
        rw [if_pos hc, leVal_append, List.length_take, hUl, Nat.min_self,
          List.take_of_length_le (by omega), hUv]
        by_cases hq : q < 0
        · have h255 := leVal_replicate_255 (cr - 8)
          rw [if_pos hq, List.drop_replicate]
          have e : (leVal (List.replicate (cr - 8) 255) : Int) = 256 ^ (cr - 8) - 1 := by
            have : ((leVal (List.replicate (cr - 8) 255) + 1 : Nat) : Int) = 256 ^ (cr - 8) := by
              rw [h255]; norm_num
            push_cast at this
            omega
          have hmod : q % 2 ^ 64 = q + 2 ^ 64 := by omega
          have hres : q % 256 ^ cr = q + 256 ^ cr := by
            rw [← Int.add_emod_self]
            apply Int.emod_eq_of_lt
            · rw [hpw]; nlinarith
            · omega
          rw [Nat.cast_add, Nat.cast_mul, hUc, e, hmod, hres, hpw]
          norm_num
          ring
        · rw [if_neg hq, List.drop_replicate, leVal_replicate_zero]
          have hmod : q % 2 ^ 64 = q := by omega
          rw [mul_zero, add_zero, hUc, hmod]
          symm
          apply Int.emod_eq_of_lt (by omega)
          rw [hpw]
          nlinarith
      · have hle : cr ≤ 8 := by omega
        rw [if_neg hc, List.drop_of_length_le (by omega), List.append_nil,
          leVal_take _ hUb, hUv, Int.natCast_mod, hUc, cast_pow256]
        apply Int.emod_emod_of_dvd
        have : (2 : Int) ^ 64 = 256 ^ 8 := by norm_num
        rw [this]
        exact pow_dvd_pow _ hle
    have h3 := leVal_twosComplement cr q
    have : ((leVal ((int64Bytes q).take (if 8 < cr then 8 else cr)
        ++ (if q < 0 then List.replicate cr 255 else List.replicate cr 0).drop
          (if 8 < cr then 8 else cr)) : Nat) : Int) = (leVal (twosComplement cr q) : Int) := by
      rw [hgoal, h3]
    exact_mod_cast this

theorem OSDivide_fast (stk : Nat → Nat) (m1 : List Nat) (d1 : Int) (cr : Nat)
    (hm1 : Bytes m1) (hlen : m1.length ≤ 8) (hd : d1 ≠ 0)
    (hex : ¬ (sVal m1 = -2 ^ 63 ∧ d1 = -1)) :
    OSDivide stk m1 d1 cr = (true, twosComplement cr (Int.tdiv (sVal m1) d1)) := by
  have hb := sVal_bounds m1 hm1
  have hP : (256 : Int) ^ m1.length ≤ 2 ^ 64 := by
    have : (2 : Int) ^ 64 = 256 ^ 8 := by norm_num
    rw [this]
    exact pow_le_pow_right₀ (by norm_num) hlen
  obtain ⟨hq1, hq2⟩ := tdiv_int64_range (sVal m1) d1 (by omega) (by omega) hd hex
  simp only [OSDivide, OSDivide_state, if_neg hd, if_pos hlen]
  rw [r1_load m1 hm1 hlen, toInt64_of_range _ hq1 hq2, store_quotient _ cr hq1 hq2]

/-! ## OSDivide: the long division -/

/-- Adding a partial quotient into the result buffer at byte offset `i`. -/
theorem add_at_offset (r : List Nat) (hr : Bytes r) (q i : Nat) (hq : q < 2 ^ 64)
    (hi : i < r.length) :
    Bytes (r.take i ++ OSAddInPlace (r.drop i) (toBytes 8 q)) ∧
    (r.take i ++ OSAddInPlace (r.drop i) (toBytes 8 q)).length = r.length ∧
    leVal (r.take i ++ OSAddInPlace (r.drop i) (toBytes 8 q))
      = (leVal r + q * 256 ^ i) % 256 ^ r.length := by
  obtain ⟨hl, hb, hv⟩ := OSAddInPlace_spec (r.drop i) (toBytes 8 q) (Bytes_drop hr i)
    (Bytes_toBytes 8 q)
  have hq8 : q % 256 ^ 8 = q := Nat.mod_eq_of_lt (by norm_num; omega)
  have htl : (r.take i).length = i := by simp; omega
  have htlt := leVal_lt _ (Bytes_take hr i)
  rw [htl] at htlt
  have hsplit : leVal r = leVal (r.take i) + 256 ^ i * leVal (r.drop i) := by
    conv_lhs => rw [← List.take_append_drop i r, leVal_append, htl]
  have hpw : 256 ^ r.length = 256 ^ i * 256 ^ (r.length - i) := by
    rw [← pow_add]
    congr 1
    omega
  refine ⟨Bytes_append.2 ⟨Bytes_take hr i, hb⟩, ?_, ?_⟩
  · rw [List.length_append, hl, htl, List.length_drop]
    omega
  · rw [leVal_append, htl, hv, leVal_toBytes, hq8, List.length_drop, hsplit, hpw]
    have e : leVal (r.take i) + 256 ^ i * leVal (r.drop i) + q * 256 ^ i
        = leVal (r.take i) + 256 ^ i * (leVal (r.drop i) + q) := by ring
    rw [e, Nat.mod_mul, Nat.add_mul_mod_self_left, Nat.mod_eq_of_lt htlt,
      Nat.add_mul_div_left _ _ (by positivity), Nat.div_eq_of_lt htlt, zero_add]

/-- The long-division loop: with a divisor `0 < d ≤ 2^56`, a result length
that the `int32_t` cast preserves, and the dividend above the current
window below `2^56`, the loop adds the quotient of the scratch dividend into `r` (modulo `256^cr`)
and leaves the remainder in the scratch dividend. -/
theorem OSDivide_loop_spec (d cr : Nat) (hd : 0 < d) (hd56 : d ≤ 2 ^ 56) :
    ∀ (n : Nat) (lm1 r : List Nat), Bytes lm1 → Bytes r → r.length = cr →
      n + 7 ≤ lm1.length → leVal (lm1.drop n) < 2 ^ 56 → (n = 0 → leVal lm1 < d) →
      Bytes (OSDivide_loop d cr n lm1 r).2 ∧ (OSDivide_loop d cr n lm1 r).2.length = cr ∧
      leVal (OSDivide_loop d cr n lm1 r).2 = (leVal r + leVal lm1 / d) % 256 ^ cr ∧
      leVal (OSDivide_loop d cr n lm1 r).1 = leVal lm1 % d := by
  intro n
  induction n with
  | zero =>
    intro lm1 r _ hr hlen _ _ h0
    have hlt := h0 rfl
    have hrl := leVal_lt r hr
    rw [hlen] at hrl
    simp only [OSDivide_loop]
    refine ⟨hr, hlen, ?_, ?_⟩
    · rw [Nat.div_eq_of_lt hlt, add_zero, Nat.mod_eq_of_lt hrl]
    · rw [Nat.mod_eq_of_lt hlt]
  | succ i ih =>
    intro lm1 r hlm hr hlen hn hhigh _
    -- the window
    have hX : leVal (lm1.drop i) = leVal lm1 / 256 ^ i := leVal_drop lm1 hlm i
    have hX1 : leVal (lm1.drop (i + 1)) = leVal lm1 / 256 ^ i / 256 := by
      rw [leVal_drop lm1 hlm (i + 1), pow_succ, Nat.div_div_eq_div_mul]
    have hWlt : leVal lm1 / 256 ^ i < 2 ^ 64 := by
      rw [hX1] at hhigh
      omega
    have hW : leVal ((lm1.drop i).take 8) = leVal lm1 / 256 ^ i := by
      rw [leVal_take _ (Bytes_drop hlm i), hX, Nat.mod_eq_of_lt (by norm_num; omega)]
    have hsplit : leVal lm1 = leVal (lm1.take i) + 256 ^ i * (leVal lm1 / 256 ^ i) := by
      rw [leVal_take lm1 hlm i]
      exact (Nat.mod_add_div _ _).symm
    have htl : (lm1.take i).length = i := by simp; omega
    have htlt := leVal_lt _ (Bytes_take hlm i)
    rw [htl] at htlt
    have hhi0 : leVal (lm1.drop (i + 8)) = 0 := by
      rw [leVal_drop lm1 hlm (i + 8), pow_add, ← Nat.div_div_eq_div_mul]
      exact Nat.div_eq_of_lt (by norm_num; omega)
    generalize hWdef : leVal lm1 / 256 ^ i = W at *
    have hr2lt : W % d < d := Nat.mod_lt _ hd
    have hr2 : W % d % 256 ^ 8 = W % d := Nat.mod_eq_of_lt (by norm_num; omega)
    -- the new scratch dividend
    have hlmB : Bytes (lm1.take i ++ toBytes 8 (W % d) ++ lm1.drop (i + 8)) :=
      Bytes_append.2 ⟨Bytes_append.2 ⟨Bytes_take hlm i, Bytes_toBytes _ _⟩, Bytes_drop hlm _⟩
    have hlmL : (lm1.take i ++ toBytes 8 (W % d) ++ lm1.drop (i + 8)).length = lm1.length := by
      rw [List.length_append, List.length_append, htl, length_toBytes, List.length_drop]
      omega
    have hlmV : leVal (lm1.take i ++ toBytes 8 (W % d) ++ lm1.drop (i + 8))
        = leVal (lm1.take i) + 256 ^ i * (W % d) := by
      rw [leVal_append, leVal_append, htl, leVal_toBytes, hr2, hhi0]
      ring
    have hlmD : leVal ((lm1.take i ++ toBytes 8 (W % d) ++ lm1.drop (i + 8)).drop i)
        = W % d := by
      rw [leVal_drop _ hlmB, hlmV, Nat.add_mul_div_left _ _ (by positivity),
        Nat.div_eq_of_lt htlt, zero_add]
    -- the new result
    have hq2 : W / d < 2 ^ 64 := lt_of_le_of_lt (Nat.div_le_self _ _) hWlt
    have hrl := leVal_lt r hr
    rw [hlen] at hrl
    have hres : ∃ r2 : List Nat, r2 = (if (i : Int) < (cr : Int)
          then r.take i ++ OSAddInPlace (r.drop i) (toBytes 8 (W / d)) else r) ∧
        Bytes r2 ∧ r2.length = cr ∧ leVal r2 = (leVal r + W / d * 256 ^ i) % 256 ^ cr := by
      refine ⟨_, rfl, ?_⟩
      by_cases hc : i < cr
      · rw [if_pos (by exact_mod_cast hc)]
        have := add_at_offset r hr (W / d) i hq2 (by omega)
        rw [hlen] at this
        exact this
      · rw [if_neg (by exact_mod_cast hc)]
        refine ⟨hr, hlen, ?_⟩
        have hdvd : 256 ^ cr ∣ W / d * 256 ^ i :=
          Dvd.dvd.mul_left (pow_dvd_pow _ (by omega)) _
        obtain ⟨c, hc2⟩ := hdvd
        rw [hc2, Nat.add_mul_mod_self_left, Nat.mod_eq_of_lt hrl]
    obtain ⟨r2, hr2def, hr2B, hr2L, hr2V⟩ := hres
    obtain ⟨h1, h2, h3, h4⟩ := ih _ r2 hlmB hr2B hr2L (by rw [hlmL]; omega)
      (by rw [hlmD]; omega)
      (by
        intro hi0
        subst hi0
        rw [hlmV]
        have : leVal (lm1.take 0) = 0 := by simp [leVal]
        rw [this]
        simpa using hr2lt)
    simp only [OSDivide_loop, hW, ← hr2def]
    refine ⟨h1, h2, ?_, ?_⟩
    · rw [h3, hr2V, hlmV, Nat.mod_add_mod, hsplit]
      congr 1
      have e : leVal (lm1.take i) + 256 ^ i * W
          = leVal (lm1.take i) + 256 ^ i * (W % d) + (256 ^ i * (W / d)) * d := by
        have := Nat.mod_add_div W d
        have e2 := congrArg (fun t => 256 ^ i * t) this
        simp only [mul_add] at e2
        rw [← e2]
        ring
      rw [e, Nat.add_mul_div_right _ _ hd]
      ring
    · rw [h4, hlmV, hsplit]
      have e : leVal (lm1.take i) + 256 ^ i * W
          = leVal (lm1.take i) + 256 ^ i * (W % d) + (256 ^ i * (W / d)) * d := by
        have := Nat.mod_add_div W d
        have e2 := congrArg (fun t => 256 ^ i * t) this
        simp only [mul_add] at e2
        rw [← e2]
        ring
      rw [e, Nat.add_mul_mod_self_right]

theorem loop_start (cm1 : Nat) (h1 : 8 < cm1) (h2 : cm1 < 2 ^ 31) :
    (toInt32 (((cm1 : Int) - 8) % 2 ^ 32) + 1).toNat = cm1 - 7 := by
  have e : ((cm1 : Int) - 8) % 2 ^ 32 = ((cm1 - 8 : Nat) : Int) := by omega
  rw [e, toInt32_of_lt _ (by omega)]
  omega

theorem divisor_magnitude (d1 : Int) (hd56 : d1.natAbs ≤ 2 ^ 56) :
    ((if d1 < 0 then toInt64 (-d1) else d1) % 2 ^ 64).toNat = d1.natAbs := by
  by_cases h : d1 < 0
  · rw [if_pos h, toInt64_of_range _ (by omega) (by omega)]
    omega
  · rw [if_neg h]
    omega

/-- The general path of `OSDivide` on a non-negative dividend of more than
8 bytes: the result buffer holds the quotient of the magnitudes modulo
`256^cr`, negated when the divisor is negative, and the scratch dividend is
left holding the remainder. -/
theorem OSDivide_general (stk : Nat → Nat) (m1 : List Nat) (d1 : Int) (cr : Nat)
    (hm1 : Bytes m1) (hlen : 8 < m1.length) (hlen2 : m1.length < 2 ^ 31)
    (hmsb : msbSet m1 = false) (hd : d1 ≠ 0) (hd56 : d1.natAbs ≤ 2 ^ 56) (hcr : cr < 2 ^ 31) :
    (OSDivide_state stk m1 d1 cr).1 = true ∧
    Bytes (OSDivide_state stk m1 d1 cr).2.1 ∧
    (OSDivide_state stk m1 d1 cr).2.1.length = cr ∧
    leVal (OSDivide_state stk m1 d1 cr).2.1
      = (if 0 < d1 then (leVal m1 / d1.natAbs) % 256 ^ cr
         else (256 ^ cr - (leVal m1 / d1.natAbs) % 256 ^ cr) % 256 ^ cr) ∧
    leVal (OSDivide_state stk m1 d1 cr).2.2 = leVal m1 % d1.natAbs := by
  have hn8 : ¬ m1.length ≤ 8 := by omega
  have hdpos : 0 < d1.natAbs := Int.natAbs_pos.2 hd
  have hdrop : leVal (m1.drop (m1.length - 7)) < 2 ^ 56 := by
    have := leVal_lt _ (Bytes_drop hm1 (m1.length - 7))
    rw [List.length_drop] at this
    have e : m1.length - (m1.length - 7) = 7 := by omega
    rw [e] at this
    omega
  obtain ⟨h1, h2, h3, h4⟩ := OSDivide_loop_spec d1.natAbs cr hdpos hd56 (m1.length - 7) m1
    (List.replicate cr 0) hm1 (Bytes_replicate cr (by norm_num)) (by simp) (by omega) hdrop
    (by omega)
  rw [leVal_replicate_zero, zero_add] at h3
  have hms : msbSet m1 = true ↔ False := by simp [hmsb]
  by_cases hneg : d1 < 0
  · have hdm := divisor_magnitude d1 hd56
    rw [if_pos hneg] at hdm
    have hnp : ¬ 0 < d1 := by omega
    simp only [OSDivide_state, if_neg hd, if_neg hn8, if_pos hneg, hmsb, hdm,
      loop_start _ hlen hlen2, toInt32_of_lt cr hcr, Bool.false_eq_true, if_false,
      Bool.xor_true, Bool.not_false, if_true, if_neg hnp]
    generalize OSDivide_loop d1.natAbs (cr : Int) (m1.length - 7) m1 (List.replicate cr 0)
      = res at h1 h2 h3 h4
    obtain ⟨l2, r2⟩ := res
    simp only at h1 h2 h3 h4 ⊢
    obtain ⟨n1, n2, n3⟩ := OSMakeNeg_spec r2 h1
    rw [h2] at n1 n3
    rw [h3] at n3
    exact ⟨trivial, n2, n1, n3, h4⟩
  · have hdm := divisor_magnitude d1 hd56
    rw [if_neg hneg] at hdm
    have hp : 0 < d1 := by omega
    simp only [OSDivide_state, if_neg hd, if_neg hn8, if_neg hneg, hmsb, hdm,
      loop_start _ hlen hlen2, toInt32_of_lt cr hcr, Bool.false_eq_true, if_false, if_pos hp]
    generalize OSDivide_loop d1.natAbs (cr : Int) (m1.length - 7) m1 (List.replicate cr 0)
      = res at h1 h2 h3 h4
    obtain ⟨l2, r2⟩ := res
    simp only at h1 h2 h3 h4 ⊢
    exact ⟨trivial, h1, h2, h3, h4⟩

/-- When `(int32_t) cr` is negative the loop never adds into the result. -/
theorem OSDivide_loop_skip (d : Nat) (cr32 : Int) (h : cr32 < 0) :
    ∀ (n : Nat) (lm1 r : List Nat), (OSDivide_loop d cr32 n lm1 r).2 = r := by
  intro n
  induction n with
  | zero =>
    intro lm1 r
    rfl
  | succ i ih =>
    intro lm1 r
    have hc : ¬ (i : Int) < cr32 := by omega
    simp only [OSDivide_loop, if_neg hc]
    exact ih _ _

/-- A result length of `2^31` bytes or more is negative as `int32_t`: with a
positive divisor and a non-negative dividend of more than 8 bytes the result
buffer stays zero. -/
theorem OSDivide_wide_result (stk : Nat → Nat) (m1 : List Nat) (d1 : Int) (cr : Nat)
    (hlen : 8 < m1.length) (hmsb : msbSet m1 = false) (hd : 0 < d1)
    (hcr1 : 2 ^ 31 ≤ cr) (hcr2 : cr < 2 ^ 32) :
    (OSDivide stk m1 d1 cr).2 = List.replicate cr 0 := by
  have hn8 : ¬ m1.length ≤ 8 := by omega
  have hd0 : d1 ≠ 0 := by omega
  have hneg : ¬ d1 < 0 := by omega
  have hskip := OSDivide_loop_skip (d1 % 2 ^ 64).toNat (toInt32 (cr : Int))
    (toInt32_neg cr hcr1 hcr2)
    (toInt32 (((m1.length : Int) - 8) % 2 ^ 32) + 1).toNat m1 (List.replicate cr 0)
  simp only [OSDivide, OSDivide_state, if_neg hd0, if_neg hn8, if_neg hneg, hmsb,
    Bool.false_eq_true, if_false]
  generalize OSDivide_loop (d1 % 2 ^ 64).toNat (toInt32 (cr : Int))
    (toInt32 (((m1.length : Int) - 8) % 2 ^ 32) + 1).toNat m1 (List.replicate cr 0) = res at hskip
  obtain ⟨l2, r2⟩ := res
  exact hskip

/-! ## GetSamples -/

theorem OSDivide_snd (stk : Nat → Nat) (m1 : List Nat) (d1 : Int) (cr : Nat) :
    (OSDivide stk m1 d1 cr).2 = (OSDivide_state stk m1 d1 cr).2.1 := rfl

theorem OSDivide_fst (stk : Nat → Nat) (m1 : List Nat) (d1 : Int) (cr : Nat) :
    (OSDivide stk m1 d1 cr).1 = (OSDivide_state stk m1 d1 cr).1 := rfl

theorem int64Bytes_natCast (n : Nat) (h : n < 2 ^ 64) : int64Bytes (n : Int) = toBytes 8 n := by
  unfold int64Bytes
  congr 1
  omega

theorem toInt64_emod (x : Int) : toInt64 x % 2 ^ 64 = x % 2 ^ 64 := by
  unfold toInt64 wrapInt
  split <;> omega

theorem int64Bytes_toInt64 (x : Int) : int64Bytes (toInt64 x) = int64Bytes x := by
  unfold int64Bytes
  rw [toInt64_emod]

theorem msb_clear_of_lt (m : List Nat) (hm : Bytes m) (h : 2 * leVal m < 256 ^ m.length) :
    msbSet m = false := by
  by_contra hc
  have := (msbSet_iff m hm).1 (by simpa using hc)
  omega

/-- The magnitude pipeline of `GetSamples`: multiply, divide by the scale,
add one half of `10^12`, divide by `10^12` into 8 bytes. -/
theorem GetSamples_magnitude (stk : Nat → Nat) (P X s : Nat) (hP : P ≤ 2 ^ 63) (hX : X < 2 ^ 63)
    (hs : 1 ≤ s) (hs2 : s < 2 ^ 32) :
    leVal (OSDivide stk (OSAddInPlace (OSDivide stk (OSUMult (toBytes 8 P) (toBytes 8 X) 16).2
        (s : Int) 16).2 (toBytes 8 500000000000)) 1000000000000 8).2
      = (P * X / s + 500000000000) / 1000000000000 % 2 ^ 64 := by
  have hPX : P * X ≤ 2 ^ 63 * (2 ^ 63 - 1) := Nat.mul_le_mul (by omega) (by omega)
  have hPXs : P * X / s ≤ P * X := Nat.div_le_self _ _
  -- the product
  obtain ⟨_, m1, m2, m3⟩ := OSUMult_spec (toBytes 8 P) (toBytes 8 X) (Bytes_toBytes _ _)
    (Bytes_toBytes _ _) 16 (by simp [length_toBytes])
  rw [leVal_toBytes, leVal_toBytes, Nat.mod_eq_of_lt (by norm_num; omega),
    Nat.mod_eq_of_lt (by norm_num; omega)] at m3
  generalize (OSUMult (toBytes 8 P) (toBytes 8 X) 16).2 = r at m1 m2 m3
  have hmsb : msbSet r = false := msb_clear_of_lt r m1 (by rw [m2, m3]; norm_num; omega)
  -- the division by the scale
  obtain ⟨_, d1, d2, d3, _⟩ := OSDivide_general stk r (s : Int) 16 m1 (by omega) (by omega) hmsb
    (by omega) (by simp only [Int.natAbs_ofNat]; omega) (by norm_num)
  rw [if_pos (by omega), Int.natAbs_ofNat, m3, Nat.mod_eq_of_lt (by norm_num; omega)] at d3
  rw [← OSDivide_snd] at d1 d2 d3
  generalize (OSDivide stk r (s : Int) 16).2 = r2 at d1 d2 d3
  -- the rounding add
  obtain ⟨a1, a2, a3⟩ := OSAddInPlace_spec r2 (toBytes 8 500000000000) d1 (Bytes_toBytes _ _)
  rw [leVal_toBytes, d2, d3, Nat.mod_eq_of_lt (by norm_num : 500000000000 < 256 ^ 8),
    Nat.mod_eq_of_lt (by norm_num; omega)] at a3
  rw [d2] at a1
  generalize OSAddInPlace r2 (toBytes 8 500000000000) = r3 at a1 a2 a3
  have hmsb3 : msbSet r3 = false := msb_clear_of_lt r3 a2 (by rw [a1, a3]; norm_num; omega)
  -- the division by 10^12
  obtain ⟨_, _, _, e3, _⟩ := OSDivide_general stk r3 1000000000000 8 a2 (by omega) (by omega)
    hmsb3 (by norm_num) (by norm_num) (by norm_num)
  rw [if_pos (by norm_num), a3] at e3
  rw [OSDivide_snd, e3]
  norm_num

/-- `GetSamples` in closed form: the rounded magnitude, reduced to 64 bits,
read back as `int64_t` and multiplied by the sign. -/
theorem GetSamples_eq (stk : Nat → Nat) (psec xsps : Int) (scaleSPS : Nat)
    (hp : -2 ^ 63 ≤ psec) (hp2 : psec < 2 ^ 63) (hx : 0 ≤ xsps) (hx2 : xsps < 2 ^ 63)
    (hs : 1 ≤ scaleSPS) (hs2 : scaleSPS < 2 ^ 32) :
    GetSamples stk psec xsps scaleSPS
      = toInt64 (toInt64 (((psec.natAbs * xsps.natAbs / scaleSPS + 500000000000)
          / 1000000000000 % 2 ^ 64 : Nat) : Int) * (if psec < 0 then -1 else 1)) := by
  have hX : int64Bytes xsps = toBytes 8 xsps.natAbs := by
    rw [← int64Bytes_natCast _ (by omega)]
    congr 1
    omega
  have hmag := GetSamples_magnitude stk psec.natAbs xsps.natAbs scaleSPS (by omega) (by omega)
    hs hs2
  by_cases hneg : psec < 0
  · have hP : int64Bytes (toInt64 (psec * -1)) = toBytes 8 psec.natAbs := by
      rw [int64Bytes_toInt64, ← int64Bytes_natCast _ (by omega)]
      unfold int64Bytes
      congr 2
      omega
    simp only [GetSamples, if_pos hneg, hP, hX, hmag]
  · have hP : int64Bytes psec = toBytes 8 psec.natAbs := by
      rw [← int64Bytes_natCast _ (by omega)]
      congr 1
      omega
    simp only [GetSamples, if_neg hneg, hP, hX, hmag]

/-- Round-half-up of a quotient of naturals, as a rational floor. -/
theorem floor_half_up (N D : Nat) :
    ⌊((N : ℤ) : ℚ) / (D : ℚ) + 1 / 2⌋ = (((2 * N + D) / (2 * D) : Nat) : Int) := by
  rcases Nat.eq_zero_or_pos D with h0 | hD
  · subst h0
    norm_num
  · have h2D : (0 : ℚ) < 2 * D := by positivity
    have e : ((N : ℤ) : ℚ) / (D : ℚ) + 1 / 2
        = (((2 * N + D : Nat) : ℤ) : ℚ) / ((2 * D : Nat) : ℚ) := by
      push_cast
      field_simp
      ring
    rw [e, Rat.floor_intCast_div_natCast]
    norm_cast

/-- Dividing by the scale with truncation and then rounding against `10^12`
is the exact round-half-up of the quotient by `scale * 10^12`. -/
theorem two_step_rounding (N s : Nat) (hs : 0 < s) :
    (N / s + 500000000000) / 1000000000000
      = (2 * N + s * 1000000000000) / (2 * (s * 1000000000000)) := by
  have e1 : N / s + 500000000000 = (N + 500000000000 * s) / s := by
    rw [Nat.add_mul_div_right _ _ hs]
  have e2 : 2 * N + s * 1000000000000 = 2 * (N + 500000000000 * s) := by ring
  rw [e1, Nat.div_div_eq_div_mul, e2, Nat.mul_div_mul_left _ _ (by norm_num : 0 < 2)]

/-! ## Claims -/

/-- Claim C1. `OSAdd` returns true and leaves in `r[0..cr)` the value
`(U(m1[0..min(cm1,cr))) + U(m2[0..min(cm2,cr)))) mod 256^cr`, for byte
operands and any result buffer that is streaming-safe against both operands
(in particular a separate buffer, or one of the operands itself). -/
theorem OSAdd_sum (mem : Mem) (m1 cm1 m2 cm2 r cr : Nat)
    (hb1 : MemBytes mem m1 cm1) (hb2 : MemBytes mem m2 cm2)
    (h1 : StreamSafe m1 cm1 r cr) (h2 : StreamSafe m2 cm2 r cr) :
    (OSAdd mem m1 cm1 m2 cm2 r cr).1 = true ∧
    leVal ((OSAdd mem m1 cm1 m2 cm2 r cr).2.load r cr)
      = (leVal (Mem.load mem m1 (min cm1 cr)) + leVal (Mem.load mem m2 (min cm2 cr)))
          % 256 ^ cr :=
  ⟨rfl, (OSAdd_value mem m1 cm1 m2 cm2 r cr hb1 hb2 h1 h2).1⟩

/-- Witness for C1: `FFFF + 01` into a separate 2-byte buffer. -/
theorem OSAdd_sum_witness :
    (OSAdd demoMem 0 2 2 1 3 2).1 = true ∧
    leVal ((OSAdd demoMem 0 2 2 1 3 2).2.load 3 2)
      = (leVal (Mem.load demoMem 0 (min 2 2)) + leVal (Mem.load demoMem 2 (min 1 2)))
          % 256 ^ 2 :=
  OSAdd_sum demoMem 0 2 2 1 3 2
    (by intro i hi; interval_cases i <;> decide)
    (by intro i hi; interval_cases i; decide)
    (StreamSafe_of_disjoint 0 2 3 2 (Or.inr (by decide)))
    (StreamSafe_of_disjoint 2 1 3 2 (Or.inr (by decide)))

/-- Claim C2. For byte operands and `cr ≥ cm1 + cm2`, `OSUMult` returns true
and the value of `r[0..cr)` is exactly `U(m1) * U(m2)`; and
`OSUMult([FF], [02], 2 bytes)` gives `[FE, 01]`. -/
theorem OSUMult_exact (m1 m2 : List Nat) (cr : Nat) (hm1 : Bytes m1) (hm2 : Bytes m2)
    (hcr : m1.length + m2.length ≤ cr) :
    ((OSUMult m1 m2 cr).1 = true ∧ (OSUMult m1 m2 cr).2.length = cr ∧
      leVal (OSUMult m1 m2 cr).2 = leVal m1 * leVal m2) ∧
    OSUMult [0xFF] [0x02] 2 = (true, [0xFE, 0x01]) := by
  obtain ⟨h1, _, h3, h4⟩ := OSUMult_spec m1 m2 hm1 hm2 cr hcr
  exact ⟨⟨h1, h3, h4⟩, by decide⟩

/-- Witness for C2: `FFFF * FF` into 3 bytes. -/
theorem OSUMult_exact_witness :
    ((OSUMult [0xFF, 0xFF] [0xFF] 3).1 = true ∧ (OSUMult [0xFF, 0xFF] [0xFF] 3).2.length = 3 ∧
      leVal (OSUMult [0xFF, 0xFF] [0xFF] 3).2 = leVal [0xFF, 0xFF] * leVal [0xFF]) ∧
    OSUMult [0xFF] [0x02] 2 = (true, [0xFE, 0x01]) :=
  OSUMult_exact [0xFF, 0xFF] [0xFF] 3 (by decide) (by decide) (by decide)

/-- Claim C3 (the code departs from it). On a negative operand `OSMult`
negates the scratch array as the stack left it instead of a copy of the
operand: with a zeroed stack `(-1) * 1` in 2 bytes comes out as `00 00`
where the product is `FF FF`, and the result never depends on the magnitude
of a negative first operand. -/
theorem OSMult_negative_operand_lost :
    (OSMult (fun _ => 0) [0xFF] [0x01] 2).2 = [0x00, 0x00] ∧
    twosComplement 2 (sVal [0xFF] * sVal [0x01]) = [0xFF, 0xFF] ∧
    (∀ (stk : Nat → Nat) (m1 m1' m2 : List Nat) (cr : Nat), m1.length = m1'.length →
      msbSet m1 = true → msbSet m1' = true → OSMult stk m1 m2 cr = OSMult stk m1' m2 cr) := by
  refine ⟨by decide, by decide, ?_⟩
  intro stk m1 m1' m2 cr hlen h1 h2
  simp only [OSMult, h1, h2, hlen, if_true]

/-- Claim C4. On the 64-bit path (`cm1 ≤ 8`) with a nonzero divisor, and not
`INT64_MIN / -1`, `OSDivide` returns true and `r[0..cr)` is the `cr`-byte
two's-complement representation of the quotient rounded toward zero; and
`OSDivide([64, 00], -25, 2 bytes)` gives `FC FF`, which is `-4`. -/
theorem OSDivide_fast_path (stk : Nat → Nat) (m1 : List Nat) (d1 : Int) (cr : Nat)
    (hm1 : Bytes m1) (_hlen1 : 1 ≤ m1.length) (hlen : m1.length ≤ 8) (hd : d1 ≠ 0)
    (hex : ¬ (sVal m1 = -2 ^ 63 ∧ d1 = -1)) :
    OSDivide stk m1 d1 cr = (true, twosComplement cr (Int.tdiv (sVal m1) d1)) ∧
    (leVal (OSDivide stk m1 d1 cr).2 : Int) = Int.tdiv (sVal m1) d1 % 256 ^ cr ∧
    (OSDivide stk [0x64, 0x00] (-25) 2 = (true, [0xFC, 0xFF]) ∧ sVal [0xFC, 0xFF] = -4) := by
  have h := OSDivide_fast stk m1 d1 cr hm1 hlen hd hex
  refine ⟨h, ?_, ?_, by decide⟩
  · rw [h]
    exact leVal_twosComplement cr _
  · rw [OSDivide_fast stk [0x64, 0x00] (-25) 2 (by decide) (by decide) (by decide) (by decide)]
    decide

/-- Witness for C4: `-32768 / 3` from 2 bytes into 4 bytes. -/
theorem OSDivide_fast_path_witness :
    OSDivide (fun _ => 0) [0x00, 0x80] 3 4
      = (true, twosComplement 4 (Int.tdiv (sVal [0x00, 0x80]) 3)) ∧
    (leVal (OSDivide (fun _ => 0) [0x00, 0x80] 3 4).2 : Int)
      = Int.tdiv (sVal [0x00, 0x80]) 3 % 256 ^ 4 ∧
    (OSDivide (fun _ => 0) [0x64, 0x00] (-25) 2 = (true, [0xFC, 0xFF]) ∧
      sVal [0xFC, 0xFF] = -4) :=
  OSDivide_fast_path (fun _ => 0) [0x00, 0x80] 3 4 (by decide) (by decide) (by decide)
    (by decide) (by decide)

/-- Claim C5 as stated fails for a result length that is negative as
`int32_t`: the dividend `2^64` (9 bytes) divided by 1 into `2^31` result
bytes leaves the result all zero, where the claim gives `2^64`. -/
theorem OSDivide_general_path_wide_cr :
    (OSDivide (fun _ => 0) [0, 0, 0, 0, 0, 0, 0, 0, 1] 1 2147483648).2
      = List.replicate 2147483648 0 ∧
    leVal (OSDivide (fun _ => 0) [0, 0, 0, 0, 0, 0, 0, 0, 1] 1 2147483648).2
      ≠ (leVal [0, 0, 0, 0, 0, 0, 0, 0, 1] / 1) % 256 ^ 2147483648 := by
  have h1 : (OSDivide (fun _ => 0) [0, 0, 0, 0, 0, 0, 0, 0, 1] 1 2147483648).2
      = List.replicate 2147483648 0 :=
    OSDivide_wide_result _ _ _ _ (by decide) (by decide) (by decide) (by decide) (by decide)
  have h2 : leVal [0, 0, 0, 0, 0, 0, 0, 0, 1] / 1 = 256 ^ 8 := by decide
  have h3 : (256 : Nat) ^ 8 < 256 ^ 2147483648 :=
    pow_lt_pow_right₀ (by decide) (by decide)
  refine ⟨h1, ?_⟩
  rw [h1, leVal_replicate_zero, h2, Nat.mod_eq_of_lt h3]
  decide

/-- Claim C5, amended to lengths that fit `int32_t`. On the general path
with a non-negative dividend of more than 8 bytes and a divisor
`0 < |d1| ≤ 2^56`, `OSDivide` returns true, the value of `r[0..cr)` is
`floor(A / |d1|) mod 256^cr` for `d1 > 0` and its two's-complement negation
for `d1 < 0`, and the long division ends with
`A = floor(A / |d1|) * |d1| + remaining dividend`, the remaining dividend
below `|d1|`. -/
theorem OSDivide_general_path (stk : Nat → Nat) (m1 : List Nat) (d1 : Int) (cr : Nat)
    (hm1 : Bytes m1) (hlen : 8 < m1.length) (hlen2 : m1.length < 2 ^ 31)
    (hmsb : msbSet m1 = false) (hd : d1 ≠ 0) (hd56 : d1.natAbs ≤ 2 ^ 56) (hcr : cr < 2 ^ 31) :
    (OSDivide stk m1 d1 cr).1 = true ∧
    leVal (OSDivide stk m1 d1 cr).2
      = (if 0 < d1 then (leVal m1 / d1.natAbs) % 256 ^ cr
         else (256 ^ cr - (leVal m1 / d1.natAbs) % 256 ^ cr) % 256 ^ cr) ∧
    leVal m1 = leVal m1 / d1.natAbs * d1.natAbs + leVal (OSDivide_state stk m1 d1 cr).2.2 ∧
    leVal (OSDivide_state stk m1 d1 cr).2.2 < d1.natAbs := by
  obtain ⟨h1, _, _, h4, h5⟩ := OSDivide_general stk m1 d1 cr hm1 hlen hlen2 hmsb hd hd56 hcr
  have hdpos : 0 < d1.natAbs := Int.natAbs_pos.2 hd
  refine ⟨h1, h4, ?_, ?_⟩
  · rw [h5]
    exact (Nat.div_add_mod' _ _).symm
  · rw [h5]
    exact Nat.mod_lt _ hdpos

/-- Witness for C5 as amended: `2^64 / -3` from 9 bytes into 4 bytes. -/
theorem OSDivide_general_path_witness :
    (OSDivide (fun _ => 0) [0, 0, 0, 0, 0, 0, 0, 0, 1] (-3) 4).1 = true ∧
    leVal (OSDivide (fun _ => 0) [0, 0, 0, 0, 0, 0, 0, 0, 1] (-3) 4).2
      = (if (0 : Int) < -3 then (leVal [0, 0, 0, 0, 0, 0, 0, 0, 1] / (-3 : Int).natAbs) % 256 ^ 4
         else (256 ^ 4 - (leVal [0, 0, 0, 0, 0, 0, 0, 0, 1] / (-3 : Int).natAbs) % 256 ^ 4)
            % 256 ^ 4) ∧
    leVal [0, 0, 0, 0, 0, 0, 0, 0, 1]
      = leVal [0, 0, 0, 0, 0, 0, 0, 0, 1] / (-3 : Int).natAbs * (-3 : Int).natAbs
        + leVal (OSDivide_state (fun _ => 0) [0, 0, 0, 0, 0, 0, 0, 0, 1] (-3) 4).2.2 ∧
    leVal (OSDivide_state (fun _ => 0) [0, 0, 0, 0, 0, 0, 0, 0, 1] (-3) 4).2.2
      < (-3 : Int).natAbs :=
  OSDivide_general_path (fun _ => 0) [0, 0, 0, 0, 0, 0, 0, 0, 1] (-3) 4 (by decide) (by decide)
    (by decide) (by decide) (by decide) (by decide) (by decide)

/-- Claim C6 (the code departs from it). On a negative dividend of more
than 8 bytes `OSDivide` negates the scratch array as the stack left it
instead of a copy of the dividend: with a zeroed stack `-2^64 / 1` in 9
bytes comes out as zero where the quotient is `00 .. 00 FF`, and the result
never depends on the magnitude of a negative dividend. -/
theorem OSDivide_negative_dividend_lost :
    (OSDivide (fun _ => 0) [0, 0, 0, 0, 0, 0, 0, 0, 0xFF] 1 9).2
      = [0, 0, 0, 0, 0, 0, 0, 0, 0] ∧
    twosComplement 9 (Int.tdiv (sVal [0, 0, 0, 0, 0, 0, 0, 0, 0xFF]) 1)
      = [0, 0, 0, 0, 0, 0, 0, 0, 0xFF] ∧
    (∀ (stk : Nat → Nat) (m1 m1' : List Nat) (d1 : Int) (cr : Nat), 8 < m1.length →
      m1.length = m1'.length → msbSet m1 = true → msbSet m1' = true →
      OSDivide stk m1 d1 cr = OSDivide stk m1' d1 cr) := by
  refine ⟨by decide, by decide, ?_⟩
  intro stk m1 m1' d1 cr h8 hlen h1 h2
  have hn8 : ¬ m1'.length ≤ 8 := by omega
  simp only [OSDivide, OSDivide_state, h1, h2, hlen, if_true, if_neg hn8]

/-- Claim C7. `OSMakeNeg` returns true, yields the two's-complement negation
`(256^n - U(x)) mod 256^n`, and applied twice gives back exactly the bytes
of `x`, for every byte buffer `x` of any length `n`. -/
theorem OSMakeNeg_involution (x : List Nat) (hx : Bytes x) :
    (OSMakeNeg x).1 = true ∧
    leVal (OSMakeNeg x).2 = (256 ^ x.length - leVal x) % 256 ^ x.length ∧
    (OSMakeNeg (OSMakeNeg x).2).2 = x := by
  obtain ⟨a1, a2, a3⟩ := OSMakeNeg_spec x hx
  obtain ⟨b1, b2, b3⟩ := OSMakeNeg_spec (OSMakeNeg x).2 a2
  refine ⟨rfl, a3, ?_⟩
  apply eq_of_leVal_eq b2 hx (by rw [b1, a1])
  rw [b3, a1, a3]
  exact neg_neg_mod _ _ (leVal_lt x hx)

/-- Witness for C7: the most negative 2-byte value, zero, and the empty
buffer. -/
theorem OSMakeNeg_involution_witness :
    ((OSMakeNeg [0x00, 0x80]).1 = true ∧
      leVal (OSMakeNeg [0x00, 0x80]).2
        = (256 ^ [0x00, 0x80].length - leVal [0x00, 0x80]) % 256 ^ [0x00, 0x80].length ∧
      (OSMakeNeg (OSMakeNeg [0x00, 0x80]).2).2 = [0x00, 0x80]) ∧
    (OSMakeNeg (OSMakeNeg [0x00, 0x00]).2).2 = [0x00, 0x00] ∧
    (OSMakeNeg (OSMakeNeg []).2).2 = [] :=
  ⟨OSMakeNeg_involution [0x00, 0x80] (by decide),
    (OSMakeNeg_involution [0x00, 0x00] (by decide)).2.2,
    (OSMakeNeg_involution [] (by decide)).2.2⟩

/-- Claim C8. With the operands in separate buffers, running `OSAdd` with the
result buffer being `m1` itself (`cm1 = cr`), or `m2` itself (`cm2 = cr`),
leaves in that buffer exactly the bytes that the run on the same memory
writes to a separate result buffer `out`. -/
theorem OSAdd_alias_safe (mem : Mem) (m1 cm1 m2 cm2 out cr : Nat)
    (hsep : m1 + cm1 ≤ m2 ∨ m2 + cm2 ≤ m1)
    (hout1 : out + cr ≤ m1 ∨ m1 + cm1 ≤ out) (hout2 : out + cr ≤ m2 ∨ m2 + cm2 ≤ out) :
    (cm1 = cr → (OSAdd mem m1 cm1 m2 cm2 m1 cr).2.load m1 cr
      = (OSAdd mem m1 cm1 m2 cm2 out cr).2.load out cr) ∧
    (cm2 = cr → (OSAdd mem m1 cm1 m2 cm2 m2 cr).2.load m2 cr
      = (OSAdd mem m1 cm1 m2 cm2 out cr).2.load out cr) := by
  have ho := OSAdd_load mem m1 cm1 m2 cm2 out cr (StreamSafe_of_disjoint _ _ _ _ hout1)
    (StreamSafe_of_disjoint _ _ _ _ hout2)
  constructor
  · intro h
    subst h
    rw [ho, OSAdd_load mem m1 cm1 m2 cm2 m1 cm1 (StreamSafe_self _ _ _)
      (StreamSafe_of_disjoint _ _ _ _ hsep)]
  · intro h
    subst h
    rw [ho, OSAdd_load mem m1 cm1 m2 cm2 m2 cm2
      (StreamSafe_of_disjoint _ _ _ _ (by omega)) (StreamSafe_self _ _ _)]

/-- Witness for C8: `FFFF + 01` in place against a separate buffer. -/
theorem OSAdd_alias_safe_witness :
    (2 = 2 → (OSAdd demoMem 0 2 2 1 0 2).2.load 0 2 = (OSAdd demoMem 0 2 2 1 3 2).2.load 3 2) ∧
    (1 = 2 → (OSAdd demoMem 0 2 2 1 2 2).2.load 2 2 = (OSAdd demoMem 0 2 2 1 3 2).2.load 3 2) :=
  OSAdd_alias_safe demoMem 0 2 2 1 3 2 (Or.inl (by decide)) (Or.inr (by decide))
    (Or.inr (by decide))

/-- Claim C9 as stated fails when the product has its top bit set in `cr`
bytes: `255 * 255 = FE01` in 2 bytes is read back by `OSDivide` as the
negative number `-511`, and dividing by 255 gives `-2`, not 255. -/
theorem mult_divide_round_trip_top_bit :
    (0 < leVal [0xFF] ∧ leVal [0xFF] ≤ 2 ^ 56 ∧ [0xFF].length + [0xFF].length ≤ 2) ∧
    (OSUMult [0xFF] [0xFF] 2).2 = [0x01, 0xFE] ∧
    (OSDivide (fun _ => 0) (OSUMult [0xFF] [0xFF] 2).2 (leVal [0xFF] : Int) 2).2 = [0xFE, 0xFF] ∧
    leVal (OSDivide (fun _ => 0) (OSUMult [0xFF] [0xFF] 2).2 (leVal [0xFF] : Int) 2).2
      ≠ leVal [0xFF] := by
  decide

/-- Claim C9, amended to products that are non-negative in `cr` bytes
(`U(a) * U(b) < 2^(8 cr - 1)`, as whenever `cr > cm1 + cm2`) and to lengths
that fit `int32_t`. `OSUMult(a, b, out, cr)` followed by
`OSDivide(out, cr, U(a), q, cr)` succeeds and leaves `U(b)` in `q`. -/
theorem mult_divide_round_trip (stk : Nat → Nat) (a b : List Nat) (cr : Nat)
    (ha : Bytes a) (hb : Bytes b) (hpos : 0 < leVal a) (h56 : leVal a ≤ 2 ^ 56)
    (hcr : a.length + b.length ≤ cr) (hcr2 : cr < 2 ^ 31)
    (htop : 2 * (leVal a * leVal b) < 256 ^ cr) :
    (OSUMult a b cr).1 = true ∧
    (OSDivide stk (OSUMult a b cr).2 (leVal a : Int) cr).1 = true ∧
    leVal (OSDivide stk (OSUMult a b cr).2 (leVal a : Int) cr).2 = leVal b := by
  obtain ⟨m0, m1, m2, m3⟩ := OSUMult_spec a b ha hb cr hcr
  refine ⟨m0, ?_⟩
  generalize (OSUMult a b cr).2 = out at m1 m2 m3
  have hmsb : msbSet out = false := msb_clear_of_lt out m1 (by rw [m2, m3]; exact htop)
  have hblt : leVal b < 256 ^ cr :=
    lt_of_lt_of_le (leVal_lt b hb) (Nat.pow_le_pow_right (by norm_num) (by omega))
  have hquot : leVal a * leVal b / leVal a = leVal b := Nat.mul_div_cancel_left _ hpos
  by_cases h8 : cr ≤ 8
  · have hs : sVal out = ((leVal a * leVal b : Nat) : Int) := by
      rw [sVal_of_msb_clear out hmsb, m3]
    have hq : Int.tdiv (sVal out) (leVal a : Int) = (leVal b : Int) := by
      rw [hs, ← Int.ofNat_tdiv, hquot]
    have hfast := OSDivide_fast stk out (leVal a : Int) cr m1 (by omega) (by omega)
      (by rw [hs]; omega)
    rw [hfast]
    refine ⟨rfl, ?_⟩
    have hv := leVal_twosComplement cr (Int.tdiv (sVal out) (leVal a : Int))
    rw [hq, ← cast_pow256, ← Int.natCast_mod, Nat.mod_eq_of_lt hblt] at hv
    rw [hq]
    exact_mod_cast hv
  · obtain ⟨g1, _, _, g4, _⟩ := OSDivide_general stk out (leVal a : Int) cr m1 (by omega)
      (by omega) hmsb (by omega) (by simpa using h56) hcr2
    rw [if_pos (by omega), Int.natAbs_ofNat, m3, hquot, Nat.mod_eq_of_lt hblt] at g4
    exact ⟨g1, g4⟩

/-- Witness for C9 as amended: `255 * 255` in 3 bytes, divided by 255. -/
theorem mult_divide_round_trip_witness :
    (OSUMult [0xFF] [0xFF] 3).1 = true ∧
    (OSDivide (fun _ => 0) (OSUMult [0xFF] [0xFF] 3).2 (leVal [0xFF] : Int) 3).1 = true ∧
    leVal (OSDivide (fun _ => 0) (OSUMult [0xFF] [0xFF] 3).2 (leVal [0xFF] : Int) 3).2
      = leVal [0xFF] :=
  mult_divide_round_trip (fun _ => 0) [0xFF] [0xFF] 3 (by decide) (by decide) (by decide)
    (by decide) (by decide) (by decide) (by decide)

/-- Claim C10 as stated fails in its symmetry part at the result `-2^63`:
for `psec = -2^62`, `xsps = 2 * 10^12`, `scaleSPS = 1` the rounded magnitude
is `2^63`, the result `-2^63` fits `int64_t` and `GetSamples` returns it,
but `GetSamples(-psec, ...)` is `-2^63` too: it is not the negation of
`GetSamples(psec, ...)`, nor of any `int64_t` value. -/
theorem GetSamples_symmetry_at_min :
    ((-2 ^ 63 : Int) < -4611686018427387904 ∧
      Int.sign (-4611686018427387904)
        * ⌊(((|(-4611686018427387904 : Int)| * 2000000000000 : ℤ) : ℚ))
            / (((1 : Nat) : ℚ) * 10 ^ 12) + 1 / 2⌋ = -2 ^ 63) ∧
    GetSamples (fun _ => 0) (-4611686018427387904) 2000000000000 1 = -2 ^ 63 ∧
    GetSamples (fun _ => 0) (-(-4611686018427387904)) 2000000000000 1 = -2 ^ 63 ∧
    GetSamples (fun _ => 0) (-(-4611686018427387904)) 2000000000000 1
      ≠ -GetSamples (fun _ => 0) (-4611686018427387904) 2000000000000 1 ∧
    (∀ v : Int, v < 2 ^ 63 →
      GetSamples (fun _ => 0) (-(-4611686018427387904)) 2000000000000 1 ≠ -v) := by
  have e1 : GetSamples (fun _ => 0) (-4611686018427387904) 2000000000000 1 = -2 ^ 63 := by
    rw [GetSamples_eq _ _ _ _ (by norm_num) (by norm_num) (by norm_num) (by norm_num)
      (by norm_num) (by norm_num)]
    decide
  have e2 : GetSamples (fun _ => 0) (-(-4611686018427387904)) 2000000000000 1 = -2 ^ 63 := by
    rw [GetSamples_eq _ _ _ _ (by norm_num) (by norm_num) (by norm_num) (by norm_num)
      (by norm_num) (by norm_num)]
    decide
  refine ⟨⟨by norm_num, ?_⟩, e1, e2, ?_, ?_⟩
  · have h := floor_half_up (4611686018427387904 * 2000000000000) (1 * 1000000000000)
    have e : (((|(-4611686018427387904 : Int)| * 2000000000000 : ℤ) : ℚ))
          / (((1 : Nat) : ℚ) * 10 ^ 12) + 1 / 2
        = (((4611686018427387904 * 2000000000000 : Nat) : ℤ) : ℚ)
          / ((1 * 1000000000000 : Nat) : ℚ) + 1 / 2 := by
      norm_num [abs_of_nonneg]
    rw [e, h]
    decide
  · rw [e1, e2]
    decide
  · intro v hv
    rw [e2]
    omega

/-- The rounded magnitude of `GetSamples` as the exact rational
round-half-up. -/
theorem GetSamples_magnitude_exact (psec xsps : Int) (scaleSPS : Nat) (hx : 0 ≤ xsps)
    (hs : 1 ≤ scaleSPS) :
    ⌊(((|psec| * xsps : ℤ) : ℚ)) / ((scaleSPS : ℚ) * 10 ^ 12) + 1 / 2⌋
      = (((psec.natAbs * xsps.natAbs / scaleSPS + 500000000000) / 1000000000000 : Nat) : Int) := by
  have h := floor_half_up (psec.natAbs * xsps.natAbs) (scaleSPS * 1000000000000)
  have e : (((|psec| * xsps : ℤ) : ℚ)) / ((scaleSPS : ℚ) * 10 ^ 12) + 1 / 2
      = (((psec.natAbs * xsps.natAbs : Nat) : ℤ) : ℚ)
        / ((scaleSPS * 1000000000000 : Nat) : ℚ) + 1 / 2 := by
    have e1 : ((psec.natAbs * xsps.natAbs : Nat) : ℤ) = |psec| * xsps := by
      rw [Nat.cast_mul, Int.natCast_natAbs, Int.natCast_natAbs, abs_of_nonneg hx]
    rw [e1]
    norm_num
  rw [e, h, two_step_rounding _ _ (by omega)]

/-- Claim C10, amended in its symmetry part to results other than `-2^63`.
For `psec > -2^63`, `xsps ≥ 0`, `scaleSPS ≥ 1` (of their C types) with the
result in the `int64_t` range, `GetSamples` is the exact rational
round-half-up of `|psec| * xsps / (scaleSPS * 10^12)` with the sign of
`psec`; and unless that result is `-2^63`,
`GetSamples(-psec, ...) = -GetSamples(psec, ...)`. -/
theorem GetSamples_round_half_up (stk : Nat → Nat) (psec xsps : Int) (scaleSPS : Nat)
    (hp : -2 ^ 63 < psec) (hp2 : psec < 2 ^ 63) (hx : 0 ≤ xsps) (hx2 : xsps < 2 ^ 63)
    (hs : 1 ≤ scaleSPS) (hs2 : scaleSPS < 2 ^ 32)
    (hfit1 : -2 ^ 63 ≤ Int.sign psec
      * ⌊(((|psec| * xsps : ℤ) : ℚ)) / ((scaleSPS : ℚ) * 10 ^ 12) + 1 / 2⌋)
    (hfit2 : Int.sign psec
      * ⌊(((|psec| * xsps : ℤ) : ℚ)) / ((scaleSPS : ℚ) * 10 ^ 12) + 1 / 2⌋ < 2 ^ 63) :
    GetSamples stk psec xsps scaleSPS
      = Int.sign psec * ⌊(((|psec| * xsps : ℤ) : ℚ)) / ((scaleSPS : ℚ) * 10 ^ 12) + 1 / 2⌋ ∧
    (GetSamples stk psec xsps scaleSPS ≠ -2 ^ 63 →
      GetSamples stk (-psec) xsps scaleSPS = -GetSamples stk psec xsps scaleSPS) := by
  have hQ := GetSamples_magnitude_exact psec xsps scaleSPS hx hs
  have hQn := GetSamples_magnitude_exact (-psec) xsps scaleSPS hx hs
  rw [abs_neg, Int.natAbs_neg] at hQn
  have h1 := GetSamples_eq stk psec xsps scaleSPS hp.le hp2 hx hx2 hs hs2
  have h2 := GetSamples_eq stk (-psec) xsps scaleSPS (by omega) (by omega) hx hx2 hs hs2
  rw [Int.natAbs_neg] at h2
  rw [hQ] at hfit1 hfit2 ⊢
  have hQ0 : psec = 0 →
      (psec.natAbs * xsps.natAbs / scaleSPS + 500000000000) / 1000000000000 = 0 := by
    intro h
    subst h
    simp
  generalize (psec.natAbs * xsps.natAbs / scaleSPS + 500000000000) / 1000000000000 = Q at *
  have hwrap : Q < 2 ^ 63 → toInt64 ((Q % 2 ^ 64 : Nat) : Int) = Q := by
    intro hq
    have e : ((Q % 2 ^ 64 : Nat) : Int) = Q := by omega
    rw [e, toInt64_of_range _ (by omega) (by omega)]
  have key : GetSamples stk psec xsps scaleSPS = Int.sign psec * (Q : Int) := by
    rw [h1]
    rcases lt_trichotomy psec 0 with hneg | hzero | hpos
    · rw [Int.sign_eq_neg_one_of_neg hneg] at hfit1 hfit2 ⊢
      rw [if_pos hneg]
      by_cases hq : Q < 2 ^ 63
      · rw [hwrap hq, toInt64_of_range _ (by omega) (by omega)]
        ring
      · have hq2 : Q = 2 ^ 63 := by omega
        subst hq2
        decide
    · rw [hQ0 hzero, hzero]
      decide
    · rw [Int.sign_eq_one_of_pos hpos] at hfit1 hfit2 ⊢
      rw [if_neg (by omega), hwrap (by omega), toInt64_of_range _ (by omega) (by omega)]
      ring
  refine ⟨key, ?_⟩
  intro hmin
  rw [key] at hmin ⊢
  rw [h2]
  rcases lt_trichotomy psec 0 with hneg | hzero | hpos
  · rw [Int.sign_eq_neg_one_of_neg hneg] at hfit1 hfit2 hmin ⊢
    rw [if_neg (by omega), hwrap (by omega), toInt64_of_range _ (by omega) (by omega)]
    ring
  · rw [hQ0 hzero, hzero]
    decide
  · rw [Int.sign_eq_one_of_pos hpos] at hfit1 hfit2 hmin ⊢
    rw [if_pos (by omega), hwrap (by omega), toInt64_of_range _ (by omega) (by omega)]
    ring

/-- Witness for C10 as amended: `-1.5 us` at `10^6` samples per second
rounds to `-2`. -/
theorem GetSamples_round_half_up_witness :
    GetSamples (fun _ => 0) (-1500000) 1000000000 1000
      = Int.sign (-1500000)
        * ⌊(((|(-1500000 : Int)| * 1000000000 : ℤ) : ℚ)) / (((1000 : Nat) : ℚ) * 10 ^ 12)
            + 1 / 2⌋ ∧
    (GetSamples (fun _ => 0) (-1500000) 1000000000 1000 ≠ -2 ^ 63 →
      GetSamples (fun _ => 0) (-(-1500000)) 1000000000 1000
        = -GetSamples (fun _ => 0) (-1500000) 1000000000 1000) :=
  GetSamples_round_half_up (fun _ => 0) (-1500000) 1000000000 1000 (by decide) (by decide)
    (by decide) (by decide) (by decide) (by decide)
    (by rw [GetSamples_magnitude_exact _ _ _ (by decide) (by decide)]; decide)
    (by rw [GetSamples_magnitude_exact _ _ _ (by decide) (by decide)]; decide)

/-! ## GetPicoSec -/

/-- The magnitude pipeline of `GetPicoSec`: multiply, add half the rate,
divide by the rate into 8 bytes. -/
theorem GetPicoSec_magnitude (stk : Nat → Nat) (S psS half X : Nat) (hS : S ≤ 2 ^ 63)
    (hpsS : psS < 2 ^ 64) (hhalf : half < 2 ^ 63) (hX : 0 < X) (hX2 : X ≤ 2 ^ 56) :
    leVal (OSDivide stk (OSAddInPlace (OSUMult (toBytes 8 S) (toBytes 8 psS) 16).2
        (toBytes 8 half)) (X : Int) 8).2
      = (S * psS + half) / X % 2 ^ 64 := by
  have hprod : S * psS ≤ 2 ^ 63 * (2 ^ 64 - 1) := Nat.mul_le_mul hS (by omega)
  obtain ⟨_, m1, m2, m3⟩ := OSUMult_spec (toBytes 8 S) (toBytes 8 psS) (Bytes_toBytes _ _)
    (Bytes_toBytes _ _) 16 (by simp [length_toBytes])
  rw [leVal_toBytes, leVal_toBytes, Nat.mod_eq_of_lt (by norm_num; omega),
    Nat.mod_eq_of_lt (by norm_num; omega)] at m3
  generalize (OSUMult (toBytes 8 S) (toBytes 8 psS) 16).2 = r at m1 m2 m3
  obtain ⟨a1, a2, a3⟩ := OSAddInPlace_spec r (toBytes 8 half) m1 (Bytes_toBytes _ _)
  rw [leVal_toBytes, m2, m3, Nat.mod_eq_of_lt (by norm_num; omega : half < 256 ^ 8),
    Nat.mod_eq_of_lt (by norm_num; omega)] at a3
  rw [m2] at a1
  generalize OSAddInPlace r (toBytes 8 half) = r3 at a1 a2 a3
  have hmsb3 : msbSet r3 = false := msb_clear_of_lt r3 a2 (by rw [a1, a3]; norm_num; omega)
  obtain ⟨_, _, _, e3, _⟩ := OSDivide_general stk r3 (X : Int) 8 a2 (by omega) (by omega)
    hmsb3 (by omega) (by simpa using hX2) (by norm_num)
  rw [if_pos (by omega), a3, Int.natAbs_ofNat] at e3
  rw [OSDivide_snd, e3]
  norm_num

/-- `GetPicoSec` in closed form: the rounded magnitude, reduced to 64 bits,
read back as `int64_t` and multiplied by the sign. -/
theorem GetPicoSec_eq (stk : Nat → Nat) (samp xsps : Int) (scaleSPS : Nat)
    (hs1 : -2 ^ 63 ≤ samp) (hs2 : samp < 2 ^ 63) (hx : 0 < xsps) (hx2 : xsps ≤ 2 ^ 56)
    (hsc : 1000000000000 * scaleSPS < 2 ^ 64) :
    GetPicoSec stk samp xsps scaleSPS
      = toInt64 (toInt64 ((picosecMag samp.natAbs xsps.natAbs scaleSPS % 2 ^ 64 : Nat) : Int)
          * (if samp < 0 then -1 else 1)) := by
  have hX : xsps = (xsps.natAbs : Int) := by omega
  have hhalf : (Int.tdiv xsps 2 % 2 ^ 64).toNat = xsps.natAbs / 2 := by
    rw [Int.tdiv_eq_ediv (by omega) (by norm_num)]
    omega
  have hps : 1000000000000 * scaleSPS % 2 ^ 64 = 1000000000000 * scaleSPS :=
    Nat.mod_eq_of_lt hsc
  have hmag := GetPicoSec_magnitude stk samp.natAbs (1000000000000 * scaleSPS)
    (xsps.natAbs / 2) xsps.natAbs (by omega) hsc (by omega) (by omega) (by omega)
  rw [← hX] at hmag
  by_cases hneg : samp < 0
  · have hP : int64Bytes (toInt64 (samp * -1)) = toBytes 8 samp.natAbs := by
      rw [int64Bytes_toInt64, ← int64Bytes_natCast _ (by omega)]
      unfold int64Bytes
      congr 2
      omega
    simp only [GetPicoSec, if_pos hneg, hP, hhalf, hps, hmag, picosecMag]
  · have hP : int64Bytes samp = toBytes 8 samp.natAbs := by
      rw [← int64Bytes_natCast _ (by omega)]
      congr 1
      omega
    simp only [GetPicoSec, if_neg hneg, hP, hhalf, hps, hmag, picosecMag]

/-- `GetSamples` in closed form, on the magnitude `samplesMag`. -/
theorem GetSamples_eq_mag (stk : Nat → Nat) (psec xsps : Int) (scaleSPS : Nat)
    (hp : -2 ^ 63 ≤ psec) (hp2 : psec < 2 ^ 63) (hx : 0 ≤ xsps) (hx2 : xsps < 2 ^ 63)
    (hs : 1 ≤ scaleSPS) (hs2 : scaleSPS < 2 ^ 32) :
    GetSamples stk psec xsps scaleSPS
      = toInt64 (toInt64 ((samplesMag psec.natAbs xsps.natAbs scaleSPS % 2 ^ 64 : Nat) : Int)
          * (if psec < 0 then -1 else 1)) :=
  GetSamples_eq stk psec xsps scaleSPS hp hp2 hx hx2 hs hs2

/-- A magnitude below `2^63` with a sign comes back from the two `int64_t`
conversions as the signed value. -/
theorem signed_of_magnitude (Q : Nat) (hQ : Q < 2 ^ 63) (neg : Prop) [Decidable neg] :
    toInt64 (toInt64 ((Q % 2 ^ 64 : Nat) : Int) * (if neg then -1 else 1))
      = if neg then -(Q : Int) else Q := by
  have e : ((Q % 2 ^ 64 : Nat) : Int) = Q := by omega
  have h1 : toInt64 (Q : Int) = Q := toInt64_of_range _ (by omega) (by omega)
  rw [e, h1]
  split
  · rw [toInt64_of_range _ (by omega) (by omega)]
    ring
  · rw [toInt64_of_range _ (by omega) (by omega)]
    ring

theorem lt_succ_div_mul (a b : Nat) (hb : 0 < b) : a < (a / b + 1) * b := by
  rw [Nat.mul_comm (a / b + 1) b]
  exact Nat.lt_mul_div_succ a hb

/-- `samplesMag` is the round-half-up quotient by `s * 10^12`. -/
theorem samplesMag_eq (P X s : Nat) (hs : 0 < s) :
    samplesMag P X s = (2 * (P * X) + s * 1000000000000) / (2 * (s * 1000000000000)) :=
  two_step_rounding (P * X) s hs

/-- Picoseconds to samples and back: the error times the rate is below
`D = s * 10^12`. -/
theorem round_trip_picosec (P X D : Nat) (hX : 0 < X) (hD : 0 < D) :
    |(((((2 * (P * X) + D) / (2 * D)) * D + X / 2) / X : Nat) : Int) - (P : Int)| * (X : Int)
      < (D : Int) := by
  have hn1 : (2 * (P * X) + D) / (2 * D) * (2 * D) ≤ 2 * (P * X) + D := Nat.div_mul_le_self _ _
  have hn2 : 2 * (P * X) + D < ((2 * (P * X) + D) / (2 * D) + 1) * (2 * D) :=
    lt_succ_div_mul _ _ (by omega)
  generalize (2 * (P * X) + D) / (2 * D) = n at hn1 hn2
  have hp1 : (n * D + X / 2) / X * X ≤ n * D + X / 2 := Nat.div_mul_le_self _ _
  have hp2 : n * D + X / 2 < ((n * D + X / 2) / X + 1) * X := lt_succ_div_mul _ _ hX
  generalize hpdef : (n * D + X / 2) / X = p at hp1 hp2
  have e1 : n * (2 * D) = 2 * (n * D) := by ring
  have e2 : (n + 1) * (2 * D) = 2 * (n * D) + 2 * D := by ring
  have e3 : (p + 1) * X = p * X + X := by ring
  rw [e1] at hn1
  rw [e2] at hn2
  rw [e3] at hp2
  have habs : |(p : Int) - P| * (X : Int) = |((p * X : Nat) : Int) - ((P * X : Nat) : Int)| := by
    rw [Nat.cast_mul, Nat.cast_mul, ← sub_mul, abs_mul, abs_of_nonneg (by omega : (0 : Int) ≤ X)]
  rcases Nat.lt_trichotomy X D with hlt | heq | hgt
  · rw [habs, abs_lt]
    constructor <;> omega
  · subst heq
    have hnP : n = P := by
      have h3 : 2 * (n * X) = (2 * n) * X := by ring
      have h4 : 2 * (P * X) + X = (2 * P + 1) * X := by ring
      have h5 : 2 * (n * X) + 2 * X = (2 * n + 2) * X := by ring
      rw [h3, h4] at hn1
      rw [h4, h5] at hn2
      have a := Nat.le_of_mul_le_mul_right hn1 hX
      have b := Nat.lt_of_mul_lt_mul_right hn2
      omega
    subst hnP
    have hpn : p = n := by
      have a : p * X < (n + 1) * X := by
        have : (n + 1) * X = n * X + X := by ring
        omega
      have b : n * X < (p + 1) * X := by
        rw [e3]
        omega
      have a2 := Nat.lt_of_mul_lt_mul_right a
      have b2 := Nat.lt_of_mul_lt_mul_right b
      omega
    subst hpn
    simpa using hX
  · have hpP : p = P := by
      have a : p * X < (P + 1) * X := by
        have : (P + 1) * X = P * X + X := by ring
        omega
      have b : P * X < (p + 1) * X := by
        rw [e3]
        omega
      have a2 := Nat.lt_of_mul_lt_mul_right a
      have b2 := Nat.lt_of_mul_lt_mul_right b
      omega
    subst hpP
    simpa using hD

/-- Samples to picoseconds and back is exact when the rate is below
`D = s * 10^12`. -/
theorem round_trip_samples (n X D : Nat) (hX : 0 < X) (hXD : X < D) :
    (2 * ((n * D + X / 2) / X * X) + D) / (2 * D) = n := by
  have hp1 : (n * D + X / 2) / X * X ≤ n * D + X / 2 := Nat.div_mul_le_self _ _
  have hp2 : n * D + X / 2 < ((n * D + X / 2) / X + 1) * X := lt_succ_div_mul _ _ hX
  have e3 : ((n * D + X / 2) / X + 1) * X = (n * D + X / 2) / X * X + X := by ring
  rw [e3] at hp2
  generalize (n * D + X / 2) / X * X = a at hp1 hp2
  apply Nat.div_eq_of_lt_le
  · have : n * (2 * D) = 2 * (n * D) := by ring
    omega
  · have : (n + 1) * (2 * D) = 2 * (n * D) + 2 * D := by ring
    omega

/-- `GetSamples` with the magnitude in the `int64_t` range: the signed
magnitude. -/
theorem GetSamples_signed (stk : Nat → Nat) (psec xsps : Int) (scaleSPS : Nat)
    (hp : -2 ^ 63 ≤ psec) (hp2 : psec < 2 ^ 63) (hx : 0 ≤ xsps) (hx2 : xsps < 2 ^ 63)
    (hs : 1 ≤ scaleSPS) (hs2 : scaleSPS < 2 ^ 32)
    (hn : samplesMag psec.natAbs xsps.natAbs scaleSPS < 2 ^ 63) :
    GetSamples stk psec xsps scaleSPS
      = if psec < 0 then -(samplesMag psec.natAbs xsps.natAbs scaleSPS : Int)
        else samplesMag psec.natAbs xsps.natAbs scaleSPS := by
  rw [GetSamples_eq_mag stk psec xsps scaleSPS hp hp2 hx hx2 hs hs2,
    signed_of_magnitude _ hn]

/-- `GetPicoSec` with the magnitude in the `int64_t` range: the signed
magnitude. -/
theorem GetPicoSec_signed (stk : Nat → Nat) (samp xsps : Int) (scaleSPS : Nat)
    (hs1 : -2 ^ 63 ≤ samp) (hs2 : samp < 2 ^ 63) (hx : 0 < xsps) (hx2 : xsps ≤ 2 ^ 56)
    (hsc : 1000000000000 * scaleSPS < 2 ^ 64)
    (hq : picosecMag samp.natAbs xsps.natAbs scaleSPS < 2 ^ 63) :
    GetPicoSec stk samp xsps scaleSPS
      = if samp < 0 then -(picosecMag samp.natAbs xsps.natAbs scaleSPS : Int)
        else picosecMag samp.natAbs xsps.natAbs scaleSPS := by
  rw [GetPicoSec_eq stk samp xsps scaleSPS hs1 hs2 hx hx2 hsc, signed_of_magnitude _ hq]

theorem picosecMag_zero (X s : Nat) : picosecMag 0 X s = 0 := by
  unfold picosecMag
  rw [Nat.zero_mul, Nat.zero_add]
  rcases Nat.eq_zero_or_pos X with h | h
  · subst h
    rfl
  · exact Nat.div_eq_of_lt (by omega)

theorem samplesMag_zero (X s : Nat) : samplesMag 0 X s = 0 := by
  unfold samplesMag
  simp

/-- Claim C11. For `psec` and its negation in the `int64_t` range, a rate
`0 < xsps ≤ 2^56`, a scale `1 ≤ scaleSPS ≤ 18446744`, and the sample count and
the picosecond count computed on the way in the `int64_t` range, the round
trip `GetPicoSec(GetSamples(psec))` differs from `psec` by strictly less
than one sample period: `|p' - psec| * xsps < 10^12 * scaleSPS`. -/
theorem GetPicoSec_GetSamples_within_period (stk : Nat → Nat) (psec xsps : Int)
    (scaleSPS : Nat) (hp : -2 ^ 63 < psec) (hp2 : psec < 2 ^ 63) (hx : 0 < xsps)
    (hx2 : xsps ≤ 2 ^ 56) (hs : 1 ≤ scaleSPS) (hs2 : scaleSPS ≤ 18446744)
    (hn : samplesMag psec.natAbs xsps.natAbs scaleSPS < 2 ^ 63)
    (hq : picosecMag (samplesMag psec.natAbs xsps.natAbs scaleSPS) xsps.natAbs scaleSPS
      < 2 ^ 63) :
    |GetPicoSec stk (GetSamples stk psec xsps scaleSPS) xsps scaleSPS - psec| * xsps
      < 10 ^ 12 * (scaleSPS : Int) := by
  have hsc : 1000000000000 * scaleSPS < 2 ^ 64 := by omega
  have hX : xsps = (xsps.natAbs : Int) := by omega
  have hXpos : 0 < xsps.natAbs := by omega
  have hGS := GetSamples_signed stk psec xsps scaleSPS hp.le hp2 hx.le (by omega) hs (by omega) hn
  have hrt := round_trip_picosec psec.natAbs xsps.natAbs (scaleSPS * 1000000000000) hXpos
    (by omega)
  rw [← samplesMag_eq _ _ _ (by omega)] at hrt
  have hpm : picosecMag (samplesMag psec.natAbs xsps.natAbs scaleSPS) xsps.natAbs scaleSPS
      = (samplesMag psec.natAbs xsps.natAbs scaleSPS * (scaleSPS * 1000000000000)
          + xsps.natAbs / 2) / xsps.natAbs := by
    unfold picosecMag
    rw [Nat.mul_comm 1000000000000 scaleSPS]
  rw [← hpm] at hrt
  generalize samplesMag psec.natAbs xsps.natAbs scaleSPS = n at *
  have hgoal : (10 : Int) ^ 12 * (scaleSPS : Int) = ((scaleSPS * 1000000000000 : Nat) : Int) := by
    push_cast
    ring
  rw [hgoal]
  by_cases hneg : psec < 0
  · rw [if_pos hneg] at hGS
    rw [hGS]
    have hGP := GetPicoSec_signed stk (-(n : Int)) xsps scaleSPS (by omega) (by omega) hx hx2 hsc
      (by rw [Int.natAbs_neg, Int.natAbs_ofNat]; exact hq)
    rw [Int.natAbs_neg, Int.natAbs_ofNat] at hGP
    have hval : GetPicoSec stk (-(n : Int)) xsps scaleSPS
        = -(picosecMag n xsps.natAbs scaleSPS : Int) := by
      rw [hGP]
      split
      · rfl
      · have hn0 : n = 0 := by omega
        subst hn0
        rw [picosecMag_zero]
        rfl
    rw [hval]
    have e : -(picosecMag n xsps.natAbs scaleSPS : Int) - psec
        = -((picosecMag n xsps.natAbs scaleSPS : Int) - (psec.natAbs : Int)) := by omega
    rw [e, abs_neg]
    conv_lhs => rw [hX]
    exact hrt
  · rw [if_neg hneg] at hGS
    rw [hGS]
    have hGP := GetPicoSec_signed stk (n : Int) xsps scaleSPS (by omega) (by omega) hx hx2 hsc
      (by rw [Int.natAbs_ofNat]; exact hq)
    rw [Int.natAbs_ofNat, if_neg (by omega)] at hGP
    rw [hGP]
    have e : (picosecMag n xsps.natAbs scaleSPS : Int) - psec
        = (picosecMag n xsps.natAbs scaleSPS : Int) - (psec.natAbs : Int) := by omega
    rw [e]
    conv_lhs => rw [hX]
    exact hrt

/-- Witness for C11: 400 ns at 1 MHz comes back as 0, less than a sample
period away. -/
theorem GetPicoSec_GetSamples_within_period_witness :
    |GetPicoSec (fun _ => 0) (GetSamples (fun _ => 0) 400000 1000000000 1000) 1000000000 1000
        - 400000| * 1000000000
      < 10 ^ 12 * ((1000 : Nat) : Int) :=
  GetPicoSec_GetSamples_within_period (fun _ => 0) 400000 1000000000 1000 (by decide)
    (by decide) (by decide) (by decide) (by decide) (by decide) (by decide) (by decide)

/-- The exact return of a sample count through `GetPicoSec` and
`GetSamples`, for a rate below `scaleSPS * 10^12`. -/
theorem GetSamples_GetPicoSec (stk : Nat → Nat) (n xsps : Int) (scaleSPS : Nat)
    (hn : -2 ^ 63 < n) (hn2 : n < 2 ^ 63) (hx : 0 < xsps) (hx2 : xsps ≤ 2 ^ 56)
    (hs : 1 ≤ scaleSPS) (hs2 : scaleSPS ≤ 18446744)
    (hlt : xsps < (scaleSPS : Int) * 10 ^ 12)
    (hq : picosecMag n.natAbs xsps.natAbs scaleSPS < 2 ^ 63) :
    GetSamples stk (GetPicoSec stk n xsps scaleSPS) xsps scaleSPS = n := by
  have hsc : 1000000000000 * scaleSPS < 2 ^ 64 := by omega
  have hXpos : 0 < xsps.natAbs := by omega
  have hXD : xsps.natAbs < scaleSPS * 1000000000000 := by
    have h10 : (10 : Int) ^ 12 = 1000000000000 := by norm_num
    rw [h10] at hlt
    omega
  have hGP := GetPicoSec_signed stk n xsps scaleSPS hn.le hn2 hx hx2 hsc hq
  have hrt := round_trip_samples n.natAbs xsps.natAbs (scaleSPS * 1000000000000) hXpos hXD
  have hpm : picosecMag n.natAbs xsps.natAbs scaleSPS
      = (n.natAbs * (scaleSPS * 1000000000000) + xsps.natAbs / 2) / xsps.natAbs := by
    unfold picosecMag
    rw [Nat.mul_comm 1000000000000 scaleSPS]
  rw [← hpm] at hrt
  have hsm : samplesMag (picosecMag n.natAbs xsps.natAbs scaleSPS) xsps.natAbs scaleSPS
      = n.natAbs := by
    rw [samplesMag_eq _ _ _ (by omega)]
    exact hrt
  generalize picosecMag n.natAbs xsps.natAbs scaleSPS = p at *
  by_cases hneg : n < 0
  · rw [if_pos hneg] at hGP
    rw [hGP]
    have hGS := GetSamples_signed stk (-(p : Int)) xsps scaleSPS (by omega) (by omega) hx.le
      (by omega) hs (by omega) (by rw [Int.natAbs_neg, Int.natAbs_ofNat, hsm]; omega)
    rw [Int.natAbs_neg, Int.natAbs_ofNat, hsm] at hGS
    rw [hGS]
    split
    · omega
    · have hp0 : p = 0 := by omega
      subst hp0
      rw [samplesMag_zero] at hsm
      omega
  · rw [if_neg hneg] at hGP
    rw [hGP]
    have hGS := GetSamples_signed stk (p : Int) xsps scaleSPS (by omega) (by omega) hx.le
      (by omega) hs (by omega) (by rw [Int.natAbs_ofNat, hsm]; omega)
    rw [Int.natAbs_ofNat, hsm, if_neg (by omega)] at hGS
    rw [hGS]
    exact Int.natAbs_of_nonneg (not_lt.mp hneg)

/-! ## CalculatePreScalarAndPeriod -/

/-- The prescalar search: either it stops at the least `k ≤ 8` whose rounded
period fits, with `preDivide = 2^k`, or no divisor up to 256 fits and it
ends with `preScalar = 9`. -/
theorem prescalarSearch_spec (MAX T : Nat) (hT : T + 256 < 2 ^ 64) :
    ∀ n ps, ps + n = 9 →
      (∃ k, ps ≤ k ∧ k ≤ 8 ∧
        prescalarSearch MAX T n ps (2 ^ ps) = (k, 2 ^ k, roundDiv T (2 ^ k)) ∧
        roundDiv T (2 ^ k) ≤ MAX ∧ ∀ i, ps ≤ i → i < k → MAX < roundDiv T (2 ^ i)) ∨
      (prescalarSearch MAX T n ps (2 ^ ps) = (9, 512, T) ∧
        ∀ i, ps ≤ i → i < 9 → MAX < roundDiv T (2 ^ i)) := by
  intro n
  induction n with
  | zero =>
    intro ps hps
    have : ps = 9 := by omega
    subst this
    right
    refine ⟨rfl, ?_⟩
    intro i h1 h2
    omega
  | succ n ih =>
    intro ps hps
    have hps8 : ps ≤ 8 := by omega
    have hpd : 2 ^ ps ≤ 256 := by
      calc 2 ^ ps ≤ 2 ^ 8 := Nat.pow_le_pow_right (by norm_num) hps8
        _ = 256 := by norm_num
    have hmod : (T + 2 ^ ps / 2) % 2 ^ 64 = T + 2 ^ ps / 2 :=
      Nat.mod_eq_of_lt (by omega)
    have hpd2 : 2 ^ ps * 2 % 2 ^ 32 = 2 ^ (ps + 1) := by
      rw [pow_succ]
      exact Nat.mod_eq_of_lt (by omega)
    by_cases hfit : roundDiv T (2 ^ ps) ≤ MAX
    · left
      refine ⟨ps, le_rfl, hps8, ?_, hfit, ?_⟩
      · rw [prescalarSearch]
        simp only [hmod]
        rw [if_pos (by simpa [roundDiv] using hfit)]
        rfl
      · intro i h1 h2
        omega
    · have hstep : prescalarSearch MAX T (n + 1) ps (2 ^ ps)
          = prescalarSearch MAX T n (ps + 1) (2 ^ (ps + 1)) := by
        rw [prescalarSearch]
        simp only [hmod]
        rw [if_neg (by simpa [roundDiv] using hfit), hpd2]
      rw [hstep]
      rcases ih (ps + 1) (by omega) with ⟨k, hk1, hk2, hk3, hk4, hk5⟩ | ⟨hm1, hm2⟩
      · left
        refine ⟨k, by omega, hk2, hk3, hk4, ?_⟩
        intro i h1 h2
        rcases Nat.eq_or_lt_of_le h1 with h | h
        · subst h
          omega
        · exact hk5 i (by omega) h2
      · right
        refine ⟨hm1, ?_⟩
        intro i h1 h2
        rcases Nat.eq_or_lt_of_le h1 with h | h
        · subst h
          omega
        · exact hm2 i (by omega) h2

/-- The rounded period does not grow with the divisor, up to 256. -/
theorem roundDiv_256_le (T i : Nat) (hi : i < 9) : roundDiv T 256 ≤ roundDiv T (2 ^ i) := by
  unfold roundDiv
  interval_cases i <;> norm_num <;> omega

/-- The count the code computes: `T` without 64-bit wraparound, 0 with it. -/
theorem timer_count_code (xsps scaleSPS pbClk : Nat) (hs : scaleSPS < 2 ^ 32)
    (hc : pbClk < 2 ^ 32) :
    ((pbClk * scaleSPS % 2 ^ 64 + xsps / 2) % 2 ^ 64 / xsps
        = timerCount xsps scaleSPS pbClk ∧ pbClk * scaleSPS + xsps / 2 < 2 ^ 64) ∨
    ((pbClk * scaleSPS % 2 ^ 64 + xsps / 2) % 2 ^ 64 / xsps = 0 ∧
      2 ^ 64 ≤ pbClk * scaleSPS + xsps / 2) := by
  have hprod : pbClk * scaleSPS ≤ (2 ^ 32 - 1) * (2 ^ 32 - 1) :=
    Nat.mul_le_mul (by omega) (by omega)
  have hm : pbClk * scaleSPS % 2 ^ 64 = pbClk * scaleSPS := Nat.mod_eq_of_lt (by omega)
  rw [hm]
  by_cases hw : pbClk * scaleSPS + xsps / 2 < 2 ^ 64
  · left
    rw [Nat.mod_eq_of_lt hw]
    exact ⟨rfl, hw⟩
  · right
    refine ⟨?_, by omega⟩
    apply Nat.div_eq_of_lt
    omega

theorem pbXScale_lt (scaleSPS pbClk : Nat) (hs : scaleSPS < 2 ^ 32) (hc : pbClk < 2 ^ 32) :
    pbClk * scaleSPS ≤ 2 ^ 64 - 2 ^ 33 + 1 := by
  have hprod : pbClk * scaleSPS ≤ (2 ^ 32 - 1) * (2 ^ 32 - 1) :=
    Nat.mul_le_mul (by omega) (by omega)
  omega

theorem timerCount_lt (xsps scaleSPS pbClk : Nat) (hs : scaleSPS < 2 ^ 32) (hc : pbClk < 2 ^ 32)
    (hw : pbClk * scaleSPS + xsps / 2 < 2 ^ 64) :
    timerCount xsps scaleSPS pbClk + 256 < 2 ^ 64 := by
  have hp := pbXScale_lt scaleSPS pbClk hs hc
  unfold timerCount
  rcases Nat.lt_or_ge xsps 2 with h | h
  · have h0 : xsps / 2 = 0 := by omega
    have : (pbClk * scaleSPS + xsps / 2) / xsps ≤ pbClk * scaleSPS + xsps / 2 :=
      Nat.div_le_self _ _
    omega
  · have : (pbClk * scaleSPS + xsps / 2) / xsps ≤ (pbClk * scaleSPS + xsps / 2) / 2 :=
      Nat.div_le_div_left h (by norm_num)
    omega

/-- The search followed by the prescalar fix-up, at the least fitting index. -/
theorem prescalar_search_fixup (MAX T : Nat) (hT : T + 256 < 2 ^ 64) :
    (∃ k, k ≤ 8 ∧ roundDiv T (2 ^ k) ≤ MAX ∧ (∀ i, i < k → MAX < roundDiv T (2 ^ i)) ∧
      prescalarFixup (prescalarSearch MAX T 9 0 1)
        = (if k = 8 then (7, 256, roundDiv T 256)
           else if k = 7 then (7, 256, (roundDiv T 128 + 1) / 2)
           else (k, 2 ^ k, roundDiv T (2 ^ k)))) ∨
    ((∀ i, i < 9 → MAX < roundDiv T (2 ^ i)) ∧
      prescalarFixup (prescalarSearch MAX T 9 0 1) = (9, 512, T)) := by
  have h := prescalarSearch_spec MAX T hT 9 0 rfl
  simp only [pow_zero] at h
  rcases h with ⟨k, -, hk8, hres, hfit, hleast⟩ | ⟨hres, hmiss⟩
  · left
    refine ⟨k, hk8, hfit, fun i hi => hleast i (Nat.zero_le i) hi, ?_⟩
    rw [hres]
    have h128 : (roundDiv T 128 + 1) % 18446744073709551616 = roundDiv T 128 + 1 := by
      apply Nat.mod_eq_of_lt
      unfold roundDiv
      omega
    interval_cases k <;> simp [prescalarFixup, h128]
  · right
    refine ⟨fun i hi => hmiss i (Nat.zero_le i) hi, ?_⟩
    rw [hres]
    simp [prescalarFixup]

/-- The least fitting index is unique. -/
theorem least_fit_unique (MAX T k j : Nat) (hk : roundDiv T (2 ^ k) ≤ MAX)
    (hkl : ∀ i, i < k → MAX < roundDiv T (2 ^ i)) (hj : roundDiv T (2 ^ j) ≤ MAX)
    (hjl : ∀ i, i < j → MAX < roundDiv T (2 ^ i)) : k = j := by
  rcases Nat.lt_trichotomy k j with h | h | h
  · have := hjl k h
    omega
  · exact h
  · have := hkl j h
    omega

theorem timerResult_error (preDivide : Nat) :
    timerResult 0 preDivide 1 1 0 = { rate := 0, preScalar := 0, period := 1, cnt := 1 } := by
  simp [timerResult]

/-- Claim C14. In the search branch (`xsps >= TMRMINSPS * scaleSPS`), when the
timer count `T` is 0 or even the divisor 256 leaves a rounded period above
`MAXTMRPRX`, the routine returns rate 0 with period 1, prescalar code 0 and
outer count 1. -/
theorem CalculatePreScalarAndPeriod_unreachable (TMRMINSPS MAXTMRPRX xsps scaleSPS pbClk : Nat)
    (hs : scaleSPS < 2 ^ 32) (hc : pbClk < 2 ^ 32)
    (hbranch : TMRMINSPS * scaleSPS ≤ xsps)
    (hT : timerCount xsps scaleSPS pbClk = 0 ∨
      MAXTMRPRX < roundDiv (timerCount xsps scaleSPS pbClk) 256) :
    CalculatePreScalarAndPeriod TMRMINSPS MAXTMRPRX xsps scaleSPS pbClk
      = { rate := 0, preScalar := 0, period := 1, cnt := 1 } := by
  have hzero : ∀ pbX : Nat,
      (if (prescalarFixup (prescalarSearch MAXTMRPRX 0 9 0 1)).2.2 = 0 ∨
          (prescalarFixup (prescalarSearch MAXTMRPRX 0 9 0 1)).1 = 9
        then timerResult 0 (prescalarFixup (prescalarSearch MAXTMRPRX 0 9 0 1)).2.1 1 1 0
        else timerResult pbX (prescalarFixup (prescalarSearch MAXTMRPRX 0 9 0 1)).2.1 1
          (prescalarFixup (prescalarSearch MAXTMRPRX 0 9 0 1)).2.2
          (prescalarFixup (prescalarSearch MAXTMRPRX 0 9 0 1)).1)
        = { rate := 0, preScalar := 0, period := 1, cnt := 1 } := by
    intro pbX
    have h0 : prescalarSearch MAXTMRPRX 0 9 0 1 = (0, 1, 0) := by
      rw [show (9 : Nat) = 8 + 1 from rfl, prescalarSearch]
      simp
    rw [h0]
    simp [prescalarFixup, timerResult]
  unfold CalculatePreScalarAndPeriod
  simp only []
  rw [if_neg (not_lt.mpr hbranch)]
  rcases timer_count_code xsps scaleSPS pbClk hs hc with ⟨ht, hw⟩ | ⟨ht, -⟩
  · rw [ht]
    rcases hT with h0 | hbig
    · rw [h0]
      exact hzero _
    · have hlt := timerCount_lt xsps scaleSPS pbClk hs hc hw
      rcases prescalar_search_fixup MAXTMRPRX _ hlt with ⟨k, hk8, hfit, -, -⟩ | ⟨-, hres⟩
      · have := roundDiv_256_le (timerCount xsps scaleSPS pbClk) k (by omega)
        omega
      · rw [hres]
        simp [timerResult]
  · rw [ht]
    exact hzero _

theorem CalculatePreScalarAndPeriod_unreachable_witness :
    CalculatePreScalarAndPeriod 6 65536 6000 1000 4000000000
      = { rate := 0, preScalar := 0, period := 1, cnt := 1 } :=
  CalculatePreScalarAndPeriod_unreachable 6 65536 6000 1000 4000000000 (by decide) (by decide)
    (by decide) (by decide)

/-- At the least fitting index the rounded period is at least 1. -/
theorem least_fit_pos (MAX T k : Nat) (hM1 : 1 ≤ MAX) (hT : 1 ≤ T) (hk8 : k ≤ 8)
    (hleast : ∀ i, i < k → MAX < roundDiv T (2 ^ i)) : 1 ≤ roundDiv T (2 ^ k) := by
  rcases k with _ | j
  · simp only [roundDiv, pow_zero]
    omega
  · have h := hleast j (Nat.lt_succ_self j)
    have hj : j ≤ 7 := by omega
    unfold roundDiv at h ⊢
    interval_cases j <;> norm_num at h ⊢ <;> omega

/-- The registers chosen by the search branch at the least fitting index `k`. -/
theorem search_branch_fields (TMRMINSPS MAXTMRPRX xsps scaleSPS pbClk k : Nat)
    (hs : scaleSPS < 2 ^ 32) (hc : pbClk < 2 ^ 32)
    (hM1 : 1 ≤ MAXTMRPRX) (hM : MAXTMRPRX < 2 ^ 32)
    (hw : pbClk * scaleSPS + xsps / 2 < 2 ^ 64)
    (hbranch : TMRMINSPS * scaleSPS ≤ xsps)
    (hT : 1 ≤ timerCount xsps scaleSPS pbClk)
    (hk8 : k ≤ 8)
    (hk : roundDiv (timerCount xsps scaleSPS pbClk) (2 ^ k) ≤ MAXTMRPRX)
    (hleast : ∀ i, i < k → MAXTMRPRX < roundDiv (timerCount xsps scaleSPS pbClk) (2 ^ i)) :
    (CalculatePreScalarAndPeriod TMRMINSPS MAXTMRPRX xsps scaleSPS pbClk).cnt = 1 ∧
    (CalculatePreScalarAndPeriod TMRMINSPS MAXTMRPRX xsps scaleSPS pbClk).preScalar
      = (if k ≤ 6 then k else 7) ∧
    (CalculatePreScalarAndPeriod TMRMINSPS MAXTMRPRX xsps scaleSPS pbClk).period
      = (if k = 7 then (roundDiv (timerCount xsps scaleSPS pbClk) 128 + 1) / 2
         else roundDiv (timerCount xsps scaleSPS pbClk) (2 ^ k)) := by
  have hlt := timerCount_lt xsps scaleSPS pbClk hs hc hw
  have hpos := least_fit_pos MAXTMRPRX _ k hM1 hT hk8 hleast
  have hcode : (pbClk * scaleSPS % 2 ^ 64 + xsps / 2) % 2 ^ 64 / xsps
      = timerCount xsps scaleSPS pbClk := by
    rcases timer_count_code xsps scaleSPS pbClk hs hc with ⟨ht, -⟩ | ⟨-, hge⟩
    · exact ht
    · omega
  unfold CalculatePreScalarAndPeriod
  simp only []
  rw [if_neg (not_lt.mpr hbranch), hcode]
  generalize timerCount xsps scaleSPS pbClk = T at *
  rcases prescalar_search_fixup MAXTMRPRX T hlt with ⟨j, -, hj, hjl, hres⟩ | ⟨hmiss, -⟩
  · have hjk : j = k := least_fit_unique MAXTMRPRX T j k hj hjl hk hleast
    subst hjk
    rw [hres]
    have hp : roundDiv T (2 ^ j) % 4294967296 = roundDiv T (2 ^ j) :=
      Nat.mod_eq_of_lt (by omega)
    have hnz : roundDiv T (2 ^ j) ≠ 0 := by omega
    interval_cases j
    all_goals norm_num at hp hnz hk
    all_goals simp [timerResult, hp, hnz]
    · have h2 : (roundDiv T 128 + 1) / 2 ≠ 0 := by omega
      have h3 : (roundDiv T 128 + 1) / 2 % 4294967296 = (roundDiv T 128 + 1) / 2 :=
        Nat.mod_eq_of_lt (by omega)
      simp [h2, h3]
  · have := hmiss k (by omega)
    omega

/-- The hardware divisors are exactly the divisors of the prescalar codes. -/
theorem hardware_divisor_index (d : Nat) (hd : d ∈ [1, 2, 4, 8, 16, 32, 64, 256]) :
    ∃ i, i ≤ 8 ∧ i ≠ 7 ∧ d = 2 ^ i := by
  simp only [List.mem_cons, List.mem_singleton, List.not_mem_nil, or_false] at hd
  rcases hd with h | h | h | h | h | h | h | h
  · exact ⟨0, by omega, by omega, by rw [h]; rfl⟩
  · exact ⟨1, by omega, by omega, by rw [h]; rfl⟩
  · exact ⟨2, by omega, by omega, by rw [h]; rfl⟩
  · exact ⟨3, by omega, by omega, by rw [h]; rfl⟩
  · exact ⟨4, by omega, by omega, by rw [h]; rfl⟩
  · exact ⟨5, by omega, by omega, by rw [h]; rfl⟩
  · exact ⟨6, by omega, by omega, by rw [h]; rfl⟩
  · exact ⟨8, by omega, by omega, by rw [h]; rfl⟩

/-- Claim C19, counterexample. With `pbClk = scaleSPS = 2^32 - 1` and
`xsps = 2^63` the count is `T = 2`, which fits at `k = 0`, so the claim gives
period `round(T / 1) = 2`; the 64-bit sum `pbClk * scaleSPS + xsps / 2` wraps
in the code, which ends in the error path with period 1. -/
theorem CalculatePreScalarAndPeriod_first_fit_wraps :
    6 * 4294967295 ≤ 2 ^ 63 ∧
    timerCount (2 ^ 63) 4294967295 4294967295 = 2 ∧
    roundDiv (timerCount (2 ^ 63) 4294967295 4294967295) 256 ≤ 65536 ∧
    roundDiv (timerCount (2 ^ 63) 4294967295 4294967295) (2 ^ 0) ≤ 65536 ∧
    (CalculatePreScalarAndPeriod 6 65536 (2 ^ 63) 4294967295 4294967295).period
      ≠ roundDiv (timerCount (2 ^ 63) 4294967295 4294967295) (2 ^ 0) ∧
    (CalculatePreScalarAndPeriod 6 65536 (2 ^ 63) 4294967295 4294967295).period = 1 := by
  decide

/-- Claim C19, amended. In the search branch, when the 64-bit sum
`pbClk * scaleSPS + floor(xsps / 2)` does not wrap, `T >= 1` and
`round(T / 256) <= MAXTMRPRX`, let `k` be the least index with
`round(T / 2^k) <= MAXTMRPRX`. Then `k <= 8`, the outer count is 1, and:
for `k <= 6` the code is `k` with period `round(T / 2^k)`; for `k = 8` the
code is 7 with period `round(T / 256)`; for `k = 7` the code is 7 with period
`floor((round(T / 128) + 1) / 2)`. The divisor of the code is the smallest
hardware divisor among 1, 2, 4, 8, 16, 32, 64, 256 whose rounded period
fits. -/
theorem CalculatePreScalarAndPeriod_first_fit
    (TMRMINSPS MAXTMRPRX xsps scaleSPS pbClk k : Nat)
    (hs : scaleSPS < 2 ^ 32) (hc : pbClk < 2 ^ 32)
    (hM1 : 1 ≤ MAXTMRPRX) (hM : MAXTMRPRX < 2 ^ 32)
    (hw : pbClk * scaleSPS + xsps / 2 < 2 ^ 64)
    (hbranch : TMRMINSPS * scaleSPS ≤ xsps)
    (hT : 1 ≤ timerCount xsps scaleSPS pbClk)
    (h256 : roundDiv (timerCount xsps scaleSPS pbClk) 256 ≤ MAXTMRPRX)
    (hk : roundDiv (timerCount xsps scaleSPS pbClk) (2 ^ k) ≤ MAXTMRPRX)
    (hleast : ∀ i, i < k → MAXTMRPRX < roundDiv (timerCount xsps scaleSPS pbClk) (2 ^ i)) :
    k ≤ 8 ∧
    (CalculatePreScalarAndPeriod TMRMINSPS MAXTMRPRX xsps scaleSPS pbClk).cnt = 1 ∧
    (k ≤ 6 →
      (CalculatePreScalarAndPeriod TMRMINSPS MAXTMRPRX xsps scaleSPS pbClk).preScalar = k ∧
      (CalculatePreScalarAndPeriod TMRMINSPS MAXTMRPRX xsps scaleSPS pbClk).period
        = roundDiv (timerCount xsps scaleSPS pbClk) (2 ^ k)) ∧
    (k = 8 →
      (CalculatePreScalarAndPeriod TMRMINSPS MAXTMRPRX xsps scaleSPS pbClk).preScalar = 7 ∧
      (CalculatePreScalarAndPeriod TMRMINSPS MAXTMRPRX xsps scaleSPS pbClk).period
        = roundDiv (timerCount xsps scaleSPS pbClk) 256) ∧
    (k = 7 →
      (CalculatePreScalarAndPeriod TMRMINSPS MAXTMRPRX xsps scaleSPS pbClk).preScalar = 7 ∧
      (CalculatePreScalarAndPeriod TMRMINSPS MAXTMRPRX xsps scaleSPS pbClk).period
        = (roundDiv (timerCount xsps scaleSPS pbClk) 128 + 1) / 2) ∧
    roundDiv (timerCount xsps scaleSPS pbClk)
        (prescalarDivisor
          (CalculatePreScalarAndPeriod TMRMINSPS MAXTMRPRX xsps scaleSPS pbClk).preScalar)
      ≤ MAXTMRPRX ∧
    ∀ d ∈ [1, 2, 4, 8, 16, 32, 64, 256],
      roundDiv (timerCount xsps scaleSPS pbClk) d ≤ MAXTMRPRX →
      prescalarDivisor
          (CalculatePreScalarAndPeriod TMRMINSPS MAXTMRPRX xsps scaleSPS pbClk).preScalar
        ≤ d := by
  have hk8 : k ≤ 8 := by
    by_contra hcon
    have := hleast 8 (by omega)
    norm_num at this
    omega
  obtain ⟨hcnt, hps, hper⟩ := search_branch_fields TMRMINSPS MAXTMRPRX xsps scaleSPS pbClk k
    hs hc hM1 hM hw hbranch hT hk8 hk hleast
  refine ⟨hk8, hcnt, ?_, ?_, ?_, ?_, ?_⟩
  · intro h6
    rw [hps, hper, if_pos h6, if_neg (by omega)]
    exact ⟨rfl, rfl⟩
  · intro h
    subst h
    rw [hps, hper]
    norm_num
  · intro h
    subst h
    rw [hps, hper]
    norm_num
  · rw [hps]
    by_cases h6 : k ≤ 6
    · rw [if_pos h6]
      have : prescalarDivisor k = 2 ^ k := by
        unfold prescalarDivisor
        rw [if_neg (by omega)]
      rw [this]
      exact hk
    · rw [if_neg h6]
      exact h256
  · intro d hd hfit
    obtain ⟨i, hi8, hi7, rfl⟩ := hardware_divisor_index d hd
    have hki : k ≤ i := by
      by_contra hcon
      have := hleast i (by omega)
      omega
    rw [hps]
    by_cases h6 : k ≤ 6
    · rw [if_pos h6]
      have : prescalarDivisor k = 2 ^ k := by
        unfold prescalarDivisor
        rw [if_neg (by omega)]
      rw [this]
      exact Nat.pow_le_pow_right (by norm_num) hki
    · rw [if_neg h6]
      have hi : i = 8 := by omega
      subst hi
      decide

theorem CalculatePreScalarAndPeriod_first_fit_witness :
    (CalculatePreScalarAndPeriod 6 65536 1000000 1000 100000000).preScalar = 1 ∧
    (CalculatePreScalarAndPeriod 6 65536 1000000 1000 100000000).period
      = roundDiv (timerCount 1000000 1000 100000000) (2 ^ 1) :=
  (CalculatePreScalarAndPeriod_first_fit 6 65536 1000000 1000 100000000 1 (by decide)
    (by decide) (by decide) (by decide) (by decide) (by decide) (by decide) (by decide)
    (by decide) (by decide)).2.2.1 (by decide)

/-- The low-rate split without 32-bit wraparound of the outer count: the
count is at least 1, fits 32 bits, and the period is at most `MAXTMRPRX`. -/
theorem lowRateSplit_spec (MAX T : Nat) (hM1 : 1 ≤ MAX) (hT : T + 256 < 2 ^ 64)
    (hcnt : (T + 128) / 256 / MAX + 1 < 2 ^ 32) :
    1 ≤ (lowRateSplit MAX T).2 ∧ (lowRateSplit MAX T).2 < 2 ^ 32 ∧
    (lowRateSplit MAX T).1 ≤ MAX := by
  have h1 : (T + 128) % 2 ^ 64 = T + 128 := Nat.mod_eq_of_lt (by omega)
  unfold lowRateSplit
  simp only [h1]
  have ht : (T + 128) / 256 < 2 ^ 56 := by omega
  generalize (T + 128) / 256 = t at *
  have hq : t / MAX % 2 ^ 32 = t / MAX := Nat.mod_eq_of_lt (by omega)
  have hq1 : (t / MAX + 1) % 2 ^ 32 = t / MAX + 1 := Nat.mod_eq_of_lt hcnt
  rw [hq, hq1]
  have hdm := Nat.div_add_mod t MAX
  have hmlt := Nat.mod_lt t (show 0 < MAX by omega)
  generalize hc : (if (if t % MAX > 0 then t / MAX + 1 else t / MAX) = 0 then 1
    else (if t % MAX > 0 then t / MAX + 1 else t / MAX)) = c
  have hc1 : 1 ≤ c := by
    rw [← hc]
    split_ifs <;> omega
  have hc2 : c < 2 ^ 32 := by
    rw [← hc]
    split_ifs <;> omega
  have hle : t ≤ c * MAX := by
    rw [← hc]
    by_cases ha : t % MAX > 0
    · rw [if_pos ha, if_neg (by omega), Nat.add_mul, Nat.mul_comm (t / MAX) MAX]
      omega
    · rw [if_neg ha]
      by_cases hb : t / MAX = 0
      · rw [if_pos hb]
        rw [hb] at hdm
        omega
      · rw [if_neg hb, Nat.mul_comm (t / MAX) MAX]
        omega
  refine ⟨hc1, hc2, ?_⟩
  have h2 : (t + c / 2) % 2 ^ 64 = t + c / 2 := Nat.mod_eq_of_lt (by omega)
  rw [h2]
  have : t + c / 2 < (MAX + 1) * c := by
    rw [Nat.add_mul, Nat.mul_comm MAX c]
    omega
  exact Nat.lt_succ_iff.mp ((Nat.div_lt_iff_lt_mul (by omega)).mpr this)

/-- The returned record when none of the 64-bit and 32-bit operations of the
final division wraps. -/
theorem timerResult_exact (pbXScale preDivide cnt tmr c : Nat)
    (hpb : pbXScale ≤ 2 ^ 64 - 2 ^ 33 + 1) (hcnt : cnt < 2 ^ 32) (htmr : tmr < 2 ^ 32)
    (hpd : 256 ≤ preDivide ∨ cnt = 1) :
    timerResult pbXScale preDivide cnt tmr c
      = { rate := (pbXScale / preDivide + cnt * tmr / 2) / (cnt * tmr)
          preScalar := c
          period := tmr
          cnt := cnt } := by
  have hprod : cnt * tmr ≤ (2 ^ 32 - 1) * (2 ^ 32 - 1) :=
    Nat.mul_le_mul (by omega) (by omega)
  have h1 : cnt * tmr % 2 ^ 64 = cnt * tmr := Nat.mod_eq_of_lt (by omega)
  have h2 : tmr % 2 ^ 32 = tmr := Nat.mod_eq_of_lt htmr
  have h3 : (pbXScale / preDivide + cnt * tmr / 2) % 2 ^ 64
      = pbXScale / preDivide + cnt * tmr / 2 := by
    apply Nat.mod_eq_of_lt
    rcases hpd with h | h
    · have : pbXScale / preDivide ≤ pbXScale / 256 := Nat.div_le_div_left h (by norm_num)
      omega
    · subst h
      have : pbXScale / preDivide ≤ pbXScale := Nat.div_le_self _ _
      rw [Nat.one_mul]
      omega
  unfold timerResult
  rw [h1, h2, h3]

/-- The fields returned by the search branch from a fix-up state
`(c, preDivide, tmr)` with a non-zero rate. -/
theorem search_result_fields (MAX pbXScale preDivide tmr c : Nat) (hM : MAX < 2 ^ 32)
    (hpb : pbXScale ≤ 2 ^ 64 - 2 ^ 33 + 1) (hc : c ≤ 7)
    (hpd : prescalarDivisor c = preDivide) (ht : tmr ≤ MAX) (r : TimerSetup)
    (hr : r = if tmr = 0 ∨ c = 9 then timerResult 0 preDivide 1 1 0
      else timerResult pbXScale preDivide 1 tmr c)
    (hR : r.rate ≠ 0) :
    r.preScalar ≤ 7 ∧ 1 ≤ r.cnt ∧ 1 ≤ r.period ∧ r.period ≤ MAX ∧
    r.rate = (pbXScale / prescalarDivisor r.preScalar + r.cnt * r.period / 2)
      / (r.cnt * r.period) := by
  by_cases hz : tmr = 0 ∨ c = 9
  · rw [if_pos hz, timerResult_error] at hr
    rw [hr] at hR
    exact absurd rfl hR
  · rw [if_neg hz, timerResult_exact pbXScale preDivide 1 tmr c hpb (by norm_num)
      (by omega) (Or.inr rfl)] at hr
    subst hr
    simp only [hpd]
    refine ⟨hc, le_rfl, ?_, ht, trivial⟩
    omega

/-- Claim C13. Absent wraparound of the 64-bit sum and of the 32-bit outer
count, a non-zero returned rate `R` is reproduced by the returned registers:
the prescalar code is in 0..7, `cnt >= 1`, `1 <= period <= MAXTMRPRX`, and
`R = floor((floor(pbClk * scaleSPS / D(c)) + floor(cnt * period / 2)) / (cnt * period))`
with `D(c)` the divisor of the code. -/
theorem CalculatePreScalarAndPeriod_rate (TMRMINSPS MAXTMRPRX xsps scaleSPS pbClk : Nat)
    (hs : scaleSPS < 2 ^ 32) (hc : pbClk < 2 ^ 32)
    (hM1 : 1 ≤ MAXTMRPRX) (hM : MAXTMRPRX < 2 ^ 32)
    (hw : pbClk * scaleSPS + xsps / 2 < 2 ^ 64)
    (hcnt : xsps < TMRMINSPS * scaleSPS →
      (timerCount xsps scaleSPS pbClk + 128) / 256 / MAXTMRPRX + 1 < 2 ^ 32)
    (hR : (CalculatePreScalarAndPeriod TMRMINSPS MAXTMRPRX xsps scaleSPS pbClk).rate ≠ 0) :
    (CalculatePreScalarAndPeriod TMRMINSPS MAXTMRPRX xsps scaleSPS pbClk).preScalar ≤ 7 ∧
    1 ≤ (CalculatePreScalarAndPeriod TMRMINSPS MAXTMRPRX xsps scaleSPS pbClk).cnt ∧
    1 ≤ (CalculatePreScalarAndPeriod TMRMINSPS MAXTMRPRX xsps scaleSPS pbClk).period ∧
    (CalculatePreScalarAndPeriod TMRMINSPS MAXTMRPRX xsps scaleSPS pbClk).period
      ≤ MAXTMRPRX ∧
    (CalculatePreScalarAndPeriod TMRMINSPS MAXTMRPRX xsps scaleSPS pbClk).rate
      = (pbClk * scaleSPS
            / prescalarDivisor
              (CalculatePreScalarAndPeriod TMRMINSPS MAXTMRPRX xsps scaleSPS pbClk).preScalar
          + (CalculatePreScalarAndPeriod TMRMINSPS MAXTMRPRX xsps scaleSPS pbClk).cnt
            * (CalculatePreScalarAndPeriod TMRMINSPS MAXTMRPRX xsps scaleSPS pbClk).period / 2)
        / ((CalculatePreScalarAndPeriod TMRMINSPS MAXTMRPRX xsps scaleSPS pbClk).cnt
            * (CalculatePreScalarAndPeriod TMRMINSPS MAXTMRPRX xsps scaleSPS pbClk).period) := by
  have hlt := timerCount_lt xsps scaleSPS pbClk hs hc hw
  have hpb := pbXScale_lt scaleSPS pbClk hs hc
  have hpbm : pbClk * scaleSPS % 2 ^ 64 = pbClk * scaleSPS := Nat.mod_eq_of_lt (by omega)
  have hcode : (pbClk * scaleSPS % 2 ^ 64 + xsps / 2) % 2 ^ 64 / xsps
      = timerCount xsps scaleSPS pbClk := by
    rcases timer_count_code xsps scaleSPS pbClk hs hc with ⟨ht, -⟩ | ⟨-, hge⟩
    · exact ht
    · omega
  generalize hr : CalculatePreScalarAndPeriod TMRMINSPS MAXTMRPRX xsps scaleSPS pbClk = r at *
  unfold CalculatePreScalarAndPeriod at hr
  simp only [] at hr
  rw [hcode, hpbm] at hr
  generalize timerCount xsps scaleSPS pbClk = T at *
  by_cases hb : xsps < TMRMINSPS * scaleSPS
  · rw [if_pos hb] at hr
    obtain ⟨h1, h2, h3⟩ := lowRateSplit_spec MAXTMRPRX T hM1 hlt (hcnt hb)
    generalize lowRateSplit MAXTMRPRX T = tc at *
    rw [timerResult_exact (pbClk * scaleSPS) 256 tc.2 tc.1 7 hpb h2 (by omega)
      (Or.inl le_rfl)] at hr
    subst hr
    have hnz : tc.1 ≠ 0 := by
      intro h0
      apply hR
      simp [h0]
    refine ⟨le_rfl, h1, by simp only []; omega, h3, ?_⟩
    simp [prescalarDivisor]
  · rw [if_neg hb] at hr
    rcases prescalar_search_fixup MAXTMRPRX T hlt with ⟨j, hj8, hj, hjl, hres⟩ | ⟨-, hres⟩
    · rw [hres] at hr
      by_cases h8 : j = 8
      · subst h8
        simp only [if_true] at hr
        exact search_result_fields MAXTMRPRX (pbClk * scaleSPS) 256 (roundDiv T 256) 7 hM hpb
          le_rfl (by decide) (by simpa using hj) r hr.symm hR
      · by_cases h7 : j = 7
        · subst h7
          simp only [if_true, if_false, h8] at hr
          refine search_result_fields MAXTMRPRX (pbClk * scaleSPS) 256
            ((roundDiv T 128 + 1) / 2) 7 hM hpb le_rfl (by decide) ?_ r hr.symm hR
          have : roundDiv T 128 ≤ MAXTMRPRX := by simpa using hj
          omega
        · simp only [if_false, h8, h7] at hr
          refine search_result_fields MAXTMRPRX (pbClk * scaleSPS) (2 ^ j)
            (roundDiv T (2 ^ j)) j hM hpb (by omega) ?_ hj r hr.symm hR
          unfold prescalarDivisor
          rw [if_neg h7]
    · rw [hres] at hr
      simp only [or_true, if_true] at hr
      rw [timerResult_error] at hr
      rw [← hr] at hR
      exact absurd rfl hR

theorem CalculatePreScalarAndPeriod_rate_witness :
    (CalculatePreScalarAndPeriod 6 65536 1000000 1000 100000000).period ≤ 65536 :=
  (CalculatePreScalarAndPeriod_rate 6 65536 1000000 1000 100000000 (by decide) (by decide)
    (by decide) (by decide) (by decide) (by decide) (by decide)).2.2.2.1

/-! ## ScrollBuffer -/

theorem toInt32_of_range (x : Int) (h1 : -2 ^ 31 ≤ x) (h2 : x < 2 ^ 31) : toInt32 x = x := by
  unfold toInt32 wrapInt
  split <;> omega

/-- The returned rate is at most the scaled clock plus one, whatever wraps. -/
theorem timerResult_rate_le (pbXScale preDivide cnt tmr c : Nat) :
    (timerResult pbXScale preDivide cnt tmr c).rate ≤ pbXScale + 1 := by
  unfold timerResult
  simp only []
  generalize cnt * tmr % 2 ^ 64 = d
  rcases Nat.eq_zero_or_pos d with h0 | hpos
  · subst h0
    simp
  · have h1 : (pbXScale / preDivide + d / 2) % 2 ^ 64 ≤ pbXScale / preDivide + d / 2 :=
      Nat.mod_le _ _
    have h2 : pbXScale / preDivide ≤ pbXScale := Nat.div_le_self _ _
    have h3 : pbXScale ≤ pbXScale * d := Nat.le_mul_of_pos_right _ hpos
    have h4 : (pbXScale / preDivide + d / 2) % 2 ^ 64 < (pbXScale + 1) * d := by
      rw [Nat.add_mul, Nat.one_mul]
      omega
    have h5 := (Nat.div_lt_iff_lt_mul hpos).mpr h4
    omega

theorem CalculatePreScalarAndPeriod_rate_le (TMRMINSPS MAXTMRPRX xsps scaleSPS pbClk : Nat) :
    (CalculatePreScalarAndPeriod TMRMINSPS MAXTMRPRX xsps scaleSPS pbClk).rate
      ≤ pbClk * scaleSPS + 1 := by
  have hm : pbClk * scaleSPS % 2 ^ 64 ≤ pbClk * scaleSPS := Nat.mod_le _ _
  unfold CalculatePreScalarAndPeriod
  simp only []
  split
  · exact le_trans (timerResult_rate_le _ _ _ _ _) (by omega)
  · split
    · exact le_trans (timerResult_rate_le _ _ _ _ _) (by omega)
    · exact le_trans (timerResult_rate_le _ _ _ _ _) (by omega)

/-- The rate after the timer set-up stage is below `2^44`. -/
theorem planRate_xsps_lt (TMRMINSPS MAXTMRPRX : Nat) (b : BIDX) :
    (planRate TMRMINSPS MAXTMRPRX b).xsps < 2 ^ 44 := by
  have hc : b.pbClkSampTmr % 2 ^ 32 < 2 ^ 32 := Nat.mod_lt _ (by norm_num)
  have h1 := CalculatePreScalarAndPeriod_rate_le TMRMINSPS MAXTMRPRX
    ((b.xsps + 1) % 2 ^ 64 / 2) 1000 (b.pbClkSampTmr % 2 ^ 32)
  have h2 := CalculatePreScalarAndPeriod_rate_le TMRMINSPS MAXTMRPRX
    (b.xsps % 2 ^ 64) 1000 (b.pbClkSampTmr % 2 ^ 32)
  unfold planRate
  simp only []
  split
  · have := Nat.mod_le (2 * (CalculatePreScalarAndPeriod TMRMINSPS MAXTMRPRX
      ((b.xsps + 1) % 2 ^ 64 / 2) 1000 (b.pbClkSampTmr % 2 ^ 32)).rate) (2 ^ 64)
    omega
  · omega

/-- The rate after the timer set-up stage: the rate of
`CalculatePreScalarAndPeriod`, doubled when interleaving. -/
theorem planRate_xsps (TMRMINSPS MAXTMRPRX : Nat) (b : BIDX) :
    (planRate TMRMINSPS MAXTMRPRX b).xsps
      = if b.xsps ≥ b.mHzInterleave then
          2 * (CalculatePreScalarAndPeriod TMRMINSPS MAXTMRPRX ((b.xsps + 1) % 2 ^ 64 / 2) 1000
            (b.pbClkSampTmr % 2 ^ 32)).rate
        else (CalculatePreScalarAndPeriod TMRMINSPS MAXTMRPRX (b.xsps % 2 ^ 64) 1000
            (b.pbClkSampTmr % 2 ^ 32)).rate := by
  have hc : b.pbClkSampTmr % 2 ^ 32 < 2 ^ 32 := Nat.mod_lt _ (by norm_num)
  have h1 := CalculatePreScalarAndPeriod_rate_le TMRMINSPS MAXTMRPRX
    ((b.xsps + 1) % 2 ^ 64 / 2) 1000 (b.pbClkSampTmr % 2 ^ 32)
  unfold planRate
  simp only []
  by_cases h : b.xsps ≥ b.mHzInterleave
  · simp only [h, decide_True, if_true]
    exact Nat.mod_eq_of_lt (by omega)
  · simp only [h, decide_False, if_false]
    simp

theorem placeIndexes_eq (b : BIDX) :
    placeIndexes b = { b with iPOI := (placeIndexes b).iPOI, iTrg := (placeIndexes b).iTrg } := by
  unfold placeIndexes
  simp only []
  split_ifs <;> rfl

theorem placeTrigDMA_eq (b : BIDX) :
    placeTrigDMA b = { b with iTrigDMA := (placeTrigDMA b).iTrigDMA } := by
  unfold placeTrigDMA
  split_ifs <;> rfl

/-- A successful call runs the four later stages on the timer set-up. -/
theorem CalculateBufferIndexes_success (TMRMINSPS MAXTMRPRX TMRPBCLK : Nat) (stk : Nat → Nat)
    (b : BIDX) (h : (CalculateBufferIndexes TMRMINSPS MAXTMRPRX TMRPBCLK stk b).1 = true) :
    (planRate TMRMINSPS MAXTMRPRX b).xsps ≠ 0 ∧
    CalculateBufferIndexes TMRMINSPS MAXTMRPRX TMRPBCLK stk b
      = (true, planTicks TMRPBCLK stk (placeTrigDMA (placeIndexes
          (planDelay stk (planRate TMRMINSPS MAXTMRPRX b))))) := by
  unfold CalculateBufferIndexes at h ⊢
  simp only [] at h ⊢
  by_cases h0 : (planRate TMRMINSPS MAXTMRPRX b).xsps = 0
  · rw [if_pos h0] at h
    simp at h
  · rw [if_neg h0]
    exact ⟨h0, rfl⟩

/-- Claim C17. The call returns false exactly when the achieved rate computed
by `CalculatePreScalarAndPeriod` (doubled when interleaving) is 0, and then
the fields `dlTrig2POI`, `psDelay`, `cBuff`, `iTrg`, `iPOI`, `iTrigDMA`,
`cBeforeTrig` and `cDelayTmr` are as they were before the call. -/
theorem CalculateBufferIndexes_unreachable_rate (TMRMINSPS MAXTMRPRX TMRPBCLK : Nat)
    (stk : Nat → Nat) (b : BIDX) :
    ((CalculateBufferIndexes TMRMINSPS MAXTMRPRX TMRPBCLK stk b).1 = false ↔
      (if b.xsps ≥ b.mHzInterleave then
          2 * (CalculatePreScalarAndPeriod TMRMINSPS MAXTMRPRX ((b.xsps + 1) % 2 ^ 64 / 2) 1000
            (b.pbClkSampTmr % 2 ^ 32)).rate
        else (CalculatePreScalarAndPeriod TMRMINSPS MAXTMRPRX (b.xsps % 2 ^ 64) 1000
            (b.pbClkSampTmr % 2 ^ 32)).rate) = 0) ∧
    ((CalculateBufferIndexes TMRMINSPS MAXTMRPRX TMRPBCLK stk b).1 = false →
      (CalculateBufferIndexes TMRMINSPS MAXTMRPRX TMRPBCLK stk b).2.dlTrig2POI = b.dlTrig2POI ∧
      (CalculateBufferIndexes TMRMINSPS MAXTMRPRX TMRPBCLK stk b).2.psDelay = b.psDelay ∧
      (CalculateBufferIndexes TMRMINSPS MAXTMRPRX TMRPBCLK stk b).2.cBuff = b.cBuff ∧
      (CalculateBufferIndexes TMRMINSPS MAXTMRPRX TMRPBCLK stk b).2.iTrg = b.iTrg ∧
      (CalculateBufferIndexes TMRMINSPS MAXTMRPRX TMRPBCLK stk b).2.iPOI = b.iPOI ∧
      (CalculateBufferIndexes TMRMINSPS MAXTMRPRX TMRPBCLK stk b).2.iTrigDMA = b.iTrigDMA ∧
      (CalculateBufferIndexes TMRMINSPS MAXTMRPRX TMRPBCLK stk b).2.cBeforeTrig = b.cBeforeTrig ∧
      (CalculateBufferIndexes TMRMINSPS MAXTMRPRX TMRPBCLK stk b).2.cDelayTmr = b.cDelayTmr) := by
  rw [← planRate_xsps]
  unfold CalculateBufferIndexes
  simp only []
  by_cases h0 : (planRate TMRMINSPS MAXTMRPRX b).xsps = 0
  · rw [if_pos h0]
    exact ⟨⟨fun _ => h0, fun _ => rfl⟩, fun _ => ⟨rfl, rfl, rfl, rfl, rfl, rfl, rfl, rfl⟩⟩
  · rw [if_neg h0]
    exact ⟨⟨fun h => by simp at h, fun h => absurd h h0⟩, fun h => by simp at h⟩

theorem toInt32_bounds (x : Int) : -2 ^ 31 ≤ toInt32 x ∧ toInt32 x < 2 ^ 31 := by
  unfold toInt32 wrapInt
  split <;> omega

theorem toInt64_bounds (x : Int) : -2 ^ 63 ≤ toInt64 x ∧ toInt64 x < 2 ^ 63 := by
  unfold toInt64 wrapInt
  split <;> omega

/-- The magnitude of the delay, away from `-2^63`. -/
theorem absTrig2POI_eq (b : BIDX) (h : -2 ^ 63 < b.dlTrig2POI) (h2 : b.dlTrig2POI < 2 ^ 63) :
    absTrig2POI b = |b.dlTrig2POI| := by
  unfold absTrig2POI
  split
  · rw [toInt64_of_range _ (by omega) (by omega), abs_of_neg (by assumption)]
  · rw [abs_of_nonneg (by omega)]

/-- Index placement when trigger and point of interest both fit. -/
theorem placeIndexes_both_fit (b : BIDX) (h1 : -b.cBuff < b.dlTrig2POI)
    (h2 : b.dlTrig2POI < b.cBuff) (h31 : b.cBuff < 2 ^ 31) :
    0 ≤ (placeIndexes b).iTrg ∧ (placeIndexes b).iTrg < b.cBuff ∧
    0 ≤ (placeIndexes b).iPOI ∧ (placeIndexes b).iPOI < b.cBuff ∧
    (placeIndexes b).iPOI - (placeIndexes b).iTrg = b.dlTrig2POI ∧
    (0 ≤ b.cBuff / 2 - b.dlTrig2POI → b.cBuff / 2 - b.dlTrig2POI < b.cBuff →
      (placeIndexes b).iPOI = b.cBuff / 2) ∧
    (b.cBuff / 2 - b.dlTrig2POI < 0 → (placeIndexes b).iTrg = 0) ∧
    (b.cBuff ≤ b.cBuff / 2 - b.dlTrig2POI → (placeIndexes b).iTrg = b.cBuff - 1) := by
  have habs : absTrig2POI b < b.cBuff := by
    rw [absTrig2POI_eq b (by omega) (by omega), abs_lt]
    exact ⟨h1, h2⟩
  have hdiv : Int.tdiv b.cBuff 2 = b.cBuff / 2 :=
    Int.tdiv_eq_ediv (by omega) (by norm_num)
  have hcast : toInt32 b.dlTrig2POI = b.dlTrig2POI :=
    toInt32_of_range _ (by omega) (by omega)
  unfold placeIndexes
  simp only []
  rw [if_pos habs, hdiv, hcast]
  split_ifs with ha hb
  all_goals simp only []
  all_goals refine ⟨by omega, by omega, by omega, by omega, by omega, ?_, ?_, ?_⟩
  all_goals intros
  all_goals first | trivial | omega

/-- Index placement when they do not both fit. -/
theorem placeIndexes_far (b : BIDX) (h : ¬ absTrig2POI b < b.cBuff) :
    (0 < b.dlTrig2POI → (placeIndexes b).iTrg = -1 ∧ (placeIndexes b).iPOI = Int.tdiv b.cBuff 2) ∧
    (¬ 0 < b.dlTrig2POI → (placeIndexes b).iTrg = b.cBuff - 1 ∧ (placeIndexes b).iPOI = -1) := by
  unfold placeIndexes
  simp only []
  rw [if_neg h]
  constructor
  · intro hp
    rw [if_pos (by omega)]
    exact ⟨rfl, rfl⟩
  · intro hp
    rw [if_neg (by omega)]
    exact ⟨rfl, rfl⟩

theorem placeIndexes_keeps (b : BIDX) :
    (placeIndexes b).dlTrig2POI = b.dlTrig2POI ∧ (placeIndexes b).cBuff = b.cBuff ∧
    (placeIndexes b).cDMA = b.cDMA ∧ (placeIndexes b).psDelay = b.psDelay ∧
    (placeIndexes b).xsps = b.xsps ∧ (placeIndexes b).cDMASlop = b.cDMASlop := by
  rw [placeIndexes_eq]
  exact ⟨rfl, rfl, rfl, rfl, rfl, rfl⟩

theorem placeTrigDMA_keeps (b : BIDX) :
    (placeTrigDMA b).dlTrig2POI = b.dlTrig2POI ∧ (placeTrigDMA b).cBuff = b.cBuff ∧
    (placeTrigDMA b).cDMA = b.cDMA ∧ (placeTrigDMA b).psDelay = b.psDelay ∧
    (placeTrigDMA b).xsps = b.xsps ∧ (placeTrigDMA b).cDMASlop = b.cDMASlop ∧
    (placeTrigDMA b).iPOI = b.iPOI ∧ (placeTrigDMA b).iTrg = b.iTrg := by
  rw [placeTrigDMA_eq]
  exact ⟨rfl, rfl, rfl, rfl, rfl, rfl, rfl, rfl⟩

theorem planTicks_keeps (TMRPBCLK : Nat) (stk : Nat → Nat) (b : BIDX) :
    (planTicks TMRPBCLK stk b).xsps = b.xsps ∧
    (planTicks TMRPBCLK stk b).dlTrig2POI = b.dlTrig2POI ∧
    (planTicks TMRPBCLK stk b).psDelay = b.psDelay ∧
    (planTicks TMRPBCLK stk b).cBuff = b.cBuff ∧
    (planTicks TMRPBCLK stk b).cDMA = b.cDMA ∧
    (planTicks TMRPBCLK stk b).cDMASlop = b.cDMASlop ∧
    (planTicks TMRPBCLK stk b).iTrg = b.iTrg ∧
    (planTicks TMRPBCLK stk b).iPOI = b.iPOI ∧
    (planTicks TMRPBCLK stk b).iTrigDMA = b.iTrigDMA :=
  ⟨rfl, rfl, rfl, rfl, rfl, rfl, rfl, rfl, rfl⟩

theorem planDelay_keeps (stk : Nat → Nat) (b : BIDX) :
    (planDelay stk b).xsps = b.xsps ∧ (planDelay stk b).cDMA = b.cDMA ∧
    (planDelay stk b).cDMASlop = b.cDMASlop := by
  cases b
  exact ⟨rfl, rfl, rfl⟩

theorem planRate_keeps (TMRMINSPS MAXTMRPRX : Nat) (b : BIDX) :
    (planRate TMRMINSPS MAXTMRPRX b).cDMA = b.cDMA ∧
    (planRate TMRMINSPS MAXTMRPRX b).cDMASlop = b.cDMASlop ∧
    (planRate TMRMINSPS MAXTMRPRX b).cBuff = b.cBuff ∧
    (planRate TMRMINSPS MAXTMRPRX b).cDMABuff = b.cDMABuff ∧
    (planRate TMRMINSPS MAXTMRPRX b).psDelay = b.psDelay :=
  ⟨rfl, rfl, rfl, rfl, rfl⟩

/-- The fields of a successful plan in terms of the stages. -/
theorem CalculateBufferIndexes_fields (TMRMINSPS MAXTMRPRX TMRPBCLK : Nat) (stk : Nat → Nat)
    (b : BIDX) (h : (CalculateBufferIndexes TMRMINSPS MAXTMRPRX TMRPBCLK stk b).1 = true) :
    (CalculateBufferIndexes TMRMINSPS MAXTMRPRX TMRPBCLK stk b).2.xsps
      = (planRate TMRMINSPS MAXTMRPRX b).xsps ∧
    (CalculateBufferIndexes TMRMINSPS MAXTMRPRX TMRPBCLK stk b).2.dlTrig2POI
      = (planDelay stk (planRate TMRMINSPS MAXTMRPRX b)).dlTrig2POI ∧
    (CalculateBufferIndexes TMRMINSPS MAXTMRPRX TMRPBCLK stk b).2.psDelay
      = (planDelay stk (planRate TMRMINSPS MAXTMRPRX b)).psDelay ∧
    (CalculateBufferIndexes TMRMINSPS MAXTMRPRX TMRPBCLK stk b).2.cBuff
      = (planDelay stk (planRate TMRMINSPS MAXTMRPRX b)).cBuff ∧
    (CalculateBufferIndexes TMRMINSPS MAXTMRPRX TMRPBCLK stk b).2.cDMA = b.cDMA ∧
    (CalculateBufferIndexes TMRMINSPS MAXTMRPRX TMRPBCLK stk b).2.cDMASlop = b.cDMASlop ∧
    (CalculateBufferIndexes TMRMINSPS MAXTMRPRX TMRPBCLK stk b).2.iTrg
      = (placeIndexes (planDelay stk (planRate TMRMINSPS MAXTMRPRX b))).iTrg ∧
    (CalculateBufferIndexes TMRMINSPS MAXTMRPRX TMRPBCLK stk b).2.iPOI
      = (placeIndexes (planDelay stk (planRate TMRMINSPS MAXTMRPRX b))).iPOI ∧
    (CalculateBufferIndexes TMRMINSPS MAXTMRPRX TMRPBCLK stk b).2.iTrigDMA
      = (placeTrigDMA (placeIndexes (planDelay stk (planRate TMRMINSPS MAXTMRPRX b)))).iTrigDMA := by
  rw [(CalculateBufferIndexes_success TMRMINSPS MAXTMRPRX TMRPBCLK stk b h).2]
  simp only []
  obtain ⟨r1, r2, -, -, -⟩ := planRate_keeps TMRMINSPS MAXTMRPRX b
  obtain ⟨d1, d2, d3⟩ := planDelay_keeps stk (planRate TMRMINSPS MAXTMRPRX b)
  obtain ⟨k1, k2, k3, k4, k5, k6⟩ := placeIndexes_keeps
    (planDelay stk (planRate TMRMINSPS MAXTMRPRX b))
  obtain ⟨t1, t2, t3, t4, t5, t6, t7, t8⟩ := placeTrigDMA_keeps
    (placeIndexes (planDelay stk (planRate TMRMINSPS MAXTMRPRX b)))
  obtain ⟨u1, u2, u3, u4, u5, u6, u7, u8, u9⟩ := planTicks_keeps TMRPBCLK stk
    (placeTrigDMA (placeIndexes (planDelay stk (planRate TMRMINSPS MAXTMRPRX b))))
  refine ⟨?_, ?_, ?_, ?_, ?_, ?_, ?_, ?_, ?_⟩
  · rw [u1, t5, k5, d1]
  · rw [u2, t1, k1]
  · rw [u3, t4, k4]
  · rw [u4, t2, k2]
  · rw [u5, t3, k3, d2, r1]
  · rw [u6, t6, k6, d3, r2]
  · rw [u7, t8]
  · rw [u8, t7]
  · rw [u9]

/-- The clamped return length. -/
theorem planDelay_cBuff (stk : Nat → Nat) (b : BIDX) :
    (planDelay stk b).cBuff = min b.cBuff b.cDMABuff := by
  unfold planDelay
  simp only []
  split
  · rw [min_eq_right (by omega)]
  · rw [min_eq_left (by omega)]

/-- Claim C16. For a successful plan whose sample delay satisfies
`|dlTrig2POI| < cBuff`, with `cBuff` the clamped return length (within the
`int32_t` range of the cast in the source): `0 <= iTrg < cBuff`,
`0 <= iPOI < cBuff`, `iPOI - iTrg = dlTrig2POI`; `iPOI = cBuff/2` when
`cBuff/2 - dlTrig2POI` lies in `[0, cBuff)`, `iTrg = 0` when it is below 0,
`iTrg = cBuff - 1` when it is at or beyond `cBuff`; with delay 0,
`iTrg = iPOI = cBuff/2`. -/
theorem CalculateBufferIndexes_both_fit (TMRMINSPS MAXTMRPRX TMRPBCLK : Nat) (stk : Nat → Nat)
    (b : BIDX) (hok : (CalculateBufferIndexes TMRMINSPS MAXTMRPRX TMRPBCLK stk b).1 = true)
    (hfit : |(CalculateBufferIndexes TMRMINSPS MAXTMRPRX TMRPBCLK stk b).2.dlTrig2POI|
      < (CalculateBufferIndexes TMRMINSPS MAXTMRPRX TMRPBCLK stk b).2.cBuff)
    (h31 : (CalculateBufferIndexes TMRMINSPS MAXTMRPRX TMRPBCLK stk b).2.cBuff < 2 ^ 31) :
    (CalculateBufferIndexes TMRMINSPS MAXTMRPRX TMRPBCLK stk b).2.cBuff
      = min b.cBuff b.cDMABuff ∧
    1 ≤ (CalculateBufferIndexes TMRMINSPS MAXTMRPRX TMRPBCLK stk b).2.cBuff ∧
    0 ≤ (CalculateBufferIndexes TMRMINSPS MAXTMRPRX TMRPBCLK stk b).2.iTrg ∧
    (CalculateBufferIndexes TMRMINSPS MAXTMRPRX TMRPBCLK stk b).2.iTrg
      < (CalculateBufferIndexes TMRMINSPS MAXTMRPRX TMRPBCLK stk b).2.cBuff ∧
    0 ≤ (CalculateBufferIndexes TMRMINSPS MAXTMRPRX TMRPBCLK stk b).2.iPOI ∧
    (CalculateBufferIndexes TMRMINSPS MAXTMRPRX TMRPBCLK stk b).2.iPOI
      < (CalculateBufferIndexes TMRMINSPS MAXTMRPRX TMRPBCLK stk b).2.cBuff ∧
    (CalculateBufferIndexes TMRMINSPS MAXTMRPRX TMRPBCLK stk b).2.iPOI
        - (CalculateBufferIndexes TMRMINSPS MAXTMRPRX TMRPBCLK stk b).2.iTrg
      = (CalculateBufferIndexes TMRMINSPS MAXTMRPRX TMRPBCLK stk b).2.dlTrig2POI ∧
    (0 ≤ (CalculateBufferIndexes TMRMINSPS MAXTMRPRX TMRPBCLK stk b).2.cBuff / 2
          - (CalculateBufferIndexes TMRMINSPS MAXTMRPRX TMRPBCLK stk b).2.dlTrig2POI →
      (CalculateBufferIndexes TMRMINSPS MAXTMRPRX TMRPBCLK stk b).2.cBuff / 2
          - (CalculateBufferIndexes TMRMINSPS MAXTMRPRX TMRPBCLK stk b).2.dlTrig2POI
        < (CalculateBufferIndexes TMRMINSPS MAXTMRPRX TMRPBCLK stk b).2.cBuff →
      (CalculateBufferIndexes TMRMINSPS MAXTMRPRX TMRPBCLK stk b).2.iPOI
        = (CalculateBufferIndexes TMRMINSPS MAXTMRPRX TMRPBCLK stk b).2.cBuff / 2) ∧
    ((CalculateBufferIndexes TMRMINSPS MAXTMRPRX TMRPBCLK stk b).2.cBuff / 2
          - (CalculateBufferIndexes TMRMINSPS MAXTMRPRX TMRPBCLK stk b).2.dlTrig2POI < 0 →
      (CalculateBufferIndexes TMRMINSPS MAXTMRPRX TMRPBCLK stk b).2.iTrg = 0) ∧
    ((CalculateBufferIndexes TMRMINSPS MAXTMRPRX TMRPBCLK stk b).2.cBuff
        ≤ (CalculateBufferIndexes TMRMINSPS MAXTMRPRX TMRPBCLK stk b).2.cBuff / 2
          - (CalculateBufferIndexes TMRMINSPS MAXTMRPRX TMRPBCLK stk b).2.dlTrig2POI →
      (CalculateBufferIndexes TMRMINSPS MAXTMRPRX TMRPBCLK stk b).2.iTrg
        = (CalculateBufferIndexes TMRMINSPS MAXTMRPRX TMRPBCLK stk b).2.cBuff - 1) ∧
    ((CalculateBufferIndexes TMRMINSPS MAXTMRPRX TMRPBCLK stk b).2.dlTrig2POI = 0 →
      (CalculateBufferIndexes TMRMINSPS MAXTMRPRX TMRPBCLK stk b).2.iTrg
        = (CalculateBufferIndexes TMRMINSPS MAXTMRPRX TMRPBCLK stk b).2.cBuff / 2 ∧
      (CalculateBufferIndexes TMRMINSPS MAXTMRPRX TMRPBCLK stk b).2.iPOI
        = (CalculateBufferIndexes TMRMINSPS MAXTMRPRX TMRPBCLK stk b).2.cBuff / 2) := by
  obtain ⟨-, f2, -, f4, -, -, f7, f8, -⟩ :=
    CalculateBufferIndexes_fields TMRMINSPS MAXTMRPRX TMRPBCLK stk b hok
  rw [f2, f4] at hfit
  rw [f4] at h31
  rw [f2, f4, f7, f8]
  have hmin := planDelay_cBuff stk (planRate TMRMINSPS MAXTMRPRX b)
  rw [(planRate_keeps TMRMINSPS MAXTMRPRX b).2.2.1,
    (planRate_keeps TMRMINSPS MAXTMRPRX b).2.2.2.1] at hmin
  generalize planDelay stk (planRate TMRMINSPS MAXTMRPRX b) = bd at *
  rw [abs_lt] at hfit
  obtain ⟨p1, p2, p3, p4, p5, p6, p7, p8⟩ := placeIndexes_both_fit bd hfit.1 hfit.2 h31
  refine ⟨hmin, by omega, p1, p2, p3, p4, p5, p6, p7, p8, ?_⟩
  intro h0
  rw [h0] at p5 p6
  have := p6 (by omega) (by omega)
  omega

theorem samplesMag_lt (p x : Nat) (hp : p ≤ 2 ^ 63) (hx : x < 2 ^ 44) :
    samplesMag p x 1000 < 2 ^ 62 := by
  have h : p * x ≤ 2 ^ 63 * 2 ^ 44 := Nat.mul_le_mul hp hx.le
  unfold samplesMag
  omega

/-- The sample delay of the plan in closed form; it stays far from the ends
of `int64_t`. -/
theorem planDelay_dl (stk : Nat → Nat) (b : BIDX) (hX : b.xsps < 2 ^ 44) :
    (planDelay stk b).dlTrig2POI
      = (if toInt64 b.psDelay < 0
          then -(samplesMag (toInt64 b.psDelay).natAbs b.xsps 1000 : Int)
          else samplesMag (toInt64 b.psDelay).natAbs b.xsps 1000) ∧
    -2 ^ 62 < (planDelay stk b).dlTrig2POI ∧ (planDelay stk b).dlTrig2POI < 2 ^ 62 := by
  have e : (planDelay stk b).dlTrig2POI
      = GetSamples stk (toInt64 b.psDelay) (toInt64 b.xsps) 1000 := by
    simp only [planDelay]
  have hx64 : toInt64 (b.xsps : Int) = b.xsps := toInt64_of_range _ (by omega) (by omega)
  obtain ⟨hb1, hb2⟩ := toInt64_bounds b.psDelay
  have hp : (toInt64 b.psDelay).natAbs ≤ 2 ^ 63 := by omega
  have hm := samplesMag_lt (toInt64 b.psDelay).natAbs b.xsps hp hX
  have hs := GetSamples_signed stk (toInt64 b.psDelay) (b.xsps : Int) 1000 hb1 hb2 (by omega)
    (by omega) (by norm_num) (by norm_num)
    (by rw [Int.natAbs_ofNat]; omega)
  rw [Int.natAbs_ofNat] at hs
  rw [e, hx64, hs]
  refine ⟨rfl, ?_, ?_⟩
  · split <;> omega
  · split <;> omega

theorem planDelay_ps (stk : Nat → Nat) (b : BIDX) (hX : b.xsps < 2 ^ 44) :
    (planDelay stk b).psDelay = GetPicoSec stk (planDelay stk b).dlTrig2POI b.xsps 1000 := by
  have e : (planDelay stk b).psDelay
      = GetPicoSec stk (planDelay stk b).dlTrig2POI (toInt64 b.xsps) 1000 := by
    simp only [planDelay]
  rw [e, toInt64_of_range (b.xsps : Int) (by omega) (by omega)]

/-- The trigger index is absent or equals the DMA trigger index. -/
theorem trigger_DMA_agree (b : BIDX) (hdl : -2 ^ 63 < b.dlTrig2POI)
    (hdl2 : b.dlTrig2POI < 2 ^ 63) (h31 : b.cBuff < 2 ^ 31) (hdma : b.cBuff ≤ b.cDMA) :
    (placeIndexes b).iTrg = -1 ∨
    (placeIndexes b).iTrg = (placeTrigDMA (placeIndexes b)).iTrigDMA := by
  obtain ⟨k1, k2, k3, -, -, -⟩ := placeIndexes_keeps b
  have habs := absTrig2POI_eq b hdl hdl2
  have habs2 : absTrig2POI (placeIndexes b) = |b.dlTrig2POI| := by
    rw [← habs]
    unfold absTrig2POI
    rw [k1]
  by_cases hfit : absTrig2POI b < b.cBuff
  · rw [habs, abs_lt] at hfit
    obtain ⟨p1, p2, p3, p4, p5, -, -, -⟩ := placeIndexes_both_fit b hfit.1 hfit.2 h31
    right
    unfold placeTrigDMA
    rw [if_neg (by omega), k1, k3, habs2]
    by_cases hpos : b.dlTrig2POI > 0
    · rw [if_pos hpos]
      simp only []
      have ht : Int.tmod b.dlTrig2POI b.cDMA = b.dlTrig2POI :=
        Int.tmod_eq_of_lt (by omega) (by omega)
      have hsum : (placeIndexes b).iPOI + b.cDMA - b.dlTrig2POI
          = (placeIndexes b).iTrg + b.cDMA := by omega
      rw [abs_of_pos hpos, ht, hsum, Int.tmod_eq_emod (by omega) (by omega),
        Int.add_emod_self, Int.emod_eq_of_lt p1 (by omega)]
    · rw [if_neg hpos]
      simp only []
      rw [abs_of_nonpos (by omega)]
      have : (placeIndexes b).iPOI + -b.dlTrig2POI = (placeIndexes b).iTrg := by omega
      rw [this, Int.tmod_eq_of_lt p1 (by omega)]
  · obtain ⟨q1, q2⟩ := placeIndexes_far b hfit
    by_cases hpos : 0 < b.dlTrig2POI
    · left
      exact (q1 hpos).1
    · right
      obtain ⟨q3, q4⟩ := q2 hpos
      unfold placeTrigDMA
      rw [if_pos q4]
      simp only []
      rw [q3, k2]

/-- Claim C15. For a successful plan with clamped return length
`cBuff = min(cBuff, cDMABuff) >= 1` (within `int32_t`) and DMA ring length
`cDMA >= cBuff`, the remainders are by a positive `cDMA` and the outputs
satisfy `iTrg = -1` or `iTrg = iTrigDMA`: the assertion at the end of the
index computation holds, in all three placement cases and for either sign of
`dlTrig2POI`. -/
theorem CalculateBufferIndexes_trigger_DMA (TMRMINSPS MAXTMRPRX TMRPBCLK : Nat)
    (stk : Nat → Nat) (b : BIDX)
    (hok : (CalculateBufferIndexes TMRMINSPS MAXTMRPRX TMRPBCLK stk b).1 = true)
    (hc1 : 1 ≤ min b.cBuff b.cDMABuff) (h31 : min b.cBuff b.cDMABuff < 2 ^ 31)
    (hdma : min b.cBuff b.cDMABuff ≤ b.cDMA) :
    (CalculateBufferIndexes TMRMINSPS MAXTMRPRX TMRPBCLK stk b).2.cBuff
      = min b.cBuff b.cDMABuff ∧
    0 < (CalculateBufferIndexes TMRMINSPS MAXTMRPRX TMRPBCLK stk b).2.cDMA ∧
    ((CalculateBufferIndexes TMRMINSPS MAXTMRPRX TMRPBCLK stk b).2.iTrg = -1 ∨
      (CalculateBufferIndexes TMRMINSPS MAXTMRPRX TMRPBCLK stk b).2.iTrg
        = (CalculateBufferIndexes TMRMINSPS MAXTMRPRX TMRPBCLK stk b).2.iTrigDMA) := by
  obtain ⟨-, -, -, f4, f5, -, f7, -, f9⟩ :=
    CalculateBufferIndexes_fields TMRMINSPS MAXTMRPRX TMRPBCLK stk b hok
  have hmin := planDelay_cBuff stk (planRate TMRMINSPS MAXTMRPRX b)
  rw [(planRate_keeps TMRMINSPS MAXTMRPRX b).2.2.1,
    (planRate_keeps TMRMINSPS MAXTMRPRX b).2.2.2.1] at hmin
  have hcd : (planDelay stk (planRate TMRMINSPS MAXTMRPRX b)).cDMA = b.cDMA := by
    rw [(planDelay_keeps stk _).2.1, (planRate_keeps TMRMINSPS MAXTMRPRX b).1]
  obtain ⟨-, d2, d3⟩ := planDelay_dl stk (planRate TMRMINSPS MAXTMRPRX b)
    (planRate_xsps_lt TMRMINSPS MAXTMRPRX b)
  rw [f4, f5, f7, f9]
  refine ⟨hmin, lt_of_lt_of_le (lt_of_lt_of_le Int.zero_lt_one hc1) hdma, ?_⟩
  exact trigger_DMA_agree (planDelay stk (planRate TMRMINSPS MAXTMRPRX b))
    (lt_trans (by norm_num) d2) (lt_trans d3 (by norm_num))
    (by rw [hmin]; exact h31) (by rw [hmin, hcd]; exact hdma)

theorem CalculateBufferIndexes_trigger_DMA_witness :
    (CalculateBufferIndexes 6 65536 100000000 (fun _ => 0) demoPlan).2.iTrg = -1 ∨
    (CalculateBufferIndexes 6 65536 100000000 (fun _ => 0) demoPlan).2.iTrg
      = (CalculateBufferIndexes 6 65536 100000000 (fun _ => 0) demoPlan).2.iTrigDMA :=
  (CalculateBufferIndexes_trigger_DMA 6 65536 100000000 (fun _ => 0) demoPlan (by decide)
    (by decide) (by decide) (by decide)).2.2

theorem toInt64_idem (x : Int) : toInt64 (toInt64 x) = toInt64 x :=
  toInt64_of_range _ (toInt64_bounds x).1 (toInt64_bounds x).2

theorem GetPicoSec_range (stk : Nat → Nat) (samp xsps : Int) (scaleSPS : Nat) :
    toInt64 (GetPicoSec stk samp xsps scaleSPS) = GetPicoSec stk samp xsps scaleSPS := by
  have : ∃ y, GetPicoSec stk samp xsps scaleSPS = toInt64 y := by
    unfold GetPicoSec
    exact ⟨_, rfl⟩
  obtain ⟨y, hy⟩ := this
  rw [hy, toInt64_idem]

theorem tdiv_two_bounds (c : Int) (h1 : -2 ^ 31 ≤ c) (h2 : c < 2 ^ 31) :
    -2 ^ 31 ≤ Int.tdiv c 2 ∧ Int.tdiv c 2 < 2 ^ 31 := by
  rcases le_or_lt 0 c with h | h
  · rw [Int.tdiv_eq_ediv h (by norm_num)]
    omega
  · have e : c = -(-c) := by omega
    rw [e, Int.neg_tdiv, Int.tdiv_eq_ediv (by omega) (by norm_num)]
    omega

/-- The point-of-interest index stays within a few multiples of `2^31`. -/
theorem placeIndexes_iPOI_bounds (b : BIDX) (h1 : -2 ^ 31 ≤ b.cBuff) (h2 : b.cBuff < 2 ^ 31) :
    -2 ^ 33 < (placeIndexes b).iPOI ∧ (placeIndexes b).iPOI < 2 ^ 33 := by
  obtain ⟨t1, t2⟩ := tdiv_two_bounds b.cBuff h1 h2
  obtain ⟨c1, c2⟩ := toInt32_bounds b.dlTrig2POI
  unfold placeIndexes
  simp only []
  generalize Int.tdiv b.cBuff 2 = hf at *
  generalize toInt32 b.dlTrig2POI = d at *
  split_ifs
  all_goals simp only []
  all_goals omega

/-- The timer-tick delay computed by the last stage, from the fields it
reads. -/
theorem planTicks_cDelayTmr (TMRPBCLK : Nat) (stk : Nat → Nat) (b : BIDX)
    (hps : toInt64 b.psDelay = b.psDelay) (hx : b.xsps < 2 ^ 63)
    (hc1 : -2 ^ 63 ≤ (b.cBuff - b.iPOI) + Int.tdiv b.cDMASlop 2)
    (hc2 : (b.cBuff - b.iPOI) + Int.tdiv b.cDMASlop 2 < 2 ^ 63) :
    (planTicks TMRPBCLK stk b).cDelayTmr
      = max 1 (GetSamples stk b.psDelay ((TMRPBCLK * 1000 : Nat) : Int) 1000
          + GetSamples stk
              (GetPicoSec stk ((b.cBuff - b.iPOI) + Int.tdiv b.cDMASlop 2) b.xsps 1000)
              ((TMRPBCLK * 1000 : Nat) : Int) 1000) := by
  have e : (planTicks TMRPBCLK stk b).cDelayTmr
      = if GetSamples stk (toInt64 b.psDelay) ((TMRPBCLK * 1000 : Nat) : Int) 1000
          + GetSamples stk
              (GetPicoSec stk (toInt64 ((b.cBuff - b.iPOI) + Int.tdiv b.cDMASlop 2))
                (toInt64 b.xsps) 1000)
              ((TMRPBCLK * 1000 : Nat) : Int) 1000 ≤ 0 then 1
        else GetSamples stk (toInt64 b.psDelay) ((TMRPBCLK * 1000 : Nat) : Int) 1000
          + GetSamples stk
              (GetPicoSec stk (toInt64 ((b.cBuff - b.iPOI) + Int.tdiv b.cDMASlop 2))
                (toInt64 b.xsps) 1000)
              ((TMRPBCLK * 1000 : Nat) : Int) 1000 := by
    simp only [planTicks]
  rw [e, hps, toInt64_of_range _ hc1 hc2, toInt64_of_range (b.xsps : Int) (by omega) (by omega)]
  generalize GetSamples stk b.psDelay ((TMRPBCLK * 1000 : Nat) : Int) 1000
    + GetSamples stk
        (GetPicoSec stk ((b.cBuff - b.iPOI) + Int.tdiv b.cDMASlop 2) b.xsps 1000)
        ((TMRPBCLK * 1000 : Nat) : Int) 1000 = t
  split
  · rw [max_eq_left (by omega)]
  · rw [max_eq_right (by omega)]

/-- The timer-tick delay of a successful plan, in terms of the stages. -/
theorem plan_cDelayTmr (TMRMINSPS MAXTMRPRX TMRPBCLK : Nat) (stk : Nat → Nat) (b : BIDX)
    (hok : (CalculateBufferIndexes TMRMINSPS MAXTMRPRX TMRPBCLK stk b).1 = true)
    (hc1 : -2 ^ 31 ≤ min b.cBuff b.cDMABuff) (hc2 : min b.cBuff b.cDMABuff < 2 ^ 31)
    (hs1 : -2 ^ 31 ≤ b.cDMASlop) (hs2 : b.cDMASlop < 2 ^ 31) :
    (CalculateBufferIndexes TMRMINSPS MAXTMRPRX TMRPBCLK stk b).2.cDelayTmr
      = max 1 (GetSamples stk
            (CalculateBufferIndexes TMRMINSPS MAXTMRPRX TMRPBCLK stk b).2.psDelay
            ((TMRPBCLK * 1000 : Nat) : Int) 1000
          + GetSamples stk
              (GetPicoSec stk
                (((CalculateBufferIndexes TMRMINSPS MAXTMRPRX TMRPBCLK stk b).2.cBuff
                    - (CalculateBufferIndexes TMRMINSPS MAXTMRPRX TMRPBCLK stk b).2.iPOI)
                  + Int.tdiv (CalculateBufferIndexes TMRMINSPS MAXTMRPRX TMRPBCLK stk b).2.cDMASlop 2)
                (CalculateBufferIndexes TMRMINSPS MAXTMRPRX TMRPBCLK stk b).2.xsps 1000)
              ((TMRPBCLK * 1000 : Nat) : Int) 1000) := by
  obtain ⟨f1, -, f3, f4, -, f6, -, f8, -⟩ :=
    CalculateBufferIndexes_fields TMRMINSPS MAXTMRPRX TMRPBCLK stk b hok
  have hmin := planDelay_cBuff stk (planRate TMRMINSPS MAXTMRPRX b)
  rw [(planRate_keeps TMRMINSPS MAXTMRPRX b).2.2.1,
    (planRate_keeps TMRMINSPS MAXTMRPRX b).2.2.2.1] at hmin
  have hX := planRate_xsps_lt TMRMINSPS MAXTMRPRX b
  have hps := planDelay_ps stk (planRate TMRMINSPS MAXTMRPRX b) hX
  obtain ⟨k1, k2, k3, k4, k5, k6⟩ := placeIndexes_keeps
    (planDelay stk (planRate TMRMINSPS MAXTMRPRX b))
  obtain ⟨t1, t2, t3, t4, t5, t6, t7, t8⟩ := placeTrigDMA_keeps
    (placeIndexes (planDelay stk (planRate TMRMINSPS MAXTMRPRX b)))
  obtain ⟨d1, d2, d3⟩ := planDelay_keeps stk (planRate TMRMINSPS MAXTMRPRX b)
  obtain ⟨r1, r2, -, -, -⟩ := planRate_keeps TMRMINSPS MAXTMRPRX b
  obtain ⟨i1, i2⟩ := placeIndexes_iPOI_bounds (planDelay stk (planRate TMRMINSPS MAXTMRPRX b))
    (by rw [hmin]; exact hc1) (by rw [hmin]; exact hc2)
  obtain ⟨s1, s2⟩ := tdiv_two_bounds b.cDMASlop hs1 hs2
  have key := planTicks_cDelayTmr TMRPBCLK stk
    (placeTrigDMA (placeIndexes (planDelay stk (planRate TMRMINSPS MAXTMRPRX b))))
    (by rw [t4, k4, hps, GetPicoSec_range])
    (by rw [t5, k5, d1]; omega)
    (by rw [t2, k2, t7, t6, k6, d3, r2, hmin]; omega)
    (by rw [t2, k2, t7, t6, k6, d3, r2, hmin]; omega)
  rw [f1, f3, f4, f6, f8]
  rw [t4, k4, t2, k2, t7, t6, k6, d3, r2, t5, k5, d1] at key
  rw [← key, (CalculateBufferIndexes_success TMRMINSPS MAXTMRPRX TMRPBCLK stk b hok).2]

theorem demo_ticks_zero : GetSamples (fun _ => 0) 0 100000000000 1000 = 0 := by
  rw [GetSamples_eq _ _ _ _ (by decide) (by decide) (by decide) (by decide) (by decide)
    (by decide)]
  decide

theorem demo_ticks_requested : GetSamples (fun _ => 0) 400000 100000000000 1000 = 40 := by
  rw [GetSamples_eq _ _ _ _ (by decide) (by decide) (by decide) (by decide) (by decide)
    (by decide)]
  decide

theorem demo_picosec_zero : GetPicoSec (fun _ => 0) 0 1000000000 1000 = 0 := by
  rw [GetPicoSec_eq _ _ _ _ (by decide) (by decide) (by decide) (by decide) (by decide)]
  decide

theorem demo_picosec_tail : GetPicoSec (fun _ => 0) 508 1000000000 1000 = 508000000 := by
  rw [GetPicoSec_eq _ _ _ _ (by decide) (by decide) (by decide) (by decide) (by decide)]
  decide

theorem demo_ticks_tail : GetSamples (fun _ => 0) 508000000 100000000000 1000 = 50800 := by
  rw [GetSamples_eq _ _ _ _ (by decide) (by decide) (by decide) (by decide) (by decide)
    (by decide)]
  decide

/-- The plan computed for `demoPlan`. -/
theorem demoPlan_out :
    (CalculateBufferIndexes 6 65536 100000000 (fun _ => 0) demoPlan).1 = true ∧
    (CalculateBufferIndexes 6 65536 100000000 (fun _ => 0) demoPlan).2.xsps = 1000000000 ∧
    (CalculateBufferIndexes 6 65536 100000000 (fun _ => 0) demoPlan).2.dlTrig2POI = 0 ∧
    (CalculateBufferIndexes 6 65536 100000000 (fun _ => 0) demoPlan).2.psDelay = 0 ∧
    (CalculateBufferIndexes 6 65536 100000000 (fun _ => 0) demoPlan).2.cBuff = 1000 ∧
    (CalculateBufferIndexes 6 65536 100000000 (fun _ => 0) demoPlan).2.iPOI = 500 ∧
    (CalculateBufferIndexes 6 65536 100000000 (fun _ => 0) demoPlan).2.iTrg = 500 ∧
    (CalculateBufferIndexes 6 65536 100000000 (fun _ => 0) demoPlan).2.cDMASlop = 16 ∧
    (CalculateBufferIndexes 6 65536 100000000 (fun _ => 0) demoPlan).2.cDelayTmr = 50800 := by
  have hok : (CalculateBufferIndexes 6 65536 100000000 (fun _ => 0) demoPlan).1 = true := by
    decide
  obtain ⟨f1, f2, f3, f4, -, f6, f7, f8, -⟩ :=
    CalculateBufferIndexes_fields 6 65536 100000000 (fun _ => 0) demoPlan hok
  have hX : (planRate 6 65536 demoPlan).xsps = 1000000000 := by decide
  have hXlt := planRate_xsps_lt 6 65536 demoPlan
  have hdl : (planDelay (fun _ => 0) (planRate 6 65536 demoPlan)).dlTrig2POI = 0 := by
    rw [(planDelay_dl (fun _ => 0) (planRate 6 65536 demoPlan) hXlt).1]
    decide
  have hps : (planDelay (fun _ => 0) (planRate 6 65536 demoPlan)).psDelay = 0 := by
    rw [planDelay_ps _ _ hXlt, hdl, hX]
    exact demo_picosec_zero
  have hcb : (planDelay (fun _ => 0) (planRate 6 65536 demoPlan)).cBuff = 1000 := by
    rw [planDelay_cBuff]
    decide
  obtain ⟨-, -, -, -, p5, p6, -, -⟩ := placeIndexes_both_fit
    (planDelay (fun _ => 0) (planRate 6 65536 demoPlan))
    (by rw [hdl, hcb]; decide) (by rw [hdl, hcb]; decide) (by rw [hcb]; decide)
  rw [hcb, hdl] at p6
  rw [hdl] at p5
  have hpoi : (placeIndexes (planDelay (fun _ => 0) (planRate 6 65536 demoPlan))).iPOI = 500 :=
    p6 (by decide) (by decide)
  have htrg : (placeIndexes (planDelay (fun _ => 0) (planRate 6 65536 demoPlan))).iTrg = 500 := by
    omega
  have hslop : demoPlan.cDMASlop = 16 := rfl
  have hticks := plan_cDelayTmr 6 65536 100000000 (fun _ => 0) demoPlan hok (by decide)
    (by decide) (by decide) (by decide)
  rw [f1, f3, f4, f6, f8, hX, hps, hcb, hpoi, hslop] at hticks
  have h508 : ((1000 : Int) - 500) + Int.tdiv 16 2 = 508 := by decide
  have hclk : ((100000000 * 1000 : Nat) : Int) = 100000000000 := by norm_num
  have hrate : ((1000000000 : Nat) : Int) = 1000000000 := by norm_num
  rw [h508, hclk, hrate, demo_picosec_tail, demo_ticks_zero, demo_ticks_tail] at hticks
  refine ⟨hok, ?_, ?_, ?_, ?_, ?_, ?_, ?_, ?_⟩
  · rw [f1, hX]
  · rw [f2, hdl]
  · rw [f3, hps]
  · rw [f4, hcb]
  · rw [f8, hpoi]
  · rw [f7, htrg]
  · rw [f6, hslop]
  · rw [hticks]
    decide

/-- Claim C18, counterexample. For `demoPlan` (requested delay 400000 ps at
1 MS/s, timer clock 100 MHz) the plan succeeds with the delay rounded to 0
samples and written back as 0 ps, and `cDelayTmr` is 50800; the formula of
the claim, taken with the requested delay 400000 ps, gives 40 + 50800. -/
theorem CalculateBufferIndexes_delay_ticks_requested :
    (CalculateBufferIndexes 6 65536 100000000 (fun _ => 0) demoPlan).1 = true ∧
    (CalculateBufferIndexes 6 65536 100000000 (fun _ => 0) demoPlan).2.cDelayTmr = 50800 ∧
    max 1 (GetSamples (fun _ => 0) demoPlan.psDelay ((100000000 * 1000 : Nat) : Int) 1000
      + GetSamples (fun _ => 0)
          (GetPicoSec (fun _ => 0)
            (((CalculateBufferIndexes 6 65536 100000000 (fun _ => 0) demoPlan).2.cBuff
                - (CalculateBufferIndexes 6 65536 100000000 (fun _ => 0) demoPlan).2.iPOI)
              + Int.tdiv
                (CalculateBufferIndexes 6 65536 100000000 (fun _ => 0) demoPlan).2.cDMASlop 2)
            (CalculateBufferIndexes 6 65536 100000000 (fun _ => 0) demoPlan).2.xsps 1000)
          ((100000000 * 1000 : Nat) : Int) 1000) = 50840 := by
  obtain ⟨hok, o1, -, -, o4, o5, -, o7, o8⟩ := demoPlan_out
  refine ⟨hok, o8, ?_⟩
  have hreq : demoPlan.psDelay = 400000 := rfl
  have h508 : ((1000 : Int) - 500) + Int.tdiv 16 2 = 508 := by decide
  have hclk : ((100000000 * 1000 : Nat) : Int) = 100000000000 := by norm_num
  have hrate : ((1000000000 : Nat) : Int) = 1000000000 := by norm_num
  rw [o1, o4, o5, o7, hreq, h508, hclk, hrate, demo_picosec_tail, demo_ticks_requested,
    demo_ticks_tail]
  decide

/-- Claim C18, amended. For every successful plan (clamped `cBuff` and
`cDMASlop` within `int32_t`), `cDelayTmr = max(1, GetSamples(P, TMRPBCLK*1000,
1000) + GetSamples(GetPicoSec((cBuff - iPOI) + cDMASlop/2, xsps, 1000),
TMRPBCLK*1000, 1000))` where `P` is the rounded achievable delay written back
into the plan, `P = GetPicoSec(dlTrig2POI, xsps, 1000)`, `xsps` is the
achieved rate and `cBuff`, `iPOI` are the outputs; hence `cDelayTmr >= 1`. -/
theorem CalculateBufferIndexes_delay_ticks (TMRMINSPS MAXTMRPRX TMRPBCLK : Nat)
    (stk : Nat → Nat) (b : BIDX)
    (hok : (CalculateBufferIndexes TMRMINSPS MAXTMRPRX TMRPBCLK stk b).1 = true)
    (hc1 : -2 ^ 31 ≤ min b.cBuff b.cDMABuff) (hc2 : min b.cBuff b.cDMABuff < 2 ^ 31)
    (hs1 : -2 ^ 31 ≤ b.cDMASlop) (hs2 : b.cDMASlop < 2 ^ 31) :
    (CalculateBufferIndexes TMRMINSPS MAXTMRPRX TMRPBCLK stk b).2.psDelay
      = GetPicoSec stk (CalculateBufferIndexes TMRMINSPS MAXTMRPRX TMRPBCLK stk b).2.dlTrig2POI
          (CalculateBufferIndexes TMRMINSPS MAXTMRPRX TMRPBCLK stk b).2.xsps 1000 ∧
    (CalculateBufferIndexes TMRMINSPS MAXTMRPRX TMRPBCLK stk b).2.cDelayTmr
      = max 1 (GetSamples stk
            (CalculateBufferIndexes TMRMINSPS MAXTMRPRX TMRPBCLK stk b).2.psDelay
            ((TMRPBCLK * 1000 : Nat) : Int) 1000
          + GetSamples stk
              (GetPicoSec stk
                (((CalculateBufferIndexes TMRMINSPS MAXTMRPRX TMRPBCLK stk b).2.cBuff
                    - (CalculateBufferIndexes TMRMINSPS MAXTMRPRX TMRPBCLK stk b).2.iPOI)
                  + Int.tdiv (CalculateBufferIndexes TMRMINSPS MAXTMRPRX TMRPBCLK stk b).2.cDMASlop 2)
                (CalculateBufferIndexes TMRMINSPS MAXTMRPRX TMRPBCLK stk b).2.xsps 1000)
              ((TMRPBCLK * 1000 : Nat) : Int) 1000) ∧
    1 ≤ (CalculateBufferIndexes TMRMINSPS MAXTMRPRX TMRPBCLK stk b).2.cDelayTmr := by
  obtain ⟨f1, f2, f3, -, -, -, -, -, -⟩ :=
    CalculateBufferIndexes_fields TMRMINSPS MAXTMRPRX TMRPBCLK stk b hok
  have hps := planDelay_ps stk (planRate TMRMINSPS MAXTMRPRX b)
    (planRate_xsps_lt TMRMINSPS MAXTMRPRX b)
  have key := plan_cDelayTmr TMRMINSPS MAXTMRPRX TMRPBCLK stk b hok hc1 hc2 hs1 hs2
  refine ⟨?_, key, ?_⟩
  · rw [f1, f2, f3, hps]
  · rw [key]
    exact le_max_left _ _

theorem CalculateBufferIndexes_delay_ticks_witness :
    1 ≤ (CalculateBufferIndexes 6 65536 100000000 (fun _ => 0) demoPlan).2.cDelayTmr :=
  (CalculateBufferIndexes_delay_ticks 6 65536 100000000 (fun _ => 0) demoPlan (by decide)
    (by decide) (by decide) (by decide) (by decide)).2.2

theorem CalculateBufferIndexes_both_fit_witness :
    (CalculateBufferIndexes 6 65536 100000000 (fun _ => 0) demoPlan).2.iPOI
        - (CalculateBufferIndexes 6 65536 100000000 (fun _ => 0) demoPlan).2.iTrg
      = (CalculateBufferIndexes 6 65536 100000000 (fun _ => 0) demoPlan).2.dlTrig2POI :=
  (CalculateBufferIndexes_both_fit 6 65536 100000000 (fun _ => 0) demoPlan (by decide)
    (by rw [demoPlan_out.2.2.1, demoPlan_out.2.2.2.2.1]; decide)
    (by rw [demoPlan_out.2.2.2.2.1]; decide)).2.2.2.2.2.2.1

/-- The call succeeds exactly when the achieved rate is not 0. -/
theorem CalculateBufferIndexes_ok_iff (TMRMINSPS MAXTMRPRX TMRPBCLK : Nat) (stk : Nat → Nat)
    (b : BIDX) :
    (CalculateBufferIndexes TMRMINSPS MAXTMRPRX TMRPBCLK stk b).1 = true ↔
      (planRate TMRMINSPS MAXTMRPRX b).xsps ≠ 0 := by
  constructor
  · intro h
    exact (CalculateBufferIndexes_success TMRMINSPS MAXTMRPRX TMRPBCLK stk b h).1
  · intro h
    unfold CalculateBufferIndexes
    simp only []
    rw [if_neg h]

/-- The clock fields pass through a successful plan unchanged. -/
theorem CalculateBufferIndexes_clock (TMRMINSPS MAXTMRPRX TMRPBCLK : Nat) (stk : Nat → Nat)
    (b : BIDX) (h : (CalculateBufferIndexes TMRMINSPS MAXTMRPRX TMRPBCLK stk b).1 = true) :
    (CalculateBufferIndexes TMRMINSPS MAXTMRPRX TMRPBCLK stk b).2.mHzInterleave
      = b.mHzInterleave ∧
    (CalculateBufferIndexes TMRMINSPS MAXTMRPRX TMRPBCLK stk b).2.pbClkSampTmr
      = b.pbClkSampTmr := by
  rw [(CalculateBufferIndexes_success TMRMINSPS MAXTMRPRX TMRPBCLK stk b h).2]
  simp only []
  have h1 : ∀ x : BIDX, (planTicks TMRPBCLK stk x).mHzInterleave = x.mHzInterleave ∧
      (planTicks TMRPBCLK stk x).pbClkSampTmr = x.pbClkSampTmr := fun x => ⟨rfl, rfl⟩
  have h2 : ∀ x : BIDX, (placeTrigDMA x).mHzInterleave = x.mHzInterleave ∧
      (placeTrigDMA x).pbClkSampTmr = x.pbClkSampTmr := by
    intro x
    rw [placeTrigDMA_eq]
    exact ⟨rfl, rfl⟩
  have h3 : ∀ x : BIDX, (placeIndexes x).mHzInterleave = x.mHzInterleave ∧
      (placeIndexes x).pbClkSampTmr = x.pbClkSampTmr := by
    intro x
    rw [placeIndexes_eq]
    exact ⟨rfl, rfl⟩
  have h4 : ∀ x : BIDX, (planDelay stk x).mHzInterleave = x.mHzInterleave ∧
      (planDelay stk x).pbClkSampTmr = x.pbClkSampTmr := by
    intro x
    cases x
    exact ⟨rfl, rfl⟩
  have h5 : (planRate TMRMINSPS MAXTMRPRX b).mHzInterleave = b.mHzInterleave ∧
      (planRate TMRMINSPS MAXTMRPRX b).pbClkSampTmr = b.pbClkSampTmr := ⟨rfl, rfl⟩
  constructor
  · rw [(h1 _).1, (h2 _).1, (h3 _).1, (h4 _).1, h5.1]
  · rw [(h1 _).2, (h2 _).2, (h3 _).2, (h4 _).2, h5.2]

/-- The delay fields of a plan whose achieved rate is `X`. -/
theorem plan_delay_closed (TMRMINSPS MAXTMRPRX TMRPBCLK : Nat) (stk : Nat → Nat) (b : BIDX)
    (X : Nat) (hX : (planRate TMRMINSPS MAXTMRPRX b).xsps = X) (hX0 : X ≠ 0) :
    (CalculateBufferIndexes TMRMINSPS MAXTMRPRX TMRPBCLK stk b).1 = true ∧
    (CalculateBufferIndexes TMRMINSPS MAXTMRPRX TMRPBCLK stk b).2.xsps = X ∧
    (CalculateBufferIndexes TMRMINSPS MAXTMRPRX TMRPBCLK stk b).2.dlTrig2POI
      = (if toInt64 b.psDelay < 0 then -(samplesMag (toInt64 b.psDelay).natAbs X 1000 : Int)
          else samplesMag (toInt64 b.psDelay).natAbs X 1000) ∧
    (CalculateBufferIndexes TMRMINSPS MAXTMRPRX TMRPBCLK stk b).2.psDelay
      = GetPicoSec stk (CalculateBufferIndexes TMRMINSPS MAXTMRPRX TMRPBCLK stk b).2.dlTrig2POI
          X 1000 := by
  have hok : (CalculateBufferIndexes TMRMINSPS MAXTMRPRX TMRPBCLK stk b).1 = true :=
    (CalculateBufferIndexes_ok_iff TMRMINSPS MAXTMRPRX TMRPBCLK stk b).mpr (by rw [hX]; exact hX0)
  obtain ⟨f1, f2, f3, -, -, -, -, -, -⟩ :=
    CalculateBufferIndexes_fields TMRMINSPS MAXTMRPRX TMRPBCLK stk b hok
  have hXlt := planRate_xsps_lt TMRMINSPS MAXTMRPRX b
  have hdl := (planDelay_dl stk (planRate TMRMINSPS MAXTMRPRX b) hXlt).1
  have hps := planDelay_ps stk (planRate TMRMINSPS MAXTMRPRX b) hXlt
  rw [(planRate_keeps TMRMINSPS MAXTMRPRX b).2.2.2.2, hX] at hdl
  rw [hX] at hps
  refine ⟨hok, ?_, ?_, ?_⟩
  · rw [f1, hX]
  · rw [f2, hdl]
  · rw [f3, f2, hps]

theorem planDelay_dl_def (stk : Nat → Nat) (b : BIDX) :
    (planDelay stk b).dlTrig2POI
      = GetSamples stk (toInt64 b.psDelay) (toInt64 b.xsps) 1000 := by
  simp only [planDelay]

/-- Claim C20, counterexample. Planning `slowPlan` (22.233 S/s requested,
delay one second) succeeds at the achieved rate 22.232 S/s with 22 samples
and `psDelay = 989564591580`; planning again from these outputs succeeds at
22.231 S/s, because the rate calculation does not reproduce its own result,
and writes `psDelay = 989609104404`. -/
theorem CalculateBufferIndexes_replan_drifts :
    (CalculateBufferIndexes 6 65536 100000000 (fun _ => 0) slowPlan).1 = true ∧
    (CalculateBufferIndexes 6 65536 100000000 (fun _ => 0)
      (CalculateBufferIndexes 6 65536 100000000 (fun _ => 0) slowPlan).2).1 = true ∧
    (CalculateBufferIndexes 6 65536 100000000 (fun _ => 0) slowPlan).2.xsps = 22232 ∧
    (CalculateBufferIndexes 6 65536 100000000 (fun _ => 0)
      (CalculateBufferIndexes 6 65536 100000000 (fun _ => 0) slowPlan).2).2.xsps = 22231 ∧
    (CalculateBufferIndexes 6 65536 100000000 (fun _ => 0) slowPlan).2.psDelay
      = 989564591580 ∧
    (CalculateBufferIndexes 6 65536 100000000 (fun _ => 0)
      (CalculateBufferIndexes 6 65536 100000000 (fun _ => 0) slowPlan).2).2.psDelay
      = 989609104404 ∧
    (CalculateBufferIndexes 6 65536 100000000 (fun _ => 0)
      (CalculateBufferIndexes 6 65536 100000000 (fun _ => 0) slowPlan).2).2.psDelay
      ≠ (CalculateBufferIndexes 6 65536 100000000 (fun _ => 0) slowPlan).2.psDelay := by
  obtain ⟨hok1, x1, d1, p1⟩ := plan_delay_closed 6 65536 100000000 (fun _ => 0) slowPlan 22232
    (by decide) (by decide)
  have hd1 : (CalculateBufferIndexes 6 65536 100000000 (fun _ => 0) slowPlan).2.dlTrig2POI
      = 22 := by
    rw [d1]
    decide
  have hp1 : (CalculateBufferIndexes 6 65536 100000000 (fun _ => 0) slowPlan).2.psDelay
      = 989564591580 := by
    rw [p1, hd1, GetPicoSec_eq _ _ _ _ (by decide) (by decide) (by decide) (by decide)
      (by decide)]
    decide
  obtain ⟨c1, c2⟩ := CalculateBufferIndexes_clock 6 65536 100000000 (fun _ => 0) slowPlan hok1
  have hX2 : (planRate 6 65536
      (CalculateBufferIndexes 6 65536 100000000 (fun _ => 0) slowPlan).2).xsps = 22231 := by
    rw [planRate_xsps, x1, c1, c2]
    decide
  obtain ⟨hok2, x2, d2, p2⟩ := plan_delay_closed 6 65536 100000000 (fun _ => 0)
    (CalculateBufferIndexes 6 65536 100000000 (fun _ => 0) slowPlan).2 22231 hX2 (by decide)
  have hd2 : (CalculateBufferIndexes 6 65536 100000000 (fun _ => 0)
      (CalculateBufferIndexes 6 65536 100000000 (fun _ => 0) slowPlan).2).2.dlTrig2POI
      = 22 := by
    rw [d2, hp1]
    decide
  have hp2 : (CalculateBufferIndexes 6 65536 100000000 (fun _ => 0)
      (CalculateBufferIndexes 6 65536 100000000 (fun _ => 0) slowPlan).2).2.psDelay
      = 989609104404 := by
    rw [p2, hd2, GetPicoSec_eq _ _ _ _ (by decide) (by decide) (by decide) (by decide)
      (by decide)]
    decide
  refine ⟨hok1, hok2, x1, x2, hp1, hp2, ?_⟩
  rw [hp1, hp2]
  decide

/-- The written-back delay of a successful plan converts back to the written
sample count, when writing it back did not overflow `int64_t`. -/
theorem plan_delay_samples (TMRMINSPS MAXTMRPRX TMRPBCLK : Nat) (stk : Nat → Nat) (b : BIDX)
    (hok : (CalculateBufferIndexes TMRMINSPS MAXTMRPRX TMRPBCLK stk b).1 = true)
    (hqb : picosecMag
        (CalculateBufferIndexes TMRMINSPS MAXTMRPRX TMRPBCLK stk b).2.dlTrig2POI.natAbs
        (CalculateBufferIndexes TMRMINSPS MAXTMRPRX TMRPBCLK stk b).2.xsps 1000 < 2 ^ 63) :
    GetSamples stk (CalculateBufferIndexes TMRMINSPS MAXTMRPRX TMRPBCLK stk b).2.psDelay
        (CalculateBufferIndexes TMRMINSPS MAXTMRPRX TMRPBCLK stk b).2.xsps 1000
      = (CalculateBufferIndexes TMRMINSPS MAXTMRPRX TMRPBCLK stk b).2.dlTrig2POI := by
  obtain ⟨f1, f2, f3, -, -, -, -, -, -⟩ :=
    CalculateBufferIndexes_fields TMRMINSPS MAXTMRPRX TMRPBCLK stk b hok
  have hne := (CalculateBufferIndexes_success TMRMINSPS MAXTMRPRX TMRPBCLK stk b hok).1
  have hXlt := planRate_xsps_lt TMRMINSPS MAXTMRPRX b
  obtain ⟨-, b1, b2⟩ := planDelay_dl stk (planRate TMRMINSPS MAXTMRPRX b) hXlt
  have hps := planDelay_ps stk (planRate TMRMINSPS MAXTMRPRX b) hXlt
  rw [f1, f2] at hqb
  rw [f1, f2, f3, hps]
  generalize (planRate TMRMINSPS MAXTMRPRX b).xsps = X at *
  generalize (planDelay stk (planRate TMRMINSPS MAXTMRPRX b)).dlTrig2POI = dl at *
  have h10 : (10 : Int) ^ 12 = 1000000000000 := by norm_num
  exact GetSamples_GetPicoSec stk dl (X : Int) 1000 (by omega) (by omega) (by omega) (by omega)
    (by norm_num) (by norm_num) (by rw [h10]; push_cast; omega)
    (by rw [Int.natAbs_ofNat]; exact hqb)

/-- Claim C20, amended. For every sample count `n`, rate `0 < xsps <= 2^56`
and scale `1 <= scaleSPS <= 18446744` with `xsps < scaleSPS * 10^12` and no
`int64_t` overflow, `GetSamples(GetPicoSec(n, xsps, scaleSPS), xsps,
scaleSPS) = n`; after a successful `CalculateBufferIndexes` whose write-back
did not overflow, converting the written-back `psDelay` to samples at the
achieved rate gives the written `dlTrig2POI`; and planning again from the
outputs does not change `psDelay` or `dlTrig2POI` when the second planning
achieves the same rate as the first. -/
theorem plan_delay_round_trip (stk : Nat → Nat) (n xsps : Int) (scaleSPS : Nat)
    (TMRMINSPS MAXTMRPRX TMRPBCLK : Nat) (b : BIDX)
    (hn : -2 ^ 63 < n) (hn2 : n < 2 ^ 63) (hx : 0 < xsps) (hx2 : xsps ≤ 2 ^ 56)
    (hs : 1 ≤ scaleSPS) (hs2 : scaleSPS ≤ 18446744)
    (hlt : xsps < (scaleSPS : Int) * 10 ^ 12)
    (hq : picosecMag n.natAbs xsps.natAbs scaleSPS < 2 ^ 63)
    (hok : (CalculateBufferIndexes TMRMINSPS MAXTMRPRX TMRPBCLK stk b).1 = true)
    (hqb : picosecMag
        (CalculateBufferIndexes TMRMINSPS MAXTMRPRX TMRPBCLK stk b).2.dlTrig2POI.natAbs
        (CalculateBufferIndexes TMRMINSPS MAXTMRPRX TMRPBCLK stk b).2.xsps 1000 < 2 ^ 63) :
    GetSamples stk (GetPicoSec stk n xsps scaleSPS) xsps scaleSPS = n ∧
    GetSamples stk (CalculateBufferIndexes TMRMINSPS MAXTMRPRX TMRPBCLK stk b).2.psDelay
        (CalculateBufferIndexes TMRMINSPS MAXTMRPRX TMRPBCLK stk b).2.xsps 1000
      = (CalculateBufferIndexes TMRMINSPS MAXTMRPRX TMRPBCLK stk b).2.dlTrig2POI ∧
    ((CalculateBufferIndexes TMRMINSPS MAXTMRPRX TMRPBCLK stk
        (CalculateBufferIndexes TMRMINSPS MAXTMRPRX TMRPBCLK stk b).2).1 = true →
      (CalculateBufferIndexes TMRMINSPS MAXTMRPRX TMRPBCLK stk
        (CalculateBufferIndexes TMRMINSPS MAXTMRPRX TMRPBCLK stk b).2).2.xsps
        = (CalculateBufferIndexes TMRMINSPS MAXTMRPRX TMRPBCLK stk b).2.xsps →
      (CalculateBufferIndexes TMRMINSPS MAXTMRPRX TMRPBCLK stk
        (CalculateBufferIndexes TMRMINSPS MAXTMRPRX TMRPBCLK stk b).2).2.psDelay
        = (CalculateBufferIndexes TMRMINSPS MAXTMRPRX TMRPBCLK stk b).2.psDelay ∧
      (CalculateBufferIndexes TMRMINSPS MAXTMRPRX TMRPBCLK stk
        (CalculateBufferIndexes TMRMINSPS MAXTMRPRX TMRPBCLK stk b).2).2.dlTrig2POI
        = (CalculateBufferIndexes TMRMINSPS MAXTMRPRX TMRPBCLK stk b).2.dlTrig2POI) := by
  have part2 := plan_delay_samples TMRMINSPS MAXTMRPRX TMRPBCLK stk b hok hqb
  refine ⟨GetSamples_GetPicoSec stk n xsps scaleSPS hn hn2 hx hx2 hs hs2 hlt hq, part2, ?_⟩
  intro hok2 hsame
  obtain ⟨f1, f2, f3, -, -, -, -, -, -⟩ :=
    CalculateBufferIndexes_fields TMRMINSPS MAXTMRPRX TMRPBCLK stk b hok
  have hXlt := planRate_xsps_lt TMRMINSPS MAXTMRPRX b
  have hps := planDelay_ps stk (planRate TMRMINSPS MAXTMRPRX b) hXlt
  have hwb : (CalculateBufferIndexes TMRMINSPS MAXTMRPRX TMRPBCLK stk b).2.psDelay
      = GetPicoSec stk (CalculateBufferIndexes TMRMINSPS MAXTMRPRX TMRPBCLK stk b).2.dlTrig2POI
          (CalculateBufferIndexes TMRMINSPS MAXTMRPRX TMRPBCLK stk b).2.xsps 1000 := by
    rw [f1, f2, f3, hps]
  generalize CalculateBufferIndexes TMRMINSPS MAXTMRPRX TMRPBCLK stk b = out at *
  obtain ⟨g1, g2, g3, -, -, -, -, -, -⟩ :=
    CalculateBufferIndexes_fields TMRMINSPS MAXTMRPRX TMRPBCLK stk out.2 hok2
  have hYlt := planRate_xsps_lt TMRMINSPS MAXTMRPRX out.2
  have hY : (planRate TMRMINSPS MAXTMRPRX out.2).xsps = out.2.xsps := by
    rw [← g1, hsame]
  have hdl2 : (planDelay stk (planRate TMRMINSPS MAXTMRPRX out.2)).dlTrig2POI
      = out.2.dlTrig2POI := by
    rw [planDelay_dl_def, (planRate_keeps TMRMINSPS MAXTMRPRX out.2).2.2.2.2, hY,
      toInt64_of_range (out.2.xsps : Int) (by omega) (by omega)]
    have hr : toInt64 out.2.psDelay = out.2.psDelay := by
      rw [hwb, GetPicoSec_range]
    rw [hr, part2]
  have hps2 := planDelay_ps stk (planRate TMRMINSPS MAXTMRPRX out.2) hYlt
  constructor
  · rw [g3, hps2, hdl2, hY, ← hwb]
  · rw [g2, hdl2]

theorem plan_delay_round_trip_witness :
    GetSamples (fun _ => 0) (GetPicoSec (fun _ => 0) 5 1000000000 1000) 1000000000 1000 = 5 :=
  (plan_delay_round_trip (fun _ => 0) 5 1000000000 1000 6 65536 100000000 demoPlan (by decide)
    (by decide) (by decide) (by decide) (by decide) (by decide) (by decide) (by decide)
    (by decide) (by rw [demoPlan_out.2.2.1, demoPlan_out.2.1]; decide)).1

end OSMath
